import Mathlib

/-!
# libmlocale: phone numbers, symbol mixing, index buckets, categories and date formats

A shallow embedding of parts of `src/mlocale.cpp` (class `MLocale` and
`MLocalePrivate`) together with theorems about them.

Conventions of the embedding

* `QChar` is one UTF-16 code unit, a natural number; `QString` is the list of
  the code units of a string.  Strings are assumed to be well-formed UTF-16
  wherever they are handed to the regular expression engine.
* A function of the source that may read outside a container
  (`QString::at`, `QList::last`, `QList::operator[]`) returns an `Option`:
  `none` stands for the out-of-range read, whose behaviour Qt leaves
  undefined (an assertion failure in a debug build).  A member call through a
  null pointer is `none` in the same way.
* A `QCache` is the list of its entries, the most recently used one first,
  every object with cost 1.
* Services of Qt's Unicode tables and of ICU that are not part of the
  repository are parameters, collected in structures; so are the methods of
  `MCalendar` (`CalendarOps`), whose source is not at hand.
* The loop of `weekNumberStartingFromDay` runs for at most `fuel` iterations;
  `none` stands for a loop that has not ended by then.
-/

namespace MLocale

/-! ## Strings -/

/-- One UTF-16 code unit, as stored by `QChar`. -/
abbrev QChar := Nat

/-- The code units of a `QString`. -/
abbrev QString := List QChar

/-- The UTF-16 code units of one Unicode scalar value. -/
def utf16Units (c : Char) : QString :=
  if c.toNat < 0x10000 then [c.toNat]
  else [0xD800 + (c.toNat - 0x10000) / 0x400, 0xDC00 + (c.toNat - 0x10000) % 0x400]

/-- The string literal conversions `QString::fromUtf8("...")`,
`QLatin1String("...")` and `QString("...")` applied to a literal. -/
def fromUtf8 (s : String) : QString :=
  s.toList.flatMap utf16Units

/-- Embeds `QChar::isHighSurrogate`: `(ucs & 0xfc00) == 0xd800`. -/
def isHighSurrogate (c : Nat) : Bool :=
  decide (0xD800 ≤ c) && decide (c ≤ 0xDBFF)

/-- Embeds `QString::at(i)`: defined only for `0 <= i < size()`. -/
def QString_at (s : QString) (i : Nat) : Option QChar :=
  s.get? i

/-- Embeds `QString::left(n)` for `n >= 0`: the whole string when `n >= size()`. -/
def left (s : QString) (n : Nat) : QString :=
  s.take n

/-- Embeds `QString::remove(0, n)` for `n >= 0`. -/
def removeFront (s : QString) (n : Nat) : QString :=
  s.drop n

/-- Embeds `QString::startsWith(const QString &)`, case sensitive. -/
def startsWith (s t : QString) : Bool :=
  t.isPrefixOf s

/-- ASCII digit test, the meaning of `\d` in a `QRegularExpression` built
without `UseUnicodePropertiesOption`. -/
def isAsciiDigit (c : Nat) : Bool :=
  decide (48 ≤ c) && decide (c ≤ 57)

/-! ## The fragment of PCRE used by the patterns of `mlocale.cpp` -/

/-- Regular expressions: the constructs that occur in the patterns of the
embedded functions.  Alternatives are ordered and repetition is greedy, as in
PCRE. -/
inductive Re where
  /-- Matches the empty string. -/
  | empty : Re
  /-- One code unit satisfying a predicate (a literal, a class, or `.`). -/
  | cls : (QChar → Bool) → Re
  /-- Concatenation. -/
  | seq : Re → Re → Re
  /-- Ordered alternative `a|b`; `a?` is `alt a empty`. -/
  | alt : Re → Re → Re
  /-- Greedy repetition `c*` of a one-unit class. -/
  | star : (QChar → Bool) → Re
  /-- Capturing group number `n`. -/
  | group : Nat → Re → Re
  /-- Start of subject: `^` (no multiline option) and `\A`. -/
  | bol : Re
  /-- The anchor `$` (no multiline option): at the very end of the subject or
  before a line feed that is its last character. -/
  | eol : Re
  /-- The anchor `\z`: only at the very end of the subject. -/
  | eos : Re

/-- The groups set so far, most recent first, with the text they captured. -/
abbrev Caps := List (Nat × QString)

/-- Continuation of a match: position, rest of the subject, groups. -/
abbrev Cont := Nat → QString → Caps → Option Caps

/-- Greedy `c*` followed by the continuation `k`, with backtracking. -/
def starRun (p : QChar → Bool) (k : Cont) (caps : Caps) : Nat → QString → Option Caps
  | pos, [] => k pos [] caps
  | pos, c :: cs =>
    if p c then
      match starRun p k caps (pos + 1) cs with
      | some r => some r
      | none => k pos (c :: cs) caps
    else k pos (c :: cs) caps

/-- Backtracking matcher: match `r` at position `pos` of the subject, whose
rest is `inp`, then continue with `k`; the first success in PCRE's search order
is returned. -/
def Re.run : Re → Nat → QString → Caps → Cont → Option Caps
  | .empty, pos, inp, caps, k => k pos inp caps
  | .cls p, pos, inp, caps, k =>
    match inp with
    | [] => none
    | c :: cs => if p c then k (pos + 1) cs caps else none
  | .seq a b, pos, inp, caps, k =>
    a.run pos inp caps (fun pos1 inp1 caps1 => b.run pos1 inp1 caps1 k)
  | .alt a b, pos, inp, caps, k =>
    match a.run pos inp caps k with
    | some r => some r
    | none => b.run pos inp caps k
  | .star p, pos, inp, caps, k => starRun p k caps pos inp
  | .group n a, pos, inp, caps, k =>
    a.run pos inp caps (fun pos1 inp1 caps1 => k pos1 inp1 ((n, inp.take (pos1 - pos)) :: caps1))
  | .bol, pos, inp, caps, k => if pos = 0 then k pos inp caps else none
  | .eol, pos, inp, caps, k => if inp = [] ∨ inp = [10] then k pos inp caps else none
  | .eos, pos, inp, caps, k => if inp = [] then k pos inp caps else none

/-- Try a match starting at each offset of the subject in turn. -/
def Re.searchFrom (r : Re) : Nat → QString → Option Caps
  | pos, [] => (Re.group 0 r).run pos [] [] (fun _ _ caps => some caps)
  | pos, c :: cs =>
    match (Re.group 0 r).run pos (c :: cs) [] (fun _ _ caps => some caps) with
    | some m => some m
    | none => Re.searchFrom r (pos + 1) cs

/-- The call `QRegularExpression(r).match(subject)`: the groups of the first
match, `none` when there is no match. -/
def Re.search (r : Re) (subject : QString) : Option Caps :=
  r.searchFrom 0 subject

/-- Embeds `QRegularExpressionMatch::hasMatch()`, also `QString::contains(QRegularExpression)`. -/
def Re.hasMatch (r : Re) (subject : QString) : Bool :=
  (r.search subject).isSome

/-- A literal string as a pattern. -/
def Re.lit : QString → Re
  | [] => Re.empty
  | c :: cs => Re.seq (Re.cls (fun x => x == c)) (Re.lit cs)

/-- The pattern `a?`. -/
def Re.opt (a : Re) : Re := Re.alt a Re.empty

/-- The class `.` without the dot-matches-everything option: any unit but a line feed. -/
def dotClass (c : QChar) : Bool := c != 10

/-- Embeds `QRegularExpressionMatch::captured(n)`: the text of group `n`, the null
string when the group did not take part in the match. -/
def captured (m : Caps) (n : Nat) : QString :=
  match m.find? (fun e => e.1 == n) with
  | some e => e.2
  | none => []

/-- The size of `QRegularExpressionMatch::capturedTexts()`, which is
`lastCapturedIndex() + 1`.  Qt documents `lastCapturedIndex()` as the index of
the last capturing group that captured something: `pcre2_match` returns one
more than the highest-numbered group that took part in the match, Qt stores
that number and lists the texts of the groups `0 .. lastCapturedIndex()`.  A
group that did not take part is listed (as a null string) only when a later
group took part; groups after the last one that took part are not listed. -/
def capturedTextsSize (m : Caps) : Nat :=
  (m.map (fun e => e.1)).foldl max 0 + 1

/-! ## Phone number grouping -/

/-- The enumeration `MLocale::PhoneNumberGrouping`. -/
inductive PhoneNumberGrouping where
  | DefaultPhoneNumberGrouping
  | NoPhoneNumberGrouping
  | NorthAmericanPhoneNumberGrouping
  deriving DecidableEq, Repr

open PhoneNumberGrouping

/-- The decimal value of a string of ASCII digits. -/
def digitsValue (s : QString) : Nat :=
  s.foldl (fun acc c => 10 * acc + (c - 48)) 0

/-- Embeds `QString::toUInt()` on the strings `isValidCountryCode` is called with,
which are strings of ASCII digits: the decimal value, and `0` when the
conversion fails (empty string, a unit that is no digit, value beyond 32 bits). -/
def toUInt (s : QString) : Nat :=
  if s ≠ [] ∧ s.all isAsciiDigit ∧ digitsValue s < 2 ^ 32 then digitsValue s else 0

/-- The `case` labels of the `switch` in `isValidCountryCode`. -/
def validCountryCodes : List Nat :=
  [1,20,212,213,214,215,216,218,219,220,221,222,223,224,225,226,227,228,229,230,
   231,232,233,234,235,236,237,238,239,240,241,242,243,244,245,246,247,248,249,
   250,251,252,253,254,255,256,257,258,259,260,261,262,263,264,265,266,267,268,
   269,27,290,291,297,298,299,30,31,32,33,34,350,351,352,353,354,355,356,357,
   358,359,36,370,371,372,373,374,375,376,377,378,379,380,381,382,385,386,387,
   388,389,39,40,41,420,421,423,43,44,45,46,47,48,49,500,501,502,503,504,505,506,
   507,508,509,51,52,53,54,55,56,57,58,590,591,592,593,594,595,596,597,598,599,
   60,61,62,63,64,65,66,670,672,673,674,675,676,677,678,679,680,681,682,683,685,
   686,687,688,689,690,691,692,7,800,808,81,82,84,850,852,853,855,856,86,870,
   871,872,873,874,878,880,881,882,883,886,888,90,91,92,93,94,95,960,961,962,963,
   964,965,966,967,968,970,971,972,973,974,975,976,977,979,98,991,992,993,994,
   995,996,998]

/-- Embeds `MLocalePrivate::isValidCountryCode`.  The first statement reads
`code.at(0)`, so the result is `none` for the empty string. -/
def isValidCountryCode (code : QString) : Option Bool :=
  match QString_at code 0 with
  | none => none
  | some c0 =>
    -- no valid code starts with 0
    if c0 = 48 then some false
    else some (decide (toUInt code ∈ validCountryCodes))

/-- Embeds `groupedNormalString`: a national number starting with 2 to 9. -/
def groupedNormalString (phoneNumber : QString) : QString :=
  let remaining := phoneNumber
  if remaining.length < 4 then
    remaining
  else if remaining.length < 8 then
    left remaining 3 ++ fromUtf8 "-" ++ removeFront remaining 3
  else if remaining.length < 11 then
    fromUtf8 "(" ++ left remaining 3 ++ fromUtf8 ") "
      ++ left (removeFront remaining 3) 3 ++ fromUtf8 "-"
      ++ removeFront (removeFront remaining 3) 3
  else
    remaining

/-- Embeds `groupedOneString`: a national number starting with 1. -/
def groupedOneString (phoneNumber : QString) : QString :=
  let remaining := phoneNumber
  if remaining.length < 2 then
    remaining
  else if remaining.length < 3 then
    left remaining 1 ++ fromUtf8 " (" ++ removeFront remaining 1 ++ fromUtf8 "  )"
  else if remaining.length < 4 then
    left remaining 1 ++ fromUtf8 " (" ++ removeFront remaining 1 ++ fromUtf8 " )"
  else if remaining.length < 5 then
    left remaining 1 ++ fromUtf8 " (" ++ removeFront remaining 1 ++ fromUtf8 ")"
  else if remaining.length < 8 then
    left remaining 1 ++ fromUtf8 " (" ++ left (removeFront remaining 1) 3 ++ fromUtf8 ") "
      ++ removeFront (removeFront remaining 1) 3
  else if remaining.length < 12 then
    left remaining 1 ++ fromUtf8 " (" ++ left (removeFront remaining 1) 3 ++ fromUtf8 ") "
      ++ left (removeFront (removeFront remaining 1) 3) 3 ++ fromUtf8 "-"
      ++ removeFront (removeFront (removeFront remaining 1) 3) 3
  else
    remaining

/-- Embeds `groupedInternationalString`: the digits after a country code. -/
def groupedInternationalString (phoneNumber : QString) : QString :=
  let remaining := phoneNumber
  if remaining.length < 4 then
    fromUtf8 "(" ++ remaining ++ fromUtf8 ")"
  else if remaining.length < 7 then
    fromUtf8 "(" ++ left remaining 3 ++ fromUtf8 ") " ++ removeFront remaining 3
  else if remaining.length < 11 then
    fromUtf8 "(" ++ left remaining 3 ++ fromUtf8 ") "
      ++ left (removeFront remaining 3) 3 ++ fromUtf8 "-"
      ++ removeFront (removeFront remaining 3) 3
  else
    remaining

/-- The sanity check pattern `QRegularExpression::anchoredPattern("\\+?\\d*")`,
that is `\A(?:\+?\d*)\z`. -/
def phoneNumberRx : Re :=
  Re.seq Re.bol (Re.seq (Re.seq (Re.opt (Re.cls (fun c => c == 43))) (Re.star isAsciiDigit)) Re.eos)

/-- The first part of `formatPhoneNumber`: the country code indicator `+`,
`00` or `011`.  Returns `foundCountryCodeIndicator`, `result` and `remaining`. -/
def splitCountryCodeIndicator (phoneNumber : QString) : Bool × QString × QString :=
  if startsWith phoneNumber (fromUtf8 "+") then
    (true, fromUtf8 "+", removeFront phoneNumber 1)
  else if startsWith phoneNumber (fromUtf8 "00") then
    (true, fromUtf8 "00 ", removeFront phoneNumber 2)
  else if startsWith phoneNumber (fromUtf8 "011") then
    (true, fromUtf8 "011 ", removeFront phoneNumber 3)
  else
    (false, [], phoneNumber)

/-- The second part of `formatPhoneNumber`: the search for a valid country code
of length 1, 2, 3 at the front of `remaining`.  The outer `Option` is the
out-of-range read of `isValidCountryCode`; inside, `some code` is the code that
is split off and `none` the branch "no valid country code". -/
def findCountryCode (remaining : QString) : Option (Option QString) :=
  match isValidCountryCode (left remaining 1) with
  | none => none
  | some true => some (some (left remaining 1))
  | some false =>
    match isValidCountryCode (left remaining 2) with
    | none => none
    | some true => some (some (left remaining 2))
    | some false =>
      match isValidCountryCode (left remaining 3) with
      | none => none
      | some true => some (some (left remaining 3))
      | some false => some none

/-- The last part of `formatPhoneNumber`: grouping of the national number. -/
def groupRemaining (grouping : PhoneNumberGrouping) (foundCountryCodeIndicator : Bool)
    (result remaining : QString) : QString :=
  if grouping ≠ NorthAmericanPhoneNumberGrouping then
    result ++ remaining
  else if foundCountryCodeIndicator then
    -- has country code -> do not handle one special.
    result ++ groupedInternationalString remaining
  else if startsWith remaining (fromUtf8 "11") then
    -- 11 is an invalid code, so disable grouping for this case
    result ++ remaining
  else if startsWith remaining (fromUtf8 "1") then
    result ++ groupedOneString remaining
  else
    result ++ groupedNormalString remaining

/-- Embeds `MLocalePrivate::formatPhoneNumber`. -/
def formatPhoneNumber (phoneNumber : QString) (grouping : PhoneNumberGrouping) :
    Option QString :=
  -- first do sanity check of the input string
  if !phoneNumberRx.hasMatch phoneNumber then
    some phoneNumber
  -- 00 is not a valid country calling code in north america
  else if grouping = NorthAmericanPhoneNumberGrouping
      ∧ startsWith phoneNumber (fromUtf8 "00") = true then
    some phoneNumber
  else
    match splitCountryCodeIndicator phoneNumber with
    | (false, result, remaining) => some (groupRemaining grouping false result remaining)
    | (true, result, remaining) =>
      match findCountryCode remaining with
      | none => none
      | some none => some phoneNumber
      | some (some code) =>
        some (groupRemaining grouping true (result ++ code ++ fromUtf8 " ")
          (removeFront remaining code.length))

/-- Reading of "an optional leading `+` followed only by ASCII digits", the
inputs `formatPhoneNumber` accepts. -/
def isPlusDigits (s : QString) : Bool :=
  s.all isAsciiDigit || (s.head? == some 43 && s.tail.all isAsciiDigit)

/-! ## Locale names -/

/-- The class `[a-z]`. -/
def isLower (c : Nat) : Bool := decide (97 ≤ c) && decide (c ≤ 122)

/-- The class `[A-Z]`. -/
def isUpper (c : Nat) : Bool := decide (65 ≤ c) && decide (c ≤ 90)

/-- The class `[A-Z_]`. -/
def isUpperOrUnderscore (c : Nat) : Bool := isUpper c || c == 95

/-- The literal `_`. -/
def underscore : Re := Re.cls (fun c => c == 95)

/-- The pattern of `parseIcuLocaleString`:
`^([a-z]{2,3})(?:_([A-Z][a-z]{3,3}))?(?:_([A-Z]{2,2}|419))?(?:_{1,2}([A-Z][A-Z_]*))?(?:@.*)?$` -/
def icuLocaleRx : Re :=
  Re.seq Re.bol
  (Re.seq (Re.group 1 (Re.seq (Re.cls isLower) (Re.seq (Re.cls isLower) (Re.opt (Re.cls isLower)))))
  (Re.seq (Re.opt (Re.seq underscore
      (Re.group 2 (Re.seq (Re.cls isUpper)
        (Re.seq (Re.cls isLower) (Re.seq (Re.cls isLower) (Re.cls isLower)))))))
  (Re.seq (Re.opt (Re.seq underscore
      (Re.group 3 (Re.alt (Re.seq (Re.cls isUpper) (Re.cls isUpper)) (Re.lit (fromUtf8 "419"))))))
  (Re.seq (Re.opt (Re.seq (Re.seq underscore (Re.opt underscore))
      (Re.group 4 (Re.seq (Re.cls isUpper) (Re.star isUpperOrUnderscore)))))
  (Re.seq (Re.opt (Re.seq (Re.cls (fun c => c == 64)) (Re.star dotClass)))
   Re.eol)))))

/-- The out-parameters of `parseIcuLocaleString` and its return value. -/
structure ParsedLocale where
  ok : Bool
  language : QString
  script : QString
  country : QString
  variant : QString
  deriving DecidableEq, Repr

/-- Embeds `MLocalePrivate::parseIcuLocaleString`. -/
def parseIcuLocaleString (localeString : QString) : ParsedLocale :=
  match icuLocaleRx.search localeString with
  | some m =>
    if capturedTextsSize m = 5 then
      { ok := true, language := captured m 1, script := captured m 2,
        country := captured m 3, variant := captured m 4 }
    else
      { ok := false, language := [], script := [], country := [], variant := [] }
  | none => { ok := false, language := [], script := [], country := [], variant := [] }

/-- Embeds `MLocalePrivate::parseLanguage`. -/
def parseLanguage (localeString : QString) : QString :=
  (parseIcuLocaleString localeString).language

/-- Embeds `MLocalePrivate::parseCountry`. -/
def parseCountry (localeString : QString) : QString :=
  (parseIcuLocaleString localeString).country

/-- Embeds `MLocalePrivate::parseScript`. -/
def parseScript (localeString : QString) : QString :=
  (parseIcuLocaleString localeString).script

/-- Embeds `MLocalePrivate::parseVariant`. -/
def parseVariant (localeString : QString) : QString :=
  (parseIcuLocaleString localeString).variant

/-- Embeds `MLocale::localeScript`.  The parameter `localeScriptResource` is the ICU
part of the function: the lookup of the key `LocaleScript` in the resource
bundle of the locale, with the null string when a step fails and `Zyyy` when
the bundle has no string. -/
def localeScript (localeScriptResource : QString → QString) (locale : QString) : QString :=
  let s := parseScript locale
  if s ≠ [] then s else localeScriptResource locale

/-! ## Mixing symbols of the message locale into the time locale's format -/

/-- The pattern `@.*mix-time-and-language=yes`. -/
def mixYesRx : Re :=
  Re.seq (Re.cls (fun c => c == 64))
    (Re.seq (Re.star dotClass) (Re.lit (fromUtf8 "mix-time-and-language=yes")))

/-- The pattern `@.*mix-time-and-language=no`. -/
def mixNoRx : Re :=
  Re.seq (Re.cls (fun c => c == 64))
    (Re.seq (Re.star dotClass) (Re.lit (fromUtf8 "mix-time-and-language=no")))

/-- The right-to-left test of `mixingSymbolsWanted` and `maybeEmbedDateFormat`:
the script is `Arab` or `Hebr`. -/
def scriptIsRtl (script : QString) : Bool :=
  script == fromUtf8 "Arab" || script == fromUtf8 "Hebr"

/-- Embeds `MLocalePrivate::mixingSymbolsWanted`. -/
def mixingSymbolsWanted (localeScriptResource : QString → QString)
    (categoryNameMessages categoryNameTime : QString) : Bool :=
  let languageMessages := parseLanguage categoryNameMessages
  let languageTime := parseLanguage categoryNameTime
  let categoryScriptTime := localeScript localeScriptResource categoryNameTime
  let categoryScriptMessages := localeScript localeScriptResource categoryNameMessages
  let timeIsRtl := scriptIsRtl categoryScriptTime
  let messagesIsRtl := scriptIsRtl categoryScriptMessages
  if mixYesRx.hasMatch categoryNameTime then
    true
  else if !mixNoRx.hasMatch categoryNameTime
      && languageMessages != languageTime
      && languageMessages != fromUtf8 "zh"
      && languageMessages != fromUtf8 "ja"
      && languageMessages != fromUtf8 "ko"
      && (timeIsRtl == messagesIsRtl) then
    true
  else
    false

/-- The options of a locale name: the items, separated by `;`, of the text
after the first `@`. -/
def localeOptions (name : QString) : List QString :=
  ((name.dropWhile (fun c => c != 64)).drop 1).splitOn 59

/-- The services of Qt's Unicode tables and of ICU that `indexBucket` calls. -/
structure BucketEnv where
  /-- ICU `UnicodeString::toUpper` under the collation locale. -/
  toUpper : QString → QString
  /-- Stands for `QChar::decomposition()`. -/
  decomposition : QChar → QString
  /-- Stands for `QChar::isMark()`. -/
  isMark : QChar → Bool
  /-- Stands for `QChar::isNumber()`. -/
  isNumber : QChar → Bool
  /-- Stands for `MLocale::toLocalizedNumbers(const QString &)`, which asks ICU for the
  numbering system of the locale. -/
  toLocalizedNumbers : QString → QString
  /-- Stands for `QString::startsWith(const QString &, Qt::CaseInsensitive)`. -/
  startsWithCaseInsensitive : QString → QString → Bool

/-- A collator `MCollator::operator()`: `coll a b` says that `a` sorts before `b`. -/
abbrev Collator := QString → QString → Bool

/-- Embeds `MLocalePrivate::removeAccents`. -/
def removeAccents (env : BucketEnv) (str : QString) : QString :=
  str.flatMap (fun c =>
    let decomposition := env.decomposition c
    if decomposition = [] then [c]
    else decomposition.filter (fun d => !env.isMark d))

/-- Embeds `QString::number(int)` for a non-negative number. -/
def QString_number (n : Nat) : QString :=
  fromUtf8 (toString n)

/-- The test `buckets.last() == label`; `QList::last` needs a non-empty list. -/
def lastIs (buckets : List QString) (label : QString) : Option Bool :=
  match buckets.getLast? with
  | none => none
  | some l => some (l == label)

/-- The condition `str.startsWith(prefix) && buckets.last() == label` of a fast
path; the second operand is evaluated only when the first holds. -/
def fastPath (str : QString) (buckets : List QString) (pre label : QString) : Option Bool :=
  if startsWith str pre then lastIs buckets label else some false

/-- The first loop of `indexBucket`: the first index `i`, counted from `i0`,
with `coll(strUpperCase, buckets[i])`. -/
def scanBuckets (coll : Collator) (strUpperCase : QString) : List QString → Nat → Option Nat
  | [], _ => none
  | b :: bs, i0 => if coll strUpperCase b then some i0 else scanBuckets coll strUpperCase bs (i0 + 1)

/-- The body of the first loop of `indexBucket` at the index `i` where
`coll(strUpperCase, buckets[i])` holds. -/
def bucketAt (env : BucketEnv) (str firstCharacter : QString) (buckets : List QString)
    (coll : Collator) (i : Nat) : Option QString :=
  if i = 0 then
    some firstCharacter
  else
    match buckets.head? with
    | none => none
    | some first =>
      if first = fromUtf8 "一" then
        -- stroke count sorting
        some (QString_number i ++ fromUtf8 "劃")
      else if 1 < i then
        match buckets.get? (i - 2), buckets.get? (i - 1) with
        | some b2, some b1 =>
          if !coll b2 b1 && !env.startsWithCaseInsensitive str b1 then some b2 else some b1
        | _, _ => none
      else
        buckets.get? (i - 1)

/-- The second loop of `indexBucket`, `n` iterations starting at index `i`:
return the last bucket if a prefix `strUpperCase.left(i+1)` compares equal to
it, and `firstCharacter` when the loop ends. -/
def lastBucketLoop (coll : Collator) (buckets : List QString) (strUpperCase firstCharacter : QString) :
    Nat → Nat → Option QString
  | 0, _ => some firstCharacter
  | n + 1, i =>
    match buckets.getLast? with
    | none => none
    | some l =>
      if !coll l (left strUpperCase (i + 1)) && !coll (left strUpperCase (i + 1)) l then some l
      else lastBucketLoop coll buckets strUpperCase firstCharacter n (i + 1)

/-- The first character of the upper-cased string: `at(0) + at(1)` when `at(0)`
is a high surrogate and the string is longer than one unit, else `at(0)`. -/
def leadingCharacter (strUpperCase : QString) : QString :=
  match strUpperCase with
  | [] => []
  | [c0] => [c0]
  | c0 :: c1 :: _ => if isHighSurrogate c0 then [c0, c1] else [c0]

/-- The part of `indexBucket` after the two fast paths. -/
def indexBucketSlow (env : BucketEnv) (str : QString) (buckets : List QString) (coll : Collator) :
    Option QString :=
  let strUpperCase := env.toUpper str
  if strUpperCase = [] then some strUpperCase
  else
    match removeAccents env (leadingCharacter strUpperCase) with
    | [] => some []
    | f0 :: frest =>
      -- removing the accents as above also does expansions; take the first
      -- character of the expansion
      let firstCharacter1 := if !isHighSurrogate f0 then [f0] else f0 :: frest
      let firstCharacter :=
        if env.isNumber f0 then env.toLocalizedNumbers firstCharacter1 else firstCharacter1
      match scanBuckets coll strUpperCase buckets 0 with
      | some i => bucketAt env str firstCharacter buckets coll i
      | none => lastBucketLoop coll buckets strUpperCase firstCharacter strUpperCase.length 0

/-- Embeds `MLocale::indexBucket(const QString &, const QStringList &, const MCollator &)`. -/
def indexBucket (env : BucketEnv) (str : QString) (buckets : List QString) (coll : Collator) :
    Option QString :=
  if str = [] then some str
  else
    match fastPath str buckets (fromUtf8 "𪛖") (fromUtf8 "𪛖") with
    | none => none
    | some true => some (fromUtf8 "⿕")
    | some false =>
      match fastPath str buckets (fromUtf8 "ン") (fromUtf8 "ん") with
      | none => none
      | some true => some (fromUtf8 "ん")
      | some false => indexBucketSlow env str buckets coll

/-- A collator is a strict weak order: irreflexive, transitive, and with a
transitive incomparability. -/
def StrictWeakOrder (coll : Collator) : Prop :=
  (∀ a, coll a a = false) ∧
  (∀ a b c, coll a b = true → coll b c = true → coll a c = true) ∧
  (∀ a b c, coll a b = false → coll b a = false → coll b c = false → coll c b = false →
    coll a c = false ∧ coll c a = false)

/-- Index `i` is the first label that sorts after `text`. -/
def FirstSortingAfter (coll : Collator) (text : QString) (buckets : List QString) (i : Nat) : Prop :=
  (∃ b, buckets.get? i = some b ∧ coll text b = true) ∧
  ∀ j b, j < i → buckets.get? j = some b → coll text b = false

/-! ### A small environment for examples -/

/-- Upper-casing of ASCII letters and of `é`. -/
def sampleToUpperChar (c : Nat) : Nat :=
  if 97 ≤ c ∧ c ≤ 122 then c - 32 else if c = 0xE9 then 0xC9 else c

/-- Canonical decompositions of `É` (U+00C9), `é` (U+00E9) and of the
combining grave tone mark U+0340. -/
def sampleDecomposition (c : QChar) : QString :=
  if c = 0xC9 then [0x45, 0x301]
  else if c = 0xE9 then [0x65, 0x301]
  else if c = 0x340 then [0x300]
  else []

/-- The combining diacritical marks U+0300..U+036F. -/
def sampleIsMark (c : Nat) : Bool :=
  decide (0x300 ≤ c) && decide (c ≤ 0x36F)

/-- An environment that knows ASCII, `É` and the combining diacritical marks. -/
def sampleEnv : BucketEnv where
  toUpper := fun s => s.map sampleToUpperChar
  decomposition := sampleDecomposition
  isMark := sampleIsMark
  isNumber := isAsciiDigit
  toLocalizedNumbers := fun s => s
  startsWithCaseInsensitive := fun s t =>
    startsWith (s.map sampleToUpperChar) (t.map sampleToUpperChar)

/-- Lexicographic order on strings of code units. -/
def lexLt : List Nat → List Nat → Bool
  | [], [] => false
  | [], _ :: _ => true
  | _ :: _, [] => false
  | a :: as, b :: bs => decide (a < b) || (a == b && lexLt as bs)

/-- The primary key of the example collator: accents removed, letters upper-cased. -/
def samplePrimaryKey (s : QString) : QString :=
  (removeAccents sampleEnv s).filter (fun c => !sampleIsMark c) |>.map sampleToUpperChar

/-- An accent-insensitive and case-insensitive collator, as at primary strength. -/
def sampleCollator : Collator :=
  fun a b => lexLt (samplePrimaryKey a) (samplePrimaryKey b)

/-- The labels `A` .. `Z`. -/
def latinBuckets : List QString :=
  (List.range 26).map (fun i => [65 + i])

/-! ## The locale profile: categories and caches -/

/-- The enumeration `MLocale::Category`. -/
inductive Category where
  | MLcMessages
  | MLcTime
  | MLcCollate
  | MLcNumeric
  | MLcMonetary
  | MLcName
  | MLcTelephone
  deriving DecidableEq, Repr

/-- Modelled from the spec: the enumeration `MLocale::DateType` of mlocale.h,
the date styles; the last three are the composite styles named in
`createDateFormat`. -/
inductive DateType where
  | DateNone
  | DateShort
  | DateMedium
  | DateLong
  | DateFull
  | DateYearAndMonth
  | DateWeekdayAbbreviatedAndDayOfMonth
  | DateWeekdayWideAndDayOfMonth
  deriving DecidableEq, Repr

/-- Modelled from the spec: the enumeration `MLocale::TimeType` of mlocale.h,
the time styles. -/
inductive TimeType where
  | TimeNone
  | TimeShort
  | TimeMedium
  | TimeLong
  | TimeFull
  deriving DecidableEq, Repr

/-- The enumeration `MLocale::TimeFormat24h`, the clock preference. -/
inductive TimeFormat24h where
  | LocaleDefaultTimeFormat24h
  | TwelveHourTimeFormat24h
  | TwentyFourHourTimeFormat24h
  deriving DecidableEq, Repr

/-- Modelled from the spec: the enumeration `MLocale::CalendarType` of
mlocale.h, the calendar kinds; `OtherCalendar n` stands for the kinds the
embedded code does not name. -/
inductive CalendarType where
  | DefaultCalendar
  | GregorianCalendar
  | OtherCalendar (n : Nat)
  deriving DecidableEq, Repr

/-- Where the month and weekday names of a date format come from. -/
inductive Symbols where
  /-- The symbols of the locale the format was created for. -/
  | own
  /-- Symbols adopted with `adoptDateFormatSymbols` from the symbols created
  for the named locale. -/
  | adopted (locale : QString)
  /-- The call `adoptDateFormatSymbols(0)`: `createDateFormatSymbols` failed. -/
  | adoptedNull
  deriving DecidableEq, Repr

/-- An `icu::SimpleDateFormat`, as far as the embedded code observes it: the
pattern read by `toPattern` and written by `applyPattern`, and its symbols. -/
structure DateFormat where
  pattern : QString
  symbols : Symbols
  deriving DecidableEq, Repr

/-- A `QCache` with unit costs: the entries, most recently used first, and the
maximal total cost. -/
structure QCache (α : Type) where
  entries : List (QString × α)
  maxCost : Nat
  deriving Repr

/-- A freshly constructed `QCache`: empty, `maxCost` 100. -/
def QCache.empty {α : Type} : QCache α := { entries := [], maxCost := 100 }

/-- Embeds `QCache::contains`. -/
def QCache.contains {α : Type} (c : QCache α) (key : QString) : Bool :=
  c.entries.any (fun e => e.1 == key)

/-- The value stored under a key, if there is one. -/
def QCache.find {α : Type} (c : QCache α) (key : QString) : Option α :=
  (c.entries.find? (fun e => e.1 == key)).map (fun e => e.2)

/-- The bookkeeping of `QCache::object` and `QCache::operator[]`: the entry of
the key becomes the most recently used one. -/
def QCache.touch {α : Type} (c : QCache α) (key : QString) : QCache α :=
  match c.entries.find? (fun e => e.1 == key) with
  | some e => { c with entries := e :: c.entries.filter (fun x => !(x.1 == key)) }
  | none => c

/-- Embeds `QCache::insert(key, object)` with cost 1: an entry of the same key is
removed, an object that costs more than `maxCost` is not stored, the least
recently used entries are dropped until there is room, and the new entry
becomes the most recently used one. -/
def QCache.insert {α : Type} (c : QCache α) (key : QString) (object : α) : QCache α :=
  let removed := c.entries.filter (fun x => !(x.1 == key))
  if 1 > c.maxCost then { c with entries := removed }
  else { c with entries := (key, object) :: removed.take (c.maxCost - 1) }

/-- Embeds `QCache::clear`. -/
def QCache.clear {α : Type} (c : QCache α) : QCache α :=
  { c with entries := [] }

/-- The services of ICU and of `MIcuConversions` that the profile and the
derivation of date formats call. -/
structure LocaleEnv where
  /-- The ICU lookup of `MLocale::localeScript`. -/
  localeScriptResource : QString → QString
  /-- Stands for `MIcuConversions::parseOption(name, option)`. -/
  parseOption : QString → QString → QString
  /-- Stands for `MIcuConversions::setOption(name, option, value)`. -/
  setOption : QString → QString → QString → QString
  /-- Stands for `MIcuConversions::setCalendarOption(name, calendarType)`. -/
  setCalendarOption : QString → CalendarType → QString
  /-- Whether `icu::NumberFormat::createInstance` succeeds for a locale name. -/
  numberFormatCreatable : QString → Bool
  /-- Stands for `icu::DateFormat::createDateTimeInstance` for the styles
  `toEStyle(dateType)`, `toEStyle(timeType)` and the locale of the given name:
  the pattern of the formatter, `none` for a null pointer. -/
  createDateTimeInstance : DateType → TimeType → QString → Option QString
  /-- Whether `createDateFormatSymbols` returns symbols for a locale name. -/
  createDateFormatSymbols : QString → Bool
  /-- The value of a `DateType` as an integer. -/
  dateTypeValue : DateType → Nat
  /-- The value of a `TimeType` as an integer. -/
  timeTypeValue : TimeType → Nat
  /-- The value of a `CalendarType` as an integer. -/
  calendarTypeValue : CalendarType → Nat
  /-- The value of a `TimeFormat24h` as an integer. -/
  timeFormat24hValue : TimeFormat24h → Nat
  /-- Whether the constructor `icu::SimpleDateFormat(pattern, locale, status)`
  succeeds for a pattern and a locale name. -/
  simpleDateFormatCreatable : QString → QString → Bool
  /-- Stands for `QChar::digitValue`. -/
  digitValue : QChar → Option Nat

/-- An `icu::NumberFormat`, named by the locale name it was created for. -/
abbrev NumberFormat := QString

/-- The members of `MLocalePrivate` that the embedded functions read or write. -/
structure MLocalePrivate where
  _valid : Bool
  _defaultLocale : QString
  _messageLocale : QString
  _numericLocale : QString
  _collationLocale : QString
  _calendarLocale : QString
  _monetaryLocale : QString
  _nameLocale : QString
  _telephoneLocale : QString
  _timeFormat24h : TimeFormat24h
  _phoneNumberGrouping : PhoneNumberGrouping
  /-- The formatter of the Numeric category, `none` for a null pointer. -/
  _numberFormat : Option NumberFormat
  /-- The formatter of the Time category, `none` for a null pointer. -/
  _numberFormatLcTime : Option NumberFormat
  /-- Whether `_pDateTimeCalendar` points to a calendar. -/
  _pDateTimeCalendar : Bool
  /-- The cache of derived date formats; a stored `none` is a null pointer. -/
  _dateFormatCache : QCache (Option DateFormat)
  /-- The cache of `SimpleDateFormat` objects of `formatDateTimeICU`. -/
  _simpleDateFormatCache : QCache DateFormat
  /-- The cache of translated format strings of `formatDateTime`. -/
  _icuFormatStringCache : QCache QString

/-- The state after the constructor `MLocalePrivate::MLocalePrivate()`, for a
given default locale name. -/
def MLocalePrivate.init (defaultLocale : QString) : MLocalePrivate :=
  { _valid := true, _defaultLocale := defaultLocale, _messageLocale := [],
    _numericLocale := [], _collationLocale := [], _calendarLocale := [],
    _monetaryLocale := [], _nameLocale := [], _telephoneLocale := [],
    _timeFormat24h := TimeFormat24h.LocaleDefaultTimeFormat24h,
    _phoneNumberGrouping := PhoneNumberGrouping.DefaultPhoneNumberGrouping,
    _numberFormat := none, _numberFormatLcTime := none, _pDateTimeCalendar := false,
    _dateFormatCache := QCache.empty, _simpleDateFormatCache := QCache.empty,
    _icuFormatStringCache := QCache.empty }

open Category in
/-- Embeds `MLocalePrivate::categoryName`. -/
def categoryName (d : MLocalePrivate) (category : Category) : QString :=
  match category with
  | MLcMessages => if d._messageLocale ≠ [] then d._messageLocale else d._defaultLocale
  | MLcNumeric => if d._numericLocale ≠ [] then d._numericLocale else d._defaultLocale
  | MLcCollate => if d._collationLocale ≠ [] then d._collationLocale else d._defaultLocale
  | MLcMonetary => if d._monetaryLocale ≠ [] then d._monetaryLocale else d._defaultLocale
  | MLcTime => if d._calendarLocale ≠ [] then d._calendarLocale else d._defaultLocale
  | MLcName => if d._nameLocale ≠ [] then d._nameLocale else d._defaultLocale
  | MLcTelephone => if d._telephoneLocale ≠ [] then d._telephoneLocale else d._defaultLocale

/-- Embeds `MLocale::categoryLanguage`. -/
def categoryLanguage (d : MLocalePrivate) (category : Category) : QString :=
  parseLanguage (categoryName d category)

/-- Embeds `MLocalePrivate::fixCategoryNameForNumbers`. -/
def fixCategoryNameForNumbers (env : LocaleEnv) (d : MLocalePrivate) (name : QString) : QString :=
  let language := parseLanguage name
  -- do nothing for languages other than ar, fa, hi, kn, mr, ne, pa, bn
  if language ≠ fromUtf8 "ar" ∧ language ≠ fromUtf8 "fa" ∧ language ≠ fromUtf8 "hi"
      ∧ language ≠ fromUtf8 "kn" ∧ language ≠ fromUtf8 "mr" ∧ language ≠ fromUtf8 "ne"
      ∧ language ≠ fromUtf8 "pa" ∧ language ≠ fromUtf8 "bn" then
    name
  else
    let numericCategoryLanguage := categoryLanguage d Category.MLcNumeric
    -- if @numbers=<something> is already there, do not touch it
    if env.parseOption name (fromUtf8 "numbers") ≠ [] then name
    else if language = fromUtf8 "ar" ∧ numericCategoryLanguage = fromUtf8 "ar" then
      env.setOption name (fromUtf8 "numbers") (fromUtf8 "arab")
    else if language = fromUtf8 "fa" ∧ numericCategoryLanguage = fromUtf8 "fa" then
      env.setOption name (fromUtf8 "numbers") (fromUtf8 "arabext")
    else if language = fromUtf8 "hi" ∧ numericCategoryLanguage = fromUtf8 "hi" then
      env.setOption name (fromUtf8 "numbers") (fromUtf8 "deva")
    else if language = fromUtf8 "kn" ∧ numericCategoryLanguage = fromUtf8 "kn" then
      env.setOption name (fromUtf8 "numbers") (fromUtf8 "knda")
    else if language = fromUtf8 "mr" ∧ numericCategoryLanguage = fromUtf8 "mr" then
      env.setOption name (fromUtf8 "numbers") (fromUtf8 "deva")
    else if language = fromUtf8 "ne" ∧ numericCategoryLanguage = fromUtf8 "ne" then
      env.setOption name (fromUtf8 "numbers") (fromUtf8 "deva")
    else if language = fromUtf8 "or" ∧ numericCategoryLanguage = fromUtf8 "or" then
      env.setOption name (fromUtf8 "numbers") (fromUtf8 "orya")
    else if language = fromUtf8 "pa" ∧ numericCategoryLanguage = fromUtf8 "pa" then
      env.setOption name (fromUtf8 "numbers") (fromUtf8 "guru")
    else if language = fromUtf8 "bn" ∧ numericCategoryLanguage = fromUtf8 "bn" then
      env.setOption name (fromUtf8 "numbers") (fromUtf8 "beng")
    else
      env.setOption name (fromUtf8 "numbers") (fromUtf8 "latn")

/-- The statements that recreate a number formatter in `setCategoryLocale`:
`createInstance` for the fixed name of a category; on failure the pointer is
null and `_valid` becomes false.  Returns the formatter and the new `_valid`. -/
def recreateNumberFormat (env : LocaleEnv) (d : MLocalePrivate) (category : Category) :
    Option NumberFormat × Bool :=
  let name := fixCategoryNameForNumbers env d (categoryName d category)
  if env.numberFormatCreatable name then (some name, d._valid) else (none, false)

open Category in
/-- Embeds `MLocalePrivate::setCategoryLocale`. -/
def MLocalePrivate.setCategoryLocale (env : LocaleEnv) (d : MLocalePrivate)
    (category : Category) (localeName : QString) : MLocalePrivate :=
  match category with
  | MLcMessages => { d with _messageLocale := localeName }
  | MLcTime =>
    let d1 := { d with _calendarLocale := localeName }
    -- recreate the number formatter
    let r := recreateNumberFormat env d1 MLcTime
    { d1 with _numberFormatLcTime := r.1, _valid := r.2 }
  | MLcNumeric =>
    let d1 := { d with _numericLocale := localeName }
    -- recreate the number formatters
    let r := recreateNumberFormat env d1 MLcNumeric
    let d2 := { d1 with _numberFormat := r.1, _valid := r.2 }
    let r2 := recreateNumberFormat env d2 MLcTime
    { d2 with _numberFormatLcTime := r2.1, _valid := r2.2 }
  | MLcCollate => { d with _collationLocale := localeName }
  | MLcMonetary => { d with _monetaryLocale := localeName }
  | MLcName => { d with _nameLocale := localeName }
  | MLcTelephone =>
    { d with
      _telephoneLocale := localeName
      _phoneNumberGrouping :=
        if startsWith localeName (fromUtf8 "en_US") then
          PhoneNumberGrouping.NorthAmericanPhoneNumberGrouping
        else PhoneNumberGrouping.NoPhoneNumberGrouping }

/-- Embeds `MLocalePrivate::dropCaches`: the calendar of the locale is deleted and
the cached format string conversions are dropped. -/
def dropCaches (d : MLocalePrivate) : MLocalePrivate :=
  { d with _pDateTimeCalendar := false, _icuFormatStringCache := d._icuFormatStringCache.clear }

/-- Embeds `MLocale::setCategoryLocale`. -/
def setCategoryLocale (env : LocaleEnv) (d : MLocalePrivate) (category : Category)
    (localeName : QString) : MLocalePrivate :=
  dropCaches (d.setCategoryLocale env category localeName)

/-- Embeds `MLocale::setTimeFormat24h`. -/
def setTimeFormat24h (d : MLocalePrivate) (timeFormat24h : TimeFormat24h) : MLocalePrivate :=
  dropCaches { d with _timeFormat24h := timeFormat24h }

/-! ## More string operations of Qt -/

/-- The loop of `QString::replace(before, after)` for a non-empty `before`:
`skip` units of a replaced occurrence are still to be passed over. -/
def replaceGo (before after : QString) : Nat → QString → QString
  | _, [] => []
  | skip + 1, _ :: cs => replaceGo before after skip cs
  | 0, c :: cs =>
    if before.isPrefixOf (c :: cs) then after ++ replaceGo before after (before.length - 1) cs
    else c :: replaceGo before after 0 cs

/-- Embeds `QString::replace(const QString &before, const QString &after)`: every
occurrence of `before`, found from left to right without overlap, is replaced;
an empty `before` inserts `after` in front of every unit and at the end. -/
def QString_replace (s before after : QString) : QString :=
  if before = [] then s.flatMap (fun c => after ++ [c]) ++ after
  else replaceGo before after 0 s

/-- Applies a list of replacements in order. -/
def replaceEach (s : QString) (table : List (QString × QString)) : QString :=
  table.foldl (fun acc r => QString_replace acc r.1 r.2) s

/-- The loop of `QString::replace(const QRegularExpression &, after)` at
position `pos`, with `skip` units of a replaced match still to be passed over. -/
def Re.replaceGo (r : Re) (after : QString) : Nat → Nat → QString → QString
  | pos, _, [] =>
    match (Re.group 0 r).run pos [] [] (fun _ _ caps => some caps) with
    | some _ => after
    | none => []
  | pos, skip + 1, _ :: cs => Re.replaceGo r after (pos + 1) skip cs
  | pos, 0, c :: cs =>
    match (Re.group 0 r).run pos (c :: cs) [] (fun _ _ caps => some caps) with
    | some m =>
      if (captured m 0).length = 0 then after ++ c :: Re.replaceGo r after (pos + 1) 0 cs
      else after ++ Re.replaceGo r after (pos + 1) ((captured m 0).length - 1) cs
    | none => c :: Re.replaceGo r after (pos + 1) 0 cs

/-- Embeds `QString::replace(const QRegularExpression &re, const QString &after)`
for an `after` without back-references: every match, found from left to right
without overlap, is replaced. -/
def Re.replaceAll (r : Re) (s after : QString) : QString :=
  Re.replaceGo r after 0 0 s

/-- Embeds `QChar::isSpace`: U+0020, U+0009..U+000D, U+0085, U+00A0 and the
characters of the Unicode categories Zs, Zl and Zp. -/
def isSpace (c : Nat) : Bool :=
  c == 0x20 || (decide (0x09 ≤ c) && decide (c ≤ 0x0D)) || c == 0x85 || c == 0xA0
    || c == 0x1680 || (decide (0x2000 ≤ c) && decide (c ≤ 0x200A)) || c == 0x2028
    || c == 0x2029 || c == 0x202F || c == 0x205F || c == 0x3000

/-- The loop of `QString::simplified` after the leading whitespace: `pending`
says that whitespace was passed since the last unit that was copied. -/
def simplifiedGo : Bool → QString → QString
  | _, [] => []
  | pending, c :: cs =>
    if isSpace c then simplifiedGo true cs
    else if pending then 32 :: c :: simplifiedGo false cs
    else c :: simplifiedGo false cs

/-- Embeds `QString::simplified`: whitespace is removed from both ends and every
inner run of whitespace becomes one space. -/
def simplified (s : QString) : QString :=
  simplifiedGo false (s.dropWhile isSpace)

/-- Embeds `QString::endsWith(QChar)`. -/
def endsWithChar (s : QString) (c : QChar) : Bool :=
  s.getLast? == some c

/-- The pieces of a string seen by `QString::arg`: a copied unit, or a place
marker `%n` or `%Ln` with the text it is written with. -/
inductive ArgToken where
  | unit (c : QChar)
  | marker (n : Nat) (raw : QString)
  deriving DecidableEq, Repr

/-- The scanner state of `QString::arg`. -/
inductive ArgMode where
  /-- Outside a place marker. -/
  | normal
  /-- After `%`. -/
  | percent
  /-- After `%L`. -/
  | percentL
  /-- After `%` or `%L` (as given by the flag) and one digit. -/
  | digit (locale : Bool) (d : Nat) (dRaw : QChar)
  deriving DecidableEq, Repr

/-- The text a place marker starts with. -/
def markerStart (locale : Bool) : QString :=
  if locale then [37, 76] else [37]

/-- The scan of `QString::arg` for place markers (`findArgEscapes`): a `%`, an
optional `L`, then one or two digits.  The digit value of a unit is taken from
`digitValue`, which stands for `QChar::digitValue`. -/
def argTokens (digitValue : QChar → Option Nat) : ArgMode → QString → List ArgToken
  | ArgMode.normal, [] => []
  | ArgMode.percent, [] => [ArgToken.unit 37]
  | ArgMode.percentL, [] => [ArgToken.unit 37, ArgToken.unit 76]
  | ArgMode.digit locale d dRaw, [] => [ArgToken.marker d (markerStart locale ++ [dRaw])]
  | ArgMode.normal, c :: cs =>
    if c = 37 then argTokens digitValue ArgMode.percent cs
    else ArgToken.unit c :: argTokens digitValue ArgMode.normal cs
  | ArgMode.percent, c :: cs =>
    if c = 76 then argTokens digitValue ArgMode.percentL cs
    else
      match digitValue c with
      | some d => argTokens digitValue (ArgMode.digit false d c) cs
      | none =>
        if c = 37 then ArgToken.unit 37 :: argTokens digitValue ArgMode.percent cs
        else ArgToken.unit 37 :: ArgToken.unit c :: argTokens digitValue ArgMode.normal cs
  | ArgMode.percentL, c :: cs =>
    match digitValue c with
    | some d => argTokens digitValue (ArgMode.digit true d c) cs
    | none =>
      if c = 37 then
        ArgToken.unit 37 :: ArgToken.unit 76 :: argTokens digitValue ArgMode.percent cs
      else
        ArgToken.unit 37 :: ArgToken.unit 76 :: ArgToken.unit c
          :: argTokens digitValue ArgMode.normal cs
  | ArgMode.digit locale d dRaw, c :: cs =>
    match digitValue c with
    | some d2 =>
      ArgToken.marker (10 * d + d2) (markerStart locale ++ [dRaw, c])
        :: argTokens digitValue ArgMode.normal cs
    | none =>
      if c = 37 then
        ArgToken.marker d (markerStart locale ++ [dRaw])
          :: argTokens digitValue ArgMode.percent cs
      else
        ArgToken.marker d (markerStart locale ++ [dRaw]) :: ArgToken.unit c
          :: argTokens digitValue ArgMode.normal cs

/-- The lowest place marker number among the tokens. -/
def minMarker : List ArgToken → Option Nat
  | [] => none
  | ArgToken.unit _ :: ts => minMarker ts
  | ArgToken.marker n _ :: ts =>
    match minMarker ts with
    | some m => some (min n m)
    | none => some n

/-- Embeds `QString::arg(const QString &a)`: every occurrence of the place marker
with the lowest number is replaced by `a`; a string without place marker is
returned unchanged. -/
def QString_arg (digitValue : QChar → Option Nat) (s a : QString) : QString :=
  let tokens := argTokens digitValue ArgMode.normal s
  match minMarker tokens with
  | none => s
  | some m =>
    tokens.flatMap (fun t =>
      match t with
      | ArgToken.unit c => [c]
      | ArgToken.marker n raw => if n = m then a else raw)

/-- The digit value of an ASCII digit, a test double for `QChar::digitValue`. -/
def asciiDigitValue (c : QChar) : Option Nat :=
  if isAsciiDigit c then some (c - 48) else none

/-! ## Rewriting the pattern of a date format -/

/-- The loop of `isTwelveHours` over a pattern that contains a quote. -/
def isTwelveHoursLoop : Bool → QString → Bool
  | _, [] => false
  | isQuoted, c :: cs =>
    let isQuoted1 := if c = 39 then !isQuoted else isQuoted
    if !isQuoted1 && c == 97 then true else isTwelveHoursLoop isQuoted1 cs

/-- Embeds `MLocalePrivate::isTwelveHours`: the pattern has an unquoted `a`. -/
def isTwelveHours (icuFormatQString : QString) : Bool :=
  if icuFormatQString.contains 39 then isTwelveHoursLoop false icuFormatQString
  else icuFormatQString.contains 97

/-- The loop of `dateFormatTo24h`: `tmp` is the text written so far, the last
argument the rest of the pattern starting at index `i`. -/
def to24hLoop : QString → Bool → QString → QString
  | tmp, _, [] => tmp
  | tmp, isQuoted, c :: rest =>
    let isQuoted1 := if c = 39 then !isQuoted else isQuoted
    if !isQuoted1 then
      if c = 104 then to24hLoop (tmp ++ fromUtf8 "H") isQuoted1 rest
      else if c = 75 then to24hLoop (tmp ++ fromUtf8 "k") isQuoted1 rest
      else if c = 97 then
        if endsWithChar tmp 32 then
          -- remove space before 'a' if character after 'a' is space as well
          let tmp1 := if rest.head? = some 32 then tmp.dropLast else tmp
          -- remove space before 'a' if 'a' is last character in string
          let tmp2 := if rest = [] then tmp1.dropLast else tmp1
          to24hLoop tmp2 isQuoted1 rest
        else to24hLoop tmp isQuoted1 rest
      else to24hLoop (tmp ++ [c]) isQuoted1 rest
    else to24hLoop (tmp ++ [c]) isQuoted1 rest

/-- The pattern written by `dateFormatTo24h`. -/
def to24hPattern (icuFormatQString : QString) : QString :=
  if isTwelveHours icuFormatQString then to24hLoop [] false icuFormatQString
  else icuFormatQString

/-- The first loop of `dateFormatTo12h`, for a Time locale that writes the
am/pm marker before the hours. -/
def to12hLoopBefore : QString → Bool → Bool → QString → QString
  | tmp, _, _, [] => tmp
  | tmp, isQuoted, amPmMarkerWritten, c :: rest =>
    let isQuoted1 := if c = 39 then !isQuoted else isQuoted
    if !isQuoted1 then
      if c = 72 then
        to12hLoopBefore
          ((if !amPmMarkerWritten then tmp ++ fromUtf8 "a" else tmp) ++ fromUtf8 "h")
          isQuoted1 true rest
      else if c = 107 then
        to12hLoopBefore
          ((if !amPmMarkerWritten then tmp ++ fromUtf8 "a" else tmp) ++ fromUtf8 "K")
          isQuoted1 true rest
      else to12hLoopBefore (tmp ++ [c]) isQuoted1 amPmMarkerWritten rest
    else to12hLoopBefore (tmp ++ [c]) isQuoted1 amPmMarkerWritten rest

/-- The second loop of `dateFormatTo12h`, for the other Time locales; returns
`tmp` and `amPmMarkerWritten`. -/
def to12hLoopAfter : QString → Bool → Bool → QString → QString × Bool
  | tmp, _, amPmMarkerWritten, [] => (tmp, amPmMarkerWritten)
  | tmp, isQuoted, amPmMarkerWritten, c :: rest =>
    let isQuoted1 := if c = 39 then !isQuoted else isQuoted
    if !isQuoted1 then
      if c = 72 then to12hLoopAfter (tmp ++ fromUtf8 "h") isQuoted1 amPmMarkerWritten rest
      else if c = 107 then to12hLoopAfter (tmp ++ fromUtf8 "K") isQuoted1 amPmMarkerWritten rest
      else if c = 122 then
        if !amPmMarkerWritten then
          let tmp1 := if !endsWithChar tmp 32 then tmp ++ [32] else tmp
          to12hLoopAfter (tmp1 ++ fromUtf8 "a " ++ [c]) isQuoted1 true rest
        else to12hLoopAfter (tmp ++ [c]) isQuoted1 amPmMarkerWritten rest
      else to12hLoopAfter (tmp ++ [c]) isQuoted1 amPmMarkerWritten rest
    else to12hLoopAfter (tmp ++ [c]) isQuoted1 amPmMarkerWritten rest

/-- The pattern written by `dateFormatTo12h`; `language` is the name of the
Time category. -/
def to12hPattern (language icuFormatQString : QString) : QString :=
  if !isTwelveHours icuFormatQString then
    let writeAmPmMarkerBeforeHours :=
      startsWith language (fromUtf8 "ja") || startsWith language (fromUtf8 "zh")
    if writeAmPmMarkerBeforeHours then to12hLoopBefore [] false false icuFormatQString
    else
      let r := to12hLoopAfter [] false false icuFormatQString
      if !r.2 then r.1 ++ fromUtf8 " a" else r.1
  else icuFormatQString

/-- Embeds `MLocalePrivate::dateFormatTo24h`; a null pointer is left alone. -/
def dateFormatTo24h (df : Option DateFormat) : Option DateFormat :=
  match df with
  | none => none
  | some f => some { f with pattern := to24hPattern f.pattern }

/-- Embeds `MLocalePrivate::dateFormatTo12h`; a null pointer is left alone. -/
def dateFormatTo12h (d : MLocalePrivate) (df : Option DateFormat) : Option DateFormat :=
  match df with
  | none => none
  | some f => some { f with pattern := to12hPattern (categoryName d Category.MLcTime) f.pattern }

/-- The choice of pattern shared by `dateFormatToYearAndMonth`,
`dateFormatToWeekdayAbbreviatedAndDayOfMonth` and
`dateFormatToWeekdayWideAndDayOfMonth`: by the start of the name of the Time
category, and for zh, ja, ko by whether symbols are mixed. -/
def compositePattern (env : LocaleEnv) (d : MLocalePrivate)
    (zh ja ko mixed vi euHuMs other : QString) : QString :=
  let categoryNameTime := categoryName d Category.MLcTime
  let categoryNameMessages := categoryName d Category.MLcMessages
  if startsWith categoryNameTime (fromUtf8 "zh") then
    if !mixingSymbolsWanted env.localeScriptResource categoryNameMessages categoryNameTime
    then zh else mixed
  else if startsWith categoryNameTime (fromUtf8 "ja") then
    if !mixingSymbolsWanted env.localeScriptResource categoryNameMessages categoryNameTime
    then ja else mixed
  else if startsWith categoryNameTime (fromUtf8 "ko") then
    if !mixingSymbolsWanted env.localeScriptResource categoryNameMessages categoryNameTime
    then ko else mixed
  else if startsWith categoryNameTime (fromUtf8 "vi") then vi
  else if startsWith categoryNameTime (fromUtf8 "eu")
      || startsWith categoryNameTime (fromUtf8 "hu")
      || startsWith categoryNameTime (fromUtf8 "ms") then euHuMs
  else other

/-- The pattern written by `dateFormatToYearAndMonth`. -/
def yearAndMonthPattern (env : LocaleEnv) (d : MLocalePrivate) : QString :=
  compositePattern env d (fromUtf8 "yyyy年 LLLL") (fromUtf8 "yyyy年M月") (fromUtf8 "yyyy년 M월")
    (fromUtf8 "yyyy LLLL") (fromUtf8 "LLLL - yyyy") (fromUtf8 "yyyy LLLL") (fromUtf8 "LLLL yyyy")

/-- The pattern written by `dateFormatToWeekdayAbbreviatedAndDayOfMonth`, which
has no branch for vi, eu, hu and ms. -/
def weekdayAbbreviatedAndDayOfMonthPattern (env : LocaleEnv) (d : MLocalePrivate) : QString :=
  compositePattern env d (fromUtf8 "d日ccc") (fromUtf8 "d日(ccc)") (fromUtf8 "d일 ccc")
    (fromUtf8 "d ccc") (fromUtf8 "ccc d") (fromUtf8 "ccc d") (fromUtf8 "ccc d")

/-- The pattern written by `dateFormatToWeekdayWideAndDayOfMonth`, which has no
branch for vi, eu, hu and ms. -/
def weekdayWideAndDayOfMonthPattern (env : LocaleEnv) (d : MLocalePrivate) : QString :=
  compositePattern env d (fromUtf8 "d日cccc") (fromUtf8 "d日(cccc)") (fromUtf8 "d일 cccc")
    (fromUtf8 "d cccc") (fromUtf8 "cccc d") (fromUtf8 "cccc d") (fromUtf8 "cccc d")

/-- Embeds `MLocalePrivate::dateFormatToYearAndMonth`; a null pointer is left alone. -/
def dateFormatToYearAndMonth (env : LocaleEnv) (d : MLocalePrivate) (df : Option DateFormat) :
    Option DateFormat :=
  match df with
  | none => none
  | some f => some { f with pattern := yearAndMonthPattern env d }

/-- Embeds `MLocalePrivate::dateFormatToWeekdayAbbreviatedAndDayOfMonth`; a null
pointer is left alone. -/
def dateFormatToWeekdayAbbreviatedAndDayOfMonth (env : LocaleEnv) (d : MLocalePrivate)
    (df : Option DateFormat) : Option DateFormat :=
  match df with
  | none => none
  | some f => some { f with pattern := weekdayAbbreviatedAndDayOfMonthPattern env d }

/-- Embeds `MLocalePrivate::dateFormatToWeekdayWideAndDayOfMonth`; a null pointer
is left alone. -/
def dateFormatToWeekdayWideAndDayOfMonth (env : LocaleEnv) (d : MLocalePrivate)
    (df : Option DateFormat) : Option DateFormat :=
  match df with
  | none => none
  | some f => some { f with pattern := weekdayWideAndDayOfMonthPattern env d }

/-- The replacements of `simplifyDateFormatForMixing` for a Chinese or Japanese
Time locale mixed with a Messages locale that is neither. -/
def simplifyCjReplacements : List (QString × QString) :=
  [(fromUtf8 "年", fromUtf8 "-"),
   (fromUtf8 "月", fromUtf8 "-"),
   (fromUtf8 "日", fromUtf8 ""),
   (fromUtf8 "時", fromUtf8 ":"),
   (fromUtf8 "时", fromUtf8 ":"),
   (fromUtf8 "分", fromUtf8 ":"),
   (fromUtf8 "秒", fromUtf8 "")]

/-- The replacements of `simplifyDateFormatForMixing` for a Korean Time locale. -/
def simplifyKoReplacements : List (QString × QString) :=
  [(fromUtf8 "년 ", fromUtf8 "-"),
   (fromUtf8 "월 ", fromUtf8 "-"),
   (fromUtf8 "일 ", fromUtf8 " "),
   (fromUtf8 "시 ", fromUtf8 ":"),
   (fromUtf8 "분 ", fromUtf8 ":"),
   (fromUtf8 "초", fromUtf8 "")]

/-- The replacements of `simplifyDateFormatForMixing` for the literal text of
es_AR, es_PE, eo, fa_IR, pt_PT, en_BE, fr_CA, kk, ru_RU, sv_SE, nb_NO and uk_UA. -/
def simplifyLiteralReplacements : List (QString × QString) :=
  [(fromUtf8 "h'h'''m", fromUtf8 "h:m"),
   (fromUtf8 "H'h'''m", fromUtf8 "H:m"),
   (fromUtf8 "h'H'm", fromUtf8 "h:m"),
   (fromUtf8 "H'H'm", fromUtf8 "H:m"),
   (fromUtf8 "m''s", fromUtf8 "m:s"),
   (fromUtf8 "s''", fromUtf8 "s"),
   (fromUtf8 "H-'a' 'horo' 'kaj' m:ss", fromUtf8 "HH:mm:ss"),
   (fromUtf8 "h-'a' 'horo' 'kaj' m:ss", fromUtf8 "hh:mm:ss"),
   (fromUtf8 "d-'a'", fromUtf8 "d "),
   (fromUtf8 "ساعت", fromUtf8 ""),
   (fromUtf8 "h'h'mm", fromUtf8 "h:mm"),
   (fromUtf8 "h 'h' mm", fromUtf8 "h:mm"),
   (fromUtf8 "H'h'mm", fromUtf8 "H:mm"),
   (fromUtf8 "H 'h' mm", fromUtf8 "H:mm"),
   (fromUtf8 "m'min's", fromUtf8 "m:s"),
   (fromUtf8 "m 'min' s", fromUtf8 "m:s"),
   (fromUtf8 "ss's'", fromUtf8 "ss"),
   (fromUtf8 "ss 's'", fromUtf8 "ss"),
   (fromUtf8 "'ж'.", fromUtf8 ""),
   (fromUtf8 " 'г'.", fromUtf8 ""),
   (fromUtf8 ":'e'", fromUtf8 ""),
   (fromUtf8 "'kl'.", fromUtf8 ""),
   (fromUtf8 "'р'.", fromUtf8 "")]

/-- The replacements of `simplifyDateFormatForMixing` of inflected month and
weekday names by the stand-alone ones. -/
def simplifySymbolReplacements : List (QString × QString) :=
  [(fromUtf8 "EEEE", fromUtf8 "cccc"),
   (fromUtf8 "MMMM", fromUtf8 "LLLL"),
   (fromUtf8 "EEE", fromUtf8 "ccc"),
   (fromUtf8 "MMM", fromUtf8 "LLL")]

/-- The replacements of `simplifyDateFormatForMixing` for a Thai Time locale. -/
def simplifyThReplacements : List (QString × QString) :=
  [(fromUtf8 "H นาฬิกา m", fromUtf8 "H:m"),
   (fromUtf8 "h นาฬิกา m", fromUtf8 "h:m"),
   (fromUtf8 "m นาที s", fromUtf8 "m:s"),
   (fromUtf8 "s วินาที", fromUtf8 "s"),
   (fromUtf8 "cที่", fromUtf8 "c")]

/-- The replacements of `simplifyDateFormatForMixing` that add spaces to a
Chinese or Japanese format mixed with a Messages locale that is neither. -/
def simplifyCjSpacing : List (QString × QString) :=
  [(fromUtf8 "cz", fromUtf8 "c z"),
   (fromUtf8 "zH", fromUtf8 "z H"),
   (fromUtf8 "za", fromUtf8 "z a"),
   (fromUtf8 "ca", fromUtf8 "c a"),
   (fromUtf8 "cH", fromUtf8 "c H"),
   (fromUtf8 "ah", fromUtf8 "a h"),
   (fromUtf8 "da", fromUtf8 "d a"),
   (fromUtf8 "dH", fromUtf8 "d H"),
   (fromUtf8 "dz", fromUtf8 "d z"),
   (fromUtf8 "dccc", fromUtf8 "d ccc")]

/-- The pattern `'[^']*'` of `simplifyDateFormatForMixing`: a quoted span. -/
def quotedSpanRx : Re :=
  Re.seq (Re.cls (fun c => c == 39)) (Re.seq (Re.star (fun c => c != 39)) (Re.cls (fun c => c == 39)))

/-- The pattern written by `simplifyDateFormatForMixing`. -/
def simplifiedPattern (env : LocaleEnv) (d : MLocalePrivate) (icuFormatQString : QString) :
    QString :=
  let categoryNameTime := categoryName d Category.MLcTime
  let categoryNameMessages := categoryName d Category.MLcMessages
  let categoryScriptTime := localeScript env.localeScriptResource categoryNameTime
  let categoryScriptMessages := localeScript env.localeScriptResource categoryNameMessages
  let cjIntoOther : Bool :=
    (startsWith categoryNameTime (fromUtf8 "zh") || startsWith categoryNameTime (fromUtf8 "ja"))
      && !startsWith categoryNameMessages (fromUtf8 "zh")
      && !startsWith categoryNameMessages (fromUtf8 "ja")
  let s1 := if cjIntoOther then replaceEach icuFormatQString simplifyCjReplacements
            else icuFormatQString
  let s2 := if startsWith categoryNameTime (fromUtf8 "ko") then replaceEach s1 simplifyKoReplacements
            else s1
  let s3 := replaceEach s2 simplifyLiteralReplacements
  -- remove remaining quoted stuff not covered by the special cases above
  let s4 := quotedSpanRx.replaceAll s3 []
  -- use stand-alone versions of month names and weekday names only
  let s5 := replaceEach s4 simplifySymbolReplacements
  let s6 := if startsWith categoryNameTime (fromUtf8 "th") then replaceEach s5 simplifyThReplacements
            else s5
  let s7 := if cjIntoOther then replaceEach s6 simplifyCjSpacing else s6
  let s8 := if categoryScriptTime = fromUtf8 "Hebr" ∧ categoryScriptMessages ≠ fromUtf8 "Hebr"
            then QString_replace s7 (fromUtf8 "בL") (fromUtf8 "L") else s7
  -- remove remaining non-ASCII stuff which was not yet specially handled
  let s9 := if !startsWith categoryNameTime (fromUtf8 "zh")
                && !startsWith categoryNameTime (fromUtf8 "ja")
                && categoryScriptTime != fromUtf8 "Arab"
                && categoryScriptTime != fromUtf8 "Hebr"
            then s8.filter (fun c => decide (c < 0x80)) else s8
  -- remove superfluous whitespace
  simplified s9

/-- Embeds `MLocalePrivate::simplifyDateFormatForMixing`; a null pointer is left alone. -/
def simplifyDateFormatForMixing (env : LocaleEnv) (d : MLocalePrivate) (df : Option DateFormat) :
    Option DateFormat :=
  match df with
  | none => none
  | some f => some { f with pattern := simplifiedPattern env d f.pattern }

/-- The pattern written by `maybeEmbedDateFormat`. -/
def embeddedPattern (env : LocaleEnv) (categoryNameMessages categoryNameTime : QString)
    (icuFormatQString : QString) : QString :=
  let categoryScriptTime := localeScript env.localeScriptResource categoryNameTime
  let categoryScriptMessages := localeScript env.localeScriptResource categoryNameMessages
  let timeIsRtl := scriptIsRtl categoryScriptTime
  let messagesIsRtl := scriptIsRtl categoryScriptMessages
  if timeIsRtl != messagesIsRtl then
    if icuFormatQString ≠ [] then
      if timeIsRtl && !messagesIsRtl then
        -- RIGHT-TO-LEFT EMBEDDING, POP DIRECTIONAL FORMATTING
        0x202B :: icuFormatQString ++ [0x202C]
      else if !timeIsRtl && messagesIsRtl then
        -- LEFT-TO-RIGHT EMBEDDING, POP DIRECTIONAL FORMATTING
        0x202A :: icuFormatQString ++ [0x202C]
      else icuFormatQString
    else icuFormatQString
  else icuFormatQString

/-- Embeds `MLocalePrivate::maybeEmbedDateFormat`; a null pointer is left alone. -/
def maybeEmbedDateFormat (env : LocaleEnv) (df : Option DateFormat)
    (categoryNameMessages categoryNameTime : QString) : Option DateFormat :=
  match df with
  | none => none
  | some f =>
    some { f with pattern := embeddedPattern env categoryNameMessages categoryNameTime f.pattern }

/-! ## Deriving a date format -/

/-- The cache key of `createDateFormat`:
`QString("%1_%2_%3_%4_%5_%6_%7").arg(dateType).arg(timeType).arg(calendarType)
.arg(timeFormat24h).arg(categoryNameTime).arg(categoryNameNumeric).arg(categoryNameMessages)`. -/
def dateFormatKey (env : LocaleEnv) (dateType : DateType) (timeType : TimeType)
    (calendarType : CalendarType) (timeFormat24h : TimeFormat24h)
    (categoryNameTime categoryNameNumeric categoryNameMessages : QString) : QString :=
  let a := QString_arg env.digitValue
  a (a (a (a (a (a (a (fromUtf8 "%1_%2_%3_%4_%5_%6_%7")
    (QString_number (env.dateTypeValue dateType)))
    (QString_number (env.timeTypeValue timeType)))
    (QString_number (env.calendarTypeValue calendarType)))
    (QString_number (env.timeFormat24hValue timeFormat24h)))
    categoryNameTime) categoryNameNumeric) categoryNameMessages

/-- The step of `createDateFormat` that customizes the base formatter: the
composite date styles get their own pattern, otherwise a format with a time
part follows the clock preference. -/
def customizeDateFormat (env : LocaleEnv) (d : MLocalePrivate) (dateType : DateType)
    (timeType : TimeType) (timeFormat24h : TimeFormat24h) (df : Option DateFormat) :
    Option DateFormat :=
  if dateType = DateType.DateYearAndMonth then dateFormatToYearAndMonth env d df
  else if dateType = DateType.DateWeekdayAbbreviatedAndDayOfMonth then
    dateFormatToWeekdayAbbreviatedAndDayOfMonth env d df
  else if dateType = DateType.DateWeekdayWideAndDayOfMonth then
    dateFormatToWeekdayWideAndDayOfMonth env d df
  else if timeType ≠ TimeType.TimeNone then
    match timeFormat24h with
    | TimeFormat24h.TwelveHourTimeFormat24h => dateFormatTo12h d df
    | TimeFormat24h.TwentyFourHourTimeFormat24h => dateFormatTo24h df
    | TimeFormat24h.LocaleDefaultTimeFormat24h => df
  else df

/-- The step of `createDateFormat` for mixed symbols.  When mixing is wanted the
format is simplified and then `adoptDateFormatSymbols` is called on it without
a test of the pointer: the result is `none` when the pointer is null. -/
def mixSymbols (env : LocaleEnv) (d : MLocalePrivate) (df : Option DateFormat)
    (categoryNameMessages categoryNameTime : QString) : Option (Option DateFormat) :=
  if mixingSymbolsWanted env.localeScriptResource categoryNameMessages categoryNameTime then
    match simplifyDateFormatForMixing env d df with
    | none => none
    | some f =>
      some (some { f with
        symbols := if env.createDateFormatSymbols categoryNameMessages
                   then Symbols.adopted categoryNameMessages else Symbols.adoptedNull })
  else some df

/-- The key that `createDateFormat` builds in a state: `dateFormatKey` for the
names of the Time, Numeric and Messages categories. -/
def currentDateFormatKey (env : LocaleEnv) (d : MLocalePrivate) (dateType : DateType)
    (timeType : TimeType) (calendarType : CalendarType) (timeFormat24h : TimeFormat24h) :
    QString :=
  dateFormatKey env dateType timeType calendarType timeFormat24h
    (categoryName d Category.MLcTime) (categoryName d Category.MLcNumeric)
    (categoryName d Category.MLcMessages)

/-- The part of `createDateFormat` after a cache miss and before the new format
is stored: the base formatter of ICU, then the customization, the mixing of
symbols and the embedding.  The outer `none` stands for the call through a
null pointer in `mixSymbols`, the inner one for a null pointer that is returned. -/
def deriveDateFormat (env : LocaleEnv) (d : MLocalePrivate) (dateType : DateType)
    (timeType : TimeType) (calendarType : CalendarType) (timeFormat24h : TimeFormat24h) :
    Option (Option DateFormat) :=
  let categoryNameTime :=
    fixCategoryNameForNumbers env d
      (env.setCalendarOption (categoryName d Category.MLcTime) calendarType)
  let categoryNameMessages :=
    fixCategoryNameForNumbers env d
      (env.setCalendarOption (categoryName d Category.MLcMessages) calendarType)
  let base : Option QString :=
    if dateType = DateType.DateYearAndMonth
        ∨ dateType = DateType.DateWeekdayAbbreviatedAndDayOfMonth
        ∨ dateType = DateType.DateWeekdayWideAndDayOfMonth then
      -- does not matter really, will be customized anyway
      env.createDateTimeInstance DateType.DateFull TimeType.TimeNone categoryNameTime
    else env.createDateTimeInstance dateType timeType categoryNameTime
  let df0 : Option DateFormat := base.map (fun p => { pattern := p, symbols := Symbols.own })
  let df1 := customizeDateFormat env d dateType timeType timeFormat24h df0
  match mixSymbols env d df1 categoryNameMessages categoryNameTime with
  | none => none
  | some df2 => some (maybeEmbedDateFormat env df2 categoryNameMessages categoryNameTime)

/-- Embeds `MLocalePrivate::createDateFormat`.  The result is the pointer that is
returned (`none` inside for a null pointer) and the state with its cache;
the outer `none` stands for the call through a null pointer in `mixSymbols`. -/
def createDateFormat (env : LocaleEnv) (d : MLocalePrivate) (dateType : DateType)
    (timeType : TimeType) (calendarType : CalendarType) (timeFormat24h : TimeFormat24h) :
    Option (Option DateFormat × MLocalePrivate) :=
  if d._dateFormatCache.contains
      (currentDateFormatKey env d dateType timeType calendarType timeFormat24h) then
    some ((d._dateFormatCache.find
        (currentDateFormatKey env d dateType timeType calendarType timeFormat24h)).getD none,
      { d with
        _dateFormatCache :=
          (d._dateFormatCache.touch
            (currentDateFormatKey env d dateType timeType calendarType timeFormat24h)) })
  else
    match deriveDateFormat env d dateType timeType calendarType timeFormat24h with
    | none => none
    | some df =>
      some (df,
        { d with
          _dateFormatCache :=
            (d._dateFormatCache.insert
              (currentDateFormatKey env d dateType timeType calendarType timeFormat24h) df) })

/-- Embeds `MLocalePrivate::icuFormatString`: the pattern of the derived format,
the null string when there is none. -/
def icuFormatString (env : LocaleEnv) (d : MLocalePrivate) (dateType : DateType)
    (timeType : TimeType) (calendarType : CalendarType) (timeFormat24h : TimeFormat24h) :
    Option (QString × MLocalePrivate) :=
  match createDateFormat env d dateType timeType calendarType timeFormat24h with
  | none => none
  | some (some f, d1) => some (f.pattern, d1)
  | some (none, d1) => some ([], d1)

/-- The services of `MCalendar` and of the ICU formatters that the formatting
functions call, for a type `Cal` of calendars. -/
structure CalendarOps (Cal : Type) where
  /-- Stands for `MCalendar::type`. -/
  type : Cal → CalendarType
  /-- Stands for `MCalendar::year`. -/
  year : Cal → Int
  /-- Stands for `MCalendar::dayOfWeek`. -/
  dayOfWeek : Cal → Int
  /-- Stands for `MCalendar::weekNumber`. -/
  weekNumber : Cal → Int
  /-- Stands for `MCalendar::weekOfYear`. -/
  weekOfYear : Cal → Int
  /-- Stands for `MCalendar::setFirstDayOfWeek`. -/
  setFirstDayOfWeek : Cal → Int → Cal
  /-- Stands for `MCalendar::setMinimalDaysInFirstWeek`. -/
  setMinimalDaysInFirstWeek : Cal → Int → Cal
  /-- Stands for `MCalendar::setDate(year, month, day)`. -/
  setDate : Cal → Int → Int → Int → Cal
  /-- Stands for `MCalendar::addDays`. -/
  addDays : Cal → Int → Cal
  /-- The value of `MLocale::Sunday`. -/
  sunday : Int
  /-- The value of `MLocale::Monday`. -/
  monday : Int
  /-- Stands for `icu::DateFormat::format` of a calendar. -/
  formatDate : DateFormat → Cal → QString
  /-- Stands for `icu::NumberFormat::format` of an integer. -/
  formatNumber : NumberFormat → Int → QString
  /-- The quoted text of `%c`: the calendar formatted by the default date and
  time formatter of a locale name, escaped by `icuDatePatternEscaped`; `none`
  when ICU returns no formatter. -/
  defaultDateTime : QString → Cal → Option QString
  /-- The quoted text of `%x`, as `defaultDateTime` for the date formatter. -/
  defaultDate : QString → Cal → Option QString
  /-- The quoted text of `%X`, as `defaultDateTime` for the time formatter. -/
  defaultTime : QString → Cal → Option QString

/-- Embeds `MLocale::formatDateTime(const MCalendar &, DateType, TimeType)`. -/
def formatDateTimeStyled {Cal : Type} (env : LocaleEnv) (ops : CalendarOps Cal)
    (d : MLocalePrivate) (mcalendar : Cal) (datetype : DateType) (timetype : TimeType) :
    Option (QString × MLocalePrivate) :=
  if datetype = DateType.DateNone ∧ timetype = TimeType.TimeNone then some ([], d)
  else
    match createDateFormat env d datetype timetype (ops.type mcalendar) d._timeFormat24h with
    | none => none
    | some (some f, d1) => some (ops.formatDate f mcalendar, d1)
    | some (none, d1) => some ([], d1)

/-- The cache key of `formatDateTimeICU`:
`QString("%1_%2_%3_%4_%5").arg(formatString).arg(mCalendar.type())
.arg(categoryNameTime).arg(categoryNameNumeric).arg(categoryNameMessages)`. -/
def simpleDateFormatKey (env : LocaleEnv) (formatString : QString) (calendarType : CalendarType)
    (categoryNameTime categoryNameNumeric categoryNameMessages : QString) : QString :=
  let a := QString_arg env.digitValue
  a (a (a (a (a (fromUtf8 "%1_%2_%3_%4_%5") formatString)
    (QString_number (env.calendarTypeValue calendarType)))
    categoryNameTime) categoryNameNumeric) categoryNameMessages

/-- Embeds `MLocale::formatDateTimeICU(const MCalendar &, const QString &)`. -/
def formatDateTimeICU {Cal : Type} (env : LocaleEnv) (ops : CalendarOps Cal)
    (d : MLocalePrivate) (mCalendar : Cal) (formatString : QString) : QString × MLocalePrivate :=
  let categoryNameTime := categoryName d Category.MLcTime
  let categoryNameNumeric := categoryName d Category.MLcNumeric
  let categoryNameMessages := categoryName d Category.MLcMessages
  let key := simpleDateFormatKey env formatString (ops.type mCalendar)
    categoryNameTime categoryNameNumeric categoryNameMessages
  let categoryNameTime1 :=
    fixCategoryNameForNumbers env d (env.setCalendarOption categoryNameTime (ops.type mCalendar))
  let categoryNameMessages1 :=
    fixCategoryNameForNumbers env d (env.setCalendarOption categoryNameMessages (ops.type mCalendar))
  if d._simpleDateFormatCache.contains key then
    match d._simpleDateFormatCache.find key with
    | some f =>
      (ops.formatDate f mCalendar,
        { d with _simpleDateFormatCache := d._simpleDateFormatCache.touch key })
    | none => ([], d)
  else if env.simpleDateFormatCreatable formatString categoryNameTime1 then
    let f0 : DateFormat := { pattern := formatString, symbols := Symbols.own }
    let f : DateFormat :=
      if mixingSymbolsWanted env.localeScriptResource categoryNameMessages1 categoryNameTime1 then
        -- mixing in symbols like month name and weekday name from the message locale
        { f0 with
          symbols := if env.createDateFormatSymbols categoryNameMessages1
                     then Symbols.adopted categoryNameMessages1 else Symbols.adoptedNull }
      else f0
    (ops.formatDate f mCalendar,
      { d with _simpleDateFormatCache := d._simpleDateFormatCache.insert key f })
  else ([], d)

/-! ## Translating a POSIX format string -/

/-- The loop of `weekNumberStartingFromDay` over the days of week 1, at most
`fuel` iterations: `none` when the loop has not ended by then. -/
def weekZeroLoop {Cal : Type} (ops : CalendarOps Cal) (weekday : Int) :
    Nat → Cal → Bool → Option Bool
  | 0, _, _ => none
  | fuel + 1, calendarCopy, weekZero =>
    if ops.weekOfYear calendarCopy = 1 then
      weekZeroLoop ops weekday fuel (ops.addDays calendarCopy 1)
        (if ops.dayOfWeek calendarCopy = weekday then false else weekZero)
    else some weekZero

/-- Embeds `weekNumberStartingFromDay`, with a bound `fuel` on the iterations of
its loop. -/
def weekNumberStartingFromDay {Cal : Type} (ops : CalendarOps Cal) (fuel : Nat)
    (calendar : Cal) (weekday : Int) : Option Int :=
  let calendarCopy := ops.setMinimalDaysInFirstWeek (ops.setFirstDayOfWeek calendar weekday) 1
  -- this is icu week number, starts from 1
  let weeknumber := ops.weekNumber calendarCopy
  let year := ops.year calendarCopy
  match weekZeroLoop ops weekday fuel (ops.setDate calendarCopy year 1 1) true with
  | none => none
  | some weekZero => some (if weekZero then weeknumber - 1 else weeknumber)

/-- The variables of the translation loop of `formatDateTime`. -/
structure Translation where
  d : MLocalePrivate
  icuFormat : QString
  isInNormalText : Bool
  canCacheIcuFormat : Bool

/-- Appends to `icuFormat`. -/
def Translation.append (t : Translation) (s : QString) : Translation :=
  { t with icuFormat := t.icuFormat ++ s }

/-- Appends to `icuFormat` text that comes from the date at hand, which forbids caching. -/
def Translation.appendFromDate (t : Translation) (s : QString) : Translation :=
  { t with icuFormat := t.icuFormat ++ s, canCacheIcuFormat := false }

/-- The statements of `%c`, `%x` and `%X`: the text formatted by the default
formatter of the Messages locale is appended between two quotes; `none` when
ICU returned no formatter, which is then called through a null pointer. -/
def Translation.appendQuoted (t : Translation) (o : Option QString) : Option Translation :=
  o.map (fun text => t.appendFromDate (fromUtf8 "'" ++ text ++ fromUtf8 "'"))

/-- Embeds `QString::right(2)` applied when the string is longer than two units. -/
def lastTwo (s : QString) : QString :=
  if s.length > 2 then s.drop (s.length - 2) else s

/-- The cases of the `switch` of the translation loop of `formatDateTime`. -/
inductive Specifier where
  /-- A case that appends a fixed text. -/
  | fixed (text : QString)
  /-- `%c`: date and time representation. -/
  | dateTime
  /-- `%C`: century. -/
  | century
  /-- `%r`: 12 hour clock with am/pm. -/
  | time12
  /-- `%R`: 24-hour clock time. -/
  | time24
  /-- `%u`: weekday as a number, 1 (Monday) to 7. -/
  | isoWeekday
  /-- `%U`: week number of the year, Sunday as the first day of the week. -/
  | weekSunday
  /-- `%v` and `%V`: week of the year according to ISO 8601. -/
  | weekIso
  /-- `%w`: weekday as a number, 0 (Sunday) to 6. -/
  | weekday
  /-- `%W`: week number of the year, Monday as the first day of the week. -/
  | weekMonday
  /-- `%x`: date representation. -/
  | date
  /-- `%X`: time representation. -/
  | time
  /-- A character without a case. -/
  | other
  deriving DecidableEq, Repr

/-- The `case` labels of the `switch` of the translation loop, in the order of
the source: the character after the `%` and what the case does. -/
def specifierTable : List (QChar × Specifier) :=
  [(97, Specifier.fixed (fromUtf8 "ccc")),         -- a: abbreviated weekday name
   (65, Specifier.fixed (fromUtf8 "cccc")),        -- A: stand-alone full weekday name
   (98, Specifier.fixed (fromUtf8 "LLL")),         -- b: abbreviated month name
   (104, Specifier.fixed (fromUtf8 "LLL")),        -- h: abbreviated month name
   (66, Specifier.fixed (fromUtf8 "LLLL")),        -- B: full month name
   (99, Specifier.dateTime),                       -- c
   (67, Specifier.century),                        -- C
   (100, Specifier.fixed (fromUtf8 "dd")),         -- d: day of the month
   (68, Specifier.fixed (fromUtf8 "MM/dd/yy")),    -- D: date in the format mm/dd/yy
   (101, Specifier.fixed (fromUtf8 "d")),          -- e
   (70, Specifier.fixed (fromUtf8 "yyyy-MM-dd")),  -- F: the date in the format YYYY-MM-DD
   (103, Specifier.fixed (fromUtf8 "YY")),         -- g
   (71, Specifier.fixed (fromUtf8 "YYYY")),        -- G
   (72, Specifier.fixed (fromUtf8 "HH")),          -- H: hour (24-hour clock)
   (73, Specifier.fixed (fromUtf8 "hh")),          -- I: hour (12-hour clock)
   (106, Specifier.fixed (fromUtf8 "DDD")),        -- j: day of year
   (109, Specifier.fixed (fromUtf8 "MM")),         -- m: month
   (77, Specifier.fixed (fromUtf8 "mm")),          -- M: minute
   (110, Specifier.fixed [10]),                    -- n: newline
   (112, Specifier.fixed (fromUtf8 "aaa")),        -- p: AM/PM
   (114, Specifier.time12),                        -- r
   (82, Specifier.time24),                         -- R
   (83, Specifier.fixed (fromUtf8 "ss")),          -- S: seconds
   (116, Specifier.fixed [9]),                     -- t: tab
   (84, Specifier.fixed (fromUtf8 "kk:mm:ss")),    -- T: 24 hour clock HH:MM:SS
   (117, Specifier.isoWeekday),                    -- u
   (85, Specifier.weekSunday),                     -- U
   (118, Specifier.weekIso),                       -- v: same as V, for compatibility
   (86, Specifier.weekIso),                        -- V
   (119, Specifier.weekday),                       -- w
   (87, Specifier.weekMonday),                     -- W
   (120, Specifier.date),                          -- x
   (88, Specifier.time),                           -- X
   (121, Specifier.fixed (fromUtf8 "yy")),         -- y: year within century
   (89, Specifier.fixed (fromUtf8 "yyyy")),        -- Y: year with century
   (122, Specifier.fixed (fromUtf8 "Z")),          -- z: the offset from UTC
   (90, Specifier.fixed (fromUtf8 "vvvv")),        -- Z: generic time zone info
   (37, Specifier.fixed (fromUtf8 "%"))]           -- %

/-- The case of the `switch` that a character selects. -/
def specifierOf (next : QChar) : Specifier :=
  match specifierTable.find? (fun e => e.1 == next) with
  | some e => e.2
  | none => Specifier.other

/-- The `switch` of the translation loop of `formatDateTime` on the character
after a `%`.  The result is `none` when a null formatter is called or the loop
of `weekNumberStartingFromDay` has not ended within `fuel` steps. -/
def translateSpecifier {Cal : Type} (env : LocaleEnv) (ops : CalendarOps Cal) (fuel : Nat)
    (mCalendar : Cal) (next : QChar) (t : Translation) : Option Translation :=
  match specifierOf next with
  | Specifier.fixed text => some (t.append text)
  | Specifier.dateTime =>
    t.appendQuoted (ops.defaultDateTime (categoryName t.d Category.MLcMessages) mCalendar)
  | Specifier.century =>
    t.d._numberFormatLcTime.map (fun nf =>
      t.appendFromDate (ops.formatNumber nf (Int.tdiv (ops.year mCalendar) 100)))
  | Specifier.time12 =>
    (icuFormatString env t.d DateType.DateNone TimeType.TimeShort
        CalendarType.GregorianCalendar TimeFormat24h.TwelveHourTimeFormat24h).map
      (fun r => { t with d := r.2, icuFormat := t.icuFormat ++ r.1 })
  | Specifier.time24 =>
    (icuFormatString env t.d DateType.DateNone TimeType.TimeShort
        CalendarType.GregorianCalendar TimeFormat24h.TwentyFourHourTimeFormat24h).map
      (fun r => { t with d := r.2, icuFormat := t.icuFormat ++ r.1 })
  | Specifier.isoWeekday =>
    t.d._numberFormatLcTime.map (fun nf =>
      t.appendFromDate (ops.formatNumber nf (ops.dayOfWeek mCalendar)))
  | Specifier.weekSunday =>
    match t.d._numberFormatLcTime, weekNumberStartingFromDay ops fuel mCalendar ops.sunday with
    | some nf, some week =>
      some (t.appendFromDate (lastTwo (ops.formatNumber nf 0 ++ ops.formatNumber nf week)))
    | _, _ => none
  | Specifier.weekIso =>
    t.d._numberFormatLcTime.map (fun nf =>
      t.appendFromDate
        (lastTwo (ops.formatNumber nf 0 ++ ops.formatNumber nf
          (ops.weekNumber
            (ops.setMinimalDaysInFirstWeek (ops.setFirstDayOfWeek mCalendar ops.monday) 4)))))
  | Specifier.weekday =>
    t.d._numberFormatLcTime.map (fun nf =>
      t.appendFromDate (ops.formatNumber nf
        (if ops.dayOfWeek mCalendar = ops.sunday then 0 else ops.dayOfWeek mCalendar)))
  | Specifier.weekMonday =>
    match weekNumberStartingFromDay ops fuel mCalendar ops.monday, t.d._numberFormatLcTime with
    | some week, some nf => some (t.appendFromDate (ops.formatNumber nf week))
    | _, _ => none
  | Specifier.date =>
    t.appendQuoted (ops.defaultDate (categoryName t.d Category.MLcMessages) mCalendar)
  | Specifier.time =>
    t.appendQuoted (ops.defaultTime (categoryName t.d Category.MLcMessages) mCalendar)
  | Specifier.other => some t

/-- The cases that take text from the date at hand and clear `canCacheIcuFormat`. -/
def Specifier.fromDate : Specifier → Bool
  | Specifier.dateTime => true
  | Specifier.century => true
  | Specifier.isoWeekday => true
  | Specifier.weekSunday => true
  | Specifier.weekIso => true
  | Specifier.weekday => true
  | Specifier.weekMonday => true
  | Specifier.date => true
  | Specifier.time => true
  | _ => false

/-- The plain-text branch of the translation loop of `formatDateTime`. -/
def translatePlain (current : QChar) (t : Translation) : Translation :=
  if current = 39 then t.append (fromUtf8 "''")   -- icu escape
  else if (97 ≤ current ∧ current ≤ 122) ∨ (65 ≤ current ∧ current ≤ 90) then
    if t.isInNormalText = false then
      { t with icuFormat := t.icuFormat ++ fromUtf8 "'" ++ [current], isInNormalText := true }
    else t.append [current]
  else t.append [current]

/-- The statement before the `switch`: a `%` ends the quotation of plain text. -/
def Translation.endQuotation (t : Translation) : Translation :=
  if t.isInNormalText then
    -- end plain text icu quotation
    { t with icuFormat := t.icuFormat ++ fromUtf8 "'", isInNormalText := false }
  else t

/-- The translation loop of `formatDateTime` over the rest of the format string.
After a `%` the next character is read with `formatString.at(i)` without a
test of `i`: the result is `none` when the string ends with that `%`. -/
def translateLoop {Cal : Type} (env : LocaleEnv) (ops : CalendarOps Cal) (fuel : Nat)
    (mCalendar : Cal) : Translation → QString → Option Translation
  | t, [] => some t
  | t, current :: rest =>
    if current = 37 then
      match rest with
      | [] => none
      | next :: rest1 =>
        match translateSpecifier env ops fuel mCalendar next t.endQuotation with
        | none => none
        | some t2 => translateLoop env ops fuel mCalendar t2 rest1
    else translateLoop env ops fuel mCalendar (translatePlain current t) rest

/-- What `formatDateTime` leaves behind: the state, the pattern handed to
`formatDateTimeICU`, and the formatted text. -/
structure Formatted where
  d : MLocalePrivate
  icuFormat : QString
  text : QString

/-- Embeds `MLocale::formatDateTime(const MCalendar &, const QString &)`. -/
def formatDateTime {Cal : Type} (env : LocaleEnv) (ops : CalendarOps Cal) (fuel : Nat)
    (d : MLocalePrivate) (mCalendar : Cal) (formatString : QString) : Option Formatted :=
  if !d._icuFormatStringCache.contains formatString then
    match translateLoop env ops fuel mCalendar
        { d := d, icuFormat := [], isInNormalText := false, canCacheIcuFormat := true }
        formatString with
    | none => none
    | some t =>
      -- save formatString -> icuFormat pair for future use,
      -- if it does not contain content from the input date or time
      let d1 := if t.canCacheIcuFormat then
          { t.d with _icuFormatStringCache := t.d._icuFormatStringCache.insert formatString t.icuFormat }
        else t.d
      let r := formatDateTimeICU env ops d1 mCalendar t.icuFormat
      some { d := r.2, icuFormat := t.icuFormat, text := r.1 }
  else
    -- formatString does exist in hash
    match d._icuFormatStringCache.find formatString with
    | none => none
    | some icuFormat =>
      let d1 := { d with _icuFormatStringCache := d._icuFormatStringCache.touch formatString }
      let r := formatDateTimeICU env ops d1 mCalendar icuFormat
      some { d := r.2, icuFormat := icuFormat, text := r.1 }

/-! ### Test doubles for the examples of the profile and of the formats -/

/-- A test double for the ICU lookup of `localeScript`: the script by the start
of the locale name. -/
def scriptByLanguage (locale : QString) : QString :=
  if startsWith locale (fromUtf8 "ar") || startsWith locale (fromUtf8 "fa") then fromUtf8 "Arab"
  else if startsWith locale (fromUtf8 "he") then fromUtf8 "Hebr"
  else if startsWith locale (fromUtf8 "zh") then fromUtf8 "Hans"
  else if startsWith locale (fromUtf8 "ja") then fromUtf8 "Jpan"
  else if startsWith locale (fromUtf8 "ko") then fromUtf8 "Kore"
  else fromUtf8 "Latn"

/-- A test double for ICU: every formatter can be created; the base pattern is
`HH:mm` for a format without date, `dd.MM.yyyy` for one without time, and both
otherwise; options of locale names are left alone. -/
def sampleLocaleEnv : LocaleEnv where
  localeScriptResource := scriptByLanguage
  parseOption := fun _ _ => []
  setOption := fun name _ _ => name
  setCalendarOption := fun name _ => name
  numberFormatCreatable := fun _ => true
  createDateTimeInstance := fun dateType timeType _ =>
    if dateType = DateType.DateNone then some (fromUtf8 "HH:mm")
    else if timeType = TimeType.TimeNone then some (fromUtf8 "dd.MM.yyyy")
    else some (fromUtf8 "dd.MM.yyyy HH:mm")
  createDateFormatSymbols := fun _ => true
  dateTypeValue := fun t =>
    match t with
    | DateType.DateNone => 0
    | DateType.DateShort => 1
    | DateType.DateMedium => 2
    | DateType.DateLong => 3
    | DateType.DateFull => 4
    | DateType.DateYearAndMonth => 5
    | DateType.DateWeekdayAbbreviatedAndDayOfMonth => 6
    | DateType.DateWeekdayWideAndDayOfMonth => 7
  timeTypeValue := fun t =>
    match t with
    | TimeType.TimeNone => 0
    | TimeType.TimeShort => 1
    | TimeType.TimeMedium => 2
    | TimeType.TimeLong => 3
    | TimeType.TimeFull => 4
  calendarTypeValue := fun t =>
    match t with
    | CalendarType.DefaultCalendar => 0
    | CalendarType.GregorianCalendar => 1
    | CalendarType.OtherCalendar n => n + 2
  timeFormat24hValue := fun t =>
    match t with
    | TimeFormat24h.LocaleDefaultTimeFormat24h => 0
    | TimeFormat24h.TwelveHourTimeFormat24h => 1
    | TimeFormat24h.TwentyFourHourTimeFormat24h => 2
  simpleDateFormatCreatable := fun _ _ => true
  digitValue := asciiDigitValue

/-- A test double for an ICU that cannot construct a base formatter. -/
def failingLocaleEnv : LocaleEnv :=
  { sampleLocaleEnv with createDateTimeInstance := fun _ _ _ => none }

/-- A test double for `MCalendar`: a calendar is the number of days since the
first of January of the year 2024, a Monday; weekdays count from Monday as 1 to
Sunday as 7; formatting writes the pattern itself. -/
def sampleCalendarOps : CalendarOps Nat where
  type := fun _ => CalendarType.GregorianCalendar
  year := fun _ => 2024
  dayOfWeek := fun n => (n % 7 : Nat) + 1
  weekNumber := fun n => (n / 7 : Nat) + 1
  weekOfYear := fun n => (n / 7 : Nat) + 1
  setFirstDayOfWeek := fun n _ => n
  setMinimalDaysInFirstWeek := fun n _ => n
  setDate := fun _ _ _ _ => 0
  addDays := fun n k => n + k.toNat
  sunday := 7
  monday := 1
  formatDate := fun f _ => f.pattern
  formatNumber := fun _ i => QString_number i.toNat
  defaultDateTime := fun _ _ => some (fromUtf8 "1.1.2024 0:00")
  defaultDate := fun _ _ => some (fromUtf8 "1.1.2024")
  defaultTime := fun _ _ => some (fromUtf8 "0:00")

/-- The place of a conversion specifier in a format string, as the translation
loop reads it: a `%` that does not itself follow a `%` of a specifier, and the
character after it. -/
def hasSpecifier (c : QChar) : QString → Bool
  | [] => false
  | x :: rest =>
    if x = 37 then
      match rest with
      | [] => false
      | y :: rest1 => y == c || hasSpecifier c rest1
    else hasSpecifier c rest

/-- The specifiers whose translation takes text from the date at hand and so
clears `canCacheIcuFormat`: c, C, u, U, v, V, w, W, x and X. -/
def dateDependentSpecifiers : List QChar :=
  [99, 67, 117, 85, 118, 86, 119, 87, 120, 88]

/-- The number of single quotes of a pattern; a pattern ends inside a quoted
span exactly when this number is odd, since an escaped quote is two quotes. -/
def quoteCount (pattern : QString) : Nat :=
  pattern.count 39

/-- One step of reading the quoted spans of a pattern: the closed spans read so
far and the text of the span that is open, if one is.  A single quote opens a
span or closes the open one, as in the loops of `dateFormatTo12h` and
`dateFormatTo24h`. -/
def spanStep (σ : List QString × Option QString) (c : QChar) : List QString × Option QString :=
  match σ.2 with
  | none => if c = 39 then (σ.1, some []) else σ
  | some cur => if c = 39 then (σ.1 ++ [cur], none) else (σ.1, some (cur ++ [c]))

/-- The quoted spans of a pattern, in order: the texts between an opening quote
and the quote that closes it. -/
def quotedSpans (s : QString) : List QString :=
  (s.foldl spanStep ([], none)).1

/-- Whether a span is open after reading a text, starting inside a span or
outside one: every single quote toggles. -/
def quotedAfter : Bool → QString → Bool
  | q, [] => q
  | q, c :: cs => quotedAfter (if c = 39 then !q else q) cs

/-- The number of occurrences of a unit outside the quoted spans of a text;
the quote that closes a span counts as outside. -/
def unquotedCount (x : QChar) : Bool → QString → Nat
  | _, [] => 0
  | q, c :: cs =>
    (if !(if c = 39 then !q else q) && c == x then 1 else 0)
      + unquotedCount x (if c = 39 then !q else q) cs

/-- A pattern with every `H` outside a quoted span replaced by `h` and every
`k` outside one by `K`. -/
def hoursTo12 : Bool → QString → QString
  | _, [] => []
  | q, c :: cs =>
    (if !(if c = 39 then !q else q) && c == 72 then 104
      else if !(if c = 39 then !q else q) && c == 107 then 75 else c)
      :: hoursTo12 (if c = 39 then !q else q) cs

/-- Whether a text completes a run of three units `m`, when `r` units `m` stand
directly in front of it. -/
def tripleFrom (m : QChar) : Nat → QString → Bool
  | _, [] => false
  | r, c :: cs =>
    if c = m then decide (3 ≤ r + 1) || tripleFrom m (r + 1) cs else tripleFrom m 0 cs

/-- A text of ASCII code units only. -/
def isAscii (s : QString) : Bool :=
  s.all (fun c => decide (c < 0x80))

/-! ### Units that are not ASCII between two letters -/

/-- Whether some unit from U+0080 on in a text is followed, later in the text,
by the unit `m`. -/
def nonAsciiThen (m : QChar) : QString → Bool
  | [] => false
  | c :: cs => (decide (0x80 ≤ c) && cs.contains m) || nonAsciiThen m cs

/-- Whether some unit from U+0080 on stands between two units `m` of a text,
directly or with other units in between. -/
def nonAsciiBetween (m : QChar) : QString → Bool
  | [] => false
  | c :: cs => (c == m && nonAsciiThen m cs) || nonAsciiBetween m cs

/-- The test `nonAsciiBetween` as one pass over the text, from the state 0
before the first `m`, 1 after an `m`, or 2 after a unit from U+0080 on that
follows an `m`. -/
def gapFrom (m : QChar) : Nat → QString → Bool
  | _, [] => false
  | st, c :: cs =>
    if c = m then decide (st = 2) || gapFrom m 1 cs
    else if 0x80 ≤ c then gapFrom m (if st = 0 then 0 else 2) cs
    else gapFrom m st cs

/-! ### A calendar with a first day of the week -/

/-- A test double for an `MCalendar` of one year: the weekday of the first of
January (1 for Monday to 7 for Sunday), the days since the first of January,
the first day of the week and the minimal days in the first week. -/
structure WeekCalendar where
  jan1 : Nat
  day : Nat
  firstDayOfWeek : Nat
  minimalDays : Nat
  deriving DecidableEq, Repr

/-- The week of the year of the test double: weeks start on the first day of
the week, and the week that holds the first of January is week 1 when at least
`minimalDays` of its days are in the year.  A day before week 1 gets the
number 0 here. -/
def WeekCalendar.weekOfYear (c : WeekCalendar) : Nat :=
  let before := (c.jan1 + 7 - c.firstDayOfWeek) % 7
  (c.day + before) / 7 + (if c.minimalDays ≤ 7 - before then 1 else 0)

/-- The days before each month of a leap year. -/
def daysBeforeMonth : List Nat :=
  [0, 31, 60, 91, 121, 152, 182, 213, 244, 274, 305, 335]

/-- A test double for `MCalendar` with a first day of the week, for the year
2024; formatting writes the pattern itself. -/
def weekCalendarOps : CalendarOps WeekCalendar where
  type := fun _ => CalendarType.GregorianCalendar
  year := fun _ => 2024
  dayOfWeek := fun c => ((c.jan1 + 6 + c.day) % 7 + 1 : Nat)
  weekNumber := fun c => c.weekOfYear
  weekOfYear := fun c => c.weekOfYear
  setFirstDayOfWeek := fun c w => { c with firstDayOfWeek := w.toNat }
  setMinimalDaysInFirstWeek := fun c n => { c with minimalDays := n.toNat }
  setDate := fun c _ month day =>
    { c with day := daysBeforeMonth.getD (month.toNat - 1) 0 + (day.toNat - 1) }
  addDays := fun c k => { c with day := c.day + k.toNat }
  sunday := 7
  monday := 1
  formatDate := fun f _ => f.pattern
  formatNumber := fun _ i => QString_number i.toNat
  defaultDateTime := fun _ _ => some (fromUtf8 "1.1.2024 0:00")
  defaultDate := fun _ _ => some (fromUtf8 "1.1.2024")
  defaultTime := fun _ _ => some (fromUtf8 "0:00")

/-! ### The digits of a grouped phone number -/

/-- A text with every space, `(`, `)` and `-` deleted. -/
def stripSeparators (s : QString) : QString :=
  s.filter (fun c => c != 32 && c != 40 && c != 41 && c != 45)

/-- Embeds `MLocalePrivate::operator=`, which `MLocale::operator=` calls for
another profile: the names of the categories, the clock preference and the
number formatters are taken from `other`; `_phoneNumberGrouping`,
`_pDateTimeCalendar` and the caches are not assigned. -/
def MLocalePrivate.assign (d other : MLocalePrivate) : MLocalePrivate :=
  { d with
    _valid := other._valid
    _defaultLocale := other._defaultLocale
    _messageLocale := other._messageLocale
    _numericLocale := other._numericLocale
    _collationLocale := other._collationLocale
    _calendarLocale := other._calendarLocale
    _monetaryLocale := other._monetaryLocale
    _nameLocale := other._nameLocale
    _timeFormat24h := other._timeFormat24h
    _telephoneLocale := other._telephoneLocale
    _numberFormat := other._numberFormat
    _numberFormatLcTime := other._numberFormatLcTime }

end MLocale

/-! # Theorems -/

namespace MLocale
open PhoneNumberGrouping

/-! ## The sanity check of `formatPhoneNumber` -/

/-- Greedy repetition followed by an end-of-subject test succeeds exactly when
every remaining unit is in the class. -/
theorem starRun_eos_isSome (p : QChar → Bool) (caps : Caps) (K : Cont)
    (hK : ∀ pos c, (K pos [] c).isSome = true) :
    ∀ (s : QString) (pos : Nat),
      (starRun p (fun pos1 inp1 caps1 => if inp1 = [] then K pos1 inp1 caps1 else none)
        caps pos s).isSome = s.all p := by
  intro s
  induction s with
  | nil => intro pos; simp [starRun, hK]
  | cons c cs ih =>
    intro pos
    by_cases hc : p c = true
    · have := ih (pos + 1)
      simp only [starRun, hc, if_true, List.all_cons, Bool.true_and]
      rw [← this]
      cases h : starRun p (fun pos1 inp1 caps1 => if inp1 = [] then K pos1 inp1 caps1 else none)
        caps (pos + 1) cs <;> simp
    · simp [starRun, hc]

/-- A pattern that starts with `^` matches at offset 0 only. -/
theorem searchFrom_bol_pos (r : Re) : ∀ (s : QString) (pos : Nat), 0 < pos →
    (Re.seq Re.bol r).searchFrom pos s = none := by
  intro s
  induction s with
  | nil => intro pos h; simp [Re.searchFrom, Re.run, Nat.pos_iff_ne_zero.mp h]
  | cons c cs ih =>
    intro pos h
    simp [Re.searchFrom, Re.run, Nat.pos_iff_ne_zero.mp h, ih (pos + 1) (Nat.succ_pos _)]

/-- The sanity check pattern at offset 0. -/
theorem phoneNumberRx_run (s : QString) :
    ((Re.group 0 phoneNumberRx).run 0 s [] (fun _ _ caps => some caps)).isSome
      = isPlusDigits s := by
  have key := starRun_eos_isSome isAsciiDigit []
    (fun pos1 _ caps1 => some ((0, List.take (pos1 - 0) s) :: caps1)) (by intros; rfl)
  cases s with
  | nil => simp [phoneNumberRx, Re.run, Re.opt, starRun, isPlusDigits]
  | cons c cs =>
    by_cases hc : c = 43
    · subst hc
      have k1 := key cs 1
      simp only [phoneNumberRx, Re.run, Re.opt, if_true, beq_self_eq_true]
      simp only [isPlusDigits, List.all_cons, List.head?_cons, List.tail_cons,
        beq_self_eq_true, Bool.true_and]
      have h43 : isAsciiDigit 43 = false := by decide
      simp only [h43, Bool.false_and, Bool.false_or]
      rw [← k1]
      cases h : starRun isAsciiDigit (fun pos1 inp1 caps1 =>
          if inp1 = [] then some ((0, List.take (pos1 - 0) (43 :: cs)) :: caps1) else none)
          [] 1 cs with
      | some r => simp
      | none => simp [starRun, h43]
    · have k0 := key (c :: cs) 0
      have hb : (c == 43) = false := by simpa using hc
      simp only [phoneNumberRx, Re.run, Re.opt, if_true, hb]
      simp only [isPlusDigits, List.head?_cons, List.tail_cons]
      have : (some c == some 43) = false := by simpa using hc
      simp only [this, Bool.false_and, Bool.or_false]
      rw [← k0]
      simp

/-- The sanity check of `formatPhoneNumber` accepts exactly an optional `+`
followed by ASCII digits. -/
theorem phoneNumberRx_hasMatch (s : QString) :
    phoneNumberRx.hasMatch s = isPlusDigits s := by
  rw [← phoneNumberRx_run s]
  cases s with
  | nil => simp [Re.hasMatch, Re.search, Re.searchFrom]
  | cons c cs =>
    simp only [Re.hasMatch, Re.search, Re.searchFrom]
    cases h : (Re.group 0 phoneNumberRx).run 0 (c :: cs) [] (fun _ _ caps => some caps) with
    | some r => simp
    | none =>
      have := searchFrom_bol_pos (Re.seq (Re.seq (Re.opt (Re.cls (fun c => c == 43)))
        (Re.star isAsciiDigit)) Re.eos) cs 1 (by decide)
      simp [phoneNumberRx, this]

/-- A `+` followed by digits passes the sanity check. -/
theorem isPlusDigits_plus_cons (t : QString) (h : ∀ c ∈ t, isAsciiDigit c = true) :
    isPlusDigits (43 :: t) = true := by
  have : t.all isAsciiDigit = true := List.all_eq_true.mpr h
  simp [isPlusDigits, this]

/-! ## Phone number grouping -/

/-- C1: for every string `n` of exactly ten ASCII digits, formatting `"+1" ++ n`
under North-American grouping gives `"+1 (" ++ n[0..2] ++ ") " ++ n[3..5] ++ "-" ++ n[6..9]`. -/
theorem formatPhoneNumber_northAmerican_plus_one (n : QString) (hlen : n.length = 10)
    (hdig : ∀ c ∈ n, isAsciiDigit c = true) :
    formatPhoneNumber (fromUtf8 "+1" ++ n) NorthAmericanPhoneNumberGrouping
      = some (fromUtf8 "+1 (" ++ n.take 3 ++ fromUtf8 ") " ++ (n.drop 3).take 3
              ++ fromUtf8 "-" ++ n.drop 6) := by
  have e1 : fromUtf8 "+1" = [43, 49] := by decide
  have e2 : fromUtf8 "+1 (" = [43, 49, 32, 40] := by decide
  have e3 : fromUtf8 ") " = [41, 32] := by decide
  have e4 : fromUtf8 "-" = [45] := by decide
  have e5 : fromUtf8 "00" = [48, 48] := by decide
  have e6 : fromUtf8 "+" = [43] := by decide
  have e7 : fromUtf8 " " = [32] := by decide
  have e8 : fromUtf8 "(" = [40] := by decide
  have hm : phoneNumberRx.hasMatch (43 :: 49 :: n) = true := by
    rw [phoneNumberRx_hasMatch]
    apply isPlusDigits_plus_cons
    intro c hc
    rcases List.mem_cons.mp hc with h | h
    · subst h; decide
    · exact hdig c h
  have hv : isValidCountryCode [49] = some true := by decide
  have hl : ¬ (n.length < 4) ∧ ¬ (n.length < 7) ∧ n.length < 11 := by omega
  simp [formatPhoneNumber, e1, e2, e3, e4, e5, e6, e7, e8, hm, startsWith,
    splitCountryCodeIndicator, removeFront, findCountryCode, left, hv, groupRemaining,
    groupedInternationalString, hl]

/-- C1 at `"+15551234567"`: the result is `"+1 (555) 123-4567"`. -/
theorem formatPhoneNumber_northAmerican_plus_one_witness :
    (fromUtf8 "5551234567").length = 10
      ∧ (∀ c ∈ fromUtf8 "5551234567", isAsciiDigit c = true)
      ∧ formatPhoneNumber (fromUtf8 "+1" ++ fromUtf8 "5551234567") NorthAmericanPhoneNumberGrouping
        = some (fromUtf8 "+1 (" ++ (fromUtf8 "5551234567").take 3 ++ fromUtf8 ") "
            ++ ((fromUtf8 "5551234567").drop 3).take 3 ++ fromUtf8 "-"
            ++ (fromUtf8 "5551234567").drop 6)
      ∧ fromUtf8 "+1" ++ fromUtf8 "5551234567" = fromUtf8 "+15551234567"
      ∧ fromUtf8 "+1 (" ++ (fromUtf8 "5551234567").take 3 ++ fromUtf8 ") "
            ++ ((fromUtf8 "5551234567").drop 3).take 3 ++ fromUtf8 "-"
            ++ (fromUtf8 "5551234567").drop 6 = fromUtf8 "+1 (555) 123-4567" :=
  ⟨by decide, by decide,
    formatPhoneNumber_northAmerican_plus_one (fromUtf8 "5551234567") (by decide) (by decide),
    by decide, by decide⟩

/-- C2: an input that is not an optional leading `+` followed only by ASCII
digits is returned unchanged, for every grouping style. -/
theorem formatPhoneNumber_rejects_malformed (s : QString) (g : PhoneNumberGrouping)
    (h : isPlusDigits s = false) : formatPhoneNumber s g = some s := by
  simp [formatPhoneNumber, phoneNumberRx_hasMatch, h]

/-- C2 at `"555-1234"` under North-American grouping. -/
theorem formatPhoneNumber_rejects_malformed_witness :
    isPlusDigits (fromUtf8 "555-1234") = false
      ∧ formatPhoneNumber (fromUtf8 "555-1234") NorthAmericanPhoneNumberGrouping
          = some (fromUtf8 "555-1234") :=
  ⟨by decide, formatPhoneNumber_rejects_malformed _ _ (by decide)⟩

/-- C3: under North-American grouping every input that begins with `00` is
returned unchanged. -/
theorem formatPhoneNumber_northAmerican_double_zero (s : QString)
    (h : startsWith s (fromUtf8 "00") = true) :
    formatPhoneNumber s NorthAmericanPhoneNumberGrouping = some s := by
  unfold formatPhoneNumber
  by_cases hm : phoneNumberRx.hasMatch s = true
  · simp [hm, h]
  · simp [hm]

/-- C3 at `"0015551234567"`. -/
theorem formatPhoneNumber_northAmerican_double_zero_witness :
    startsWith (fromUtf8 "0015551234567") (fromUtf8 "00") = true
      ∧ formatPhoneNumber (fromUtf8 "0015551234567") NorthAmericanPhoneNumberGrouping
          = some (fromUtf8 "0015551234567") :=
  ⟨by decide, formatPhoneNumber_northAmerican_double_zero _ (by decide)⟩

/-- The country code search reads outside its argument exactly when no digit is left. -/
theorem findCountryCode_eq_none_iff (remaining : QString) :
    findCountryCode remaining = none ↔ remaining = [] := by
  cases remaining with
  | nil => simp [findCountryCode, isValidCountryCode, left, QString_at]
  | cons c cs =>
    simp only [findCountryCode, isValidCountryCode, left, QString_at, List.take]
    cases cs with
    | nil => by_cases h : c = 48 <;> simp [h]; split <;> simp_all
    | cons d ds =>
      by_cases h : c = 48
      · simp [h]
      · simp only [List.take, List.get?, h, if_false]
        split <;> simp_all
        split <;> simp_all
        split <;> simp_all

/-- C4 at its failing inputs: when nothing follows the international prefix the
country code test reads `code.at(0)` of an empty string, for `+` and `011`
under every grouping and for `00` under every grouping but the North-American one. -/
theorem formatPhoneNumber_bare_prefix_reads_out_of_range :
    (∀ g, formatPhoneNumber (fromUtf8 "+") g = none)
      ∧ (∀ g, formatPhoneNumber (fromUtf8 "011") g = none)
      ∧ formatPhoneNumber (fromUtf8 "00") NoPhoneNumberGrouping = none
      ∧ formatPhoneNumber (fromUtf8 "00") DefaultPhoneNumberGrouping = none := by
  refine ⟨fun g => ?_, fun g => ?_, by decide, by decide⟩
  · cases g <;> decide
  · cases g <;> decide


/-! ## The patterns of `mixingSymbolsWanted` -/

/-- A literal pattern in front of its own text consumes it. -/
theorem lit_run_append (k : Cont) (caps : Caps) :
    ∀ (L rest : QString) (pos : Nat),
      (Re.lit L).run pos (L ++ rest) caps k = k (pos + L.length) rest caps := by
  intro L
  induction L with
  | nil => intro rest pos; simp [Re.lit, Re.run]
  | cons c cs ih =>
    intro rest pos
    simp only [Re.lit, Re.run, List.cons_append, beq_self_eq_true, if_true, ih, List.length_cons]
    congr 1
    omega

/-- A literal pattern matches only in front of its own text. -/
theorem lit_run_isSome (k : Cont) (caps : Caps) :
    ∀ (L inp : QString) (pos : Nat), ((Re.lit L).run pos inp caps k).isSome = true →
      ∃ rest, inp = L ++ rest := by
  intro L
  induction L with
  | nil => intro inp pos _; exact ⟨inp, rfl⟩
  | cons c cs ih =>
    intro inp pos h
    cases inp with
    | nil => simp [Re.lit, Re.run] at h
    | cons x xs =>
      simp only [Re.lit, Re.run] at h
      by_cases hx : (x == c) = true
      · simp only [hx, if_true] at h
        obtain ⟨rest, hrest⟩ := ih xs (pos + 1) h
        have : x = c := by simpa using hx
        exact ⟨rest, by rw [this, hrest]; rfl⟩
      · simp [hx] at h

/-- Greedy repetition can always stop at once. -/
theorem starRun_isSome_of_cont (p : QChar → Bool) (k : Cont) (caps : Caps) (pos : Nat)
    (inp : QString) (h : (k pos inp caps).isSome = true) :
    (starRun p k caps pos inp).isSome = true := by
  cases inp with
  | nil => simpa [starRun] using h
  | cons c cs =>
    simp only [starRun]
    split
    · split
      · rfl
      · exact h
    · exact h

/-- Greedy repetition succeeds when the continuation succeeds after some units of the class. -/
theorem starRun_isSome_of_append (p : QChar → Bool) (k : Cont) (caps : Caps) :
    ∀ (mid rest : QString) (pos : Nat), (∀ c ∈ mid, p c = true) →
      (k (pos + mid.length) rest caps).isSome = true →
      (starRun p k caps pos (mid ++ rest)).isSome = true := by
  intro mid
  induction mid with
  | nil =>
    intro rest pos _ hk
    exact starRun_isSome_of_cont p k caps pos rest (by simpa using hk)
  | cons c cs ih =>
    intro rest pos hp hk
    have hc : p c = true := hp c (List.mem_cons_self _ _)
    have hrec := ih rest (pos + 1) (fun x hx => hp x (List.mem_cons_of_mem _ hx))
      (by simpa [Nat.add_assoc, Nat.add_comm 1] using hk)
    simp only [List.cons_append, starRun, hc, if_true]
    cases h : starRun p k caps (pos + 1) (cs ++ rest) with
    | none => rw [h] at hrec; simp at hrec
    | some r => rfl

/-- When greedy repetition succeeds, the continuation succeeded after some units of the class. -/
theorem starRun_isSome_elim (p : QChar → Bool) (k : Cont) (caps : Caps) :
    ∀ (inp : QString) (pos : Nat), (starRun p k caps pos inp).isSome = true →
      ∃ mid rest, inp = mid ++ rest ∧ (∀ c ∈ mid, p c = true)
        ∧ (k (pos + mid.length) rest caps).isSome = true := by
  intro inp
  induction inp with
  | nil =>
    intro pos h
    exact ⟨[], [], rfl, by simp, by simpa [starRun] using h⟩
  | cons c cs ih =>
    intro pos h
    simp only [starRun] at h
    by_cases hc : p c = true
    · simp only [hc, if_true] at h
      cases hr : starRun p k caps (pos + 1) cs with
      | some r =>
        obtain ⟨mid, rest, e, hp, hk⟩ := ih (pos + 1) (by rw [hr]; rfl)
        refine ⟨c :: mid, rest, by rw [e]; rfl, ?_, ?_⟩
        · intro x hx
          rcases List.mem_cons.mp hx with h1 | h1
          · rw [h1]; exact hc
          · exact hp x h1
        · simpa [Nat.add_assoc, Nat.add_comm 1] using hk
      | none =>
        rw [hr] at h
        exact ⟨[], c :: cs, rfl, by simp, by simpa using h⟩
    · simp only [hc] at h
      exact ⟨[], c :: cs, rfl, by simp, by simpa using h⟩

/-- A search succeeds exactly when the pattern matches at some offset. -/
theorem searchFrom_isSome_iff (r : Re) :
    ∀ (s : QString) (pos : Nat), (r.searchFrom pos s).isSome = true ↔
      ∃ pre post, s = pre ++ post
        ∧ ((Re.group 0 r).run (pos + pre.length) post [] (fun _ _ caps => some caps)).isSome
            = true := by
  intro s
  induction s with
  | nil =>
    intro pos
    constructor
    · intro h
      exact ⟨[], [], rfl, by simpa [Re.searchFrom] using h⟩
    · rintro ⟨pre, post, e, h⟩
      have hpre : pre = [] := by
        cases pre with
        | nil => rfl
        | cons a as => simp at e
      have hpost : post = [] := by
        subst hpre; simpa using e.symm
      subst hpre hpost
      simpa [Re.searchFrom] using h
  | cons c cs ih =>
    intro pos
    constructor
    · intro h
      simp only [Re.searchFrom] at h
      cases hr : (Re.group 0 r).run pos (c :: cs) [] (fun _ _ caps => some caps) with
      | some m => exact ⟨[], c :: cs, rfl, by simp [hr]⟩
      | none =>
        rw [hr] at h
        obtain ⟨pre, post, e, hp⟩ := (ih (pos + 1)).mp h
        exact ⟨c :: pre, post, by rw [e]; rfl,
          by simpa [Nat.add_assoc, Nat.add_comm 1] using hp⟩
    · rintro ⟨pre, post, e, h⟩
      simp only [Re.searchFrom]
      cases hr : (Re.group 0 r).run pos (c :: cs) [] (fun _ _ caps => some caps) with
      | some m => rfl
      | none =>
        cases pre with
        | nil =>
          simp at e
          subst e
          simp [hr] at h
        | cons a as =>
          simp at e
          obtain ⟨e1, e2⟩ := e
          exact (ih (pos + 1)).mpr ⟨as, post, e2,
            by simpa [Nat.add_assoc, Nat.add_comm 1] using h⟩

/-- The pattern `@.*L` is found in a string exactly when the string has an `@`
followed, with no line feed in between, by the text `L`. -/
theorem atDotStarLit_hasMatch_iff (L s : QString) :
    (Re.seq (Re.cls (fun c => c == 64)) (Re.seq (Re.star dotClass) (Re.lit L))).hasMatch s = true
      ↔ ∃ pre mid post, s = pre ++ 64 :: (mid ++ (L ++ post)) ∧ ∀ c ∈ mid, c ≠ 10 := by
  unfold Re.hasMatch Re.search
  rw [searchFrom_isSome_iff]
  constructor
  · rintro ⟨pre, rest, e, h⟩
    cases rest with
    | nil => simp [Re.run] at h
    | cons x xs =>
      simp only [Re.run] at h
      by_cases hx : (x == 64) = true
      · simp only [hx, if_true] at h
        obtain ⟨mid, rest2, e2, hp, hk⟩ := starRun_isSome_elim _ _ _ _ _ h
        obtain ⟨post, e3⟩ := lit_run_isSome _ _ _ _ _ hk
        have hx64 : x = 64 := by simpa using hx
        refine ⟨pre, mid, post, by rw [e, hx64, e2, e3], ?_⟩
        intro c hc
        have := hp c hc
        simpa [dotClass] using this
      · simp [hx] at h
  · rintro ⟨pre, mid, post, e, hp⟩
    refine ⟨pre, 64 :: (mid ++ (L ++ post)), e, ?_⟩
    simp only [Re.run, beq_self_eq_true, if_true]
    apply starRun_isSome_of_append
    · intro c hc
      simpa [dotClass] using hp c hc
    · rw [lit_run_append]
      rfl

/-- With no opt-out in the Time name, the decision of `mixingSymbolsWanted` is
true as soon as the parsed languages differ, the Messages language is none of
`zh`, `ja`, `ko` and the two scripts have the same direction. -/
theorem mixingSymbolsWanted_of_languages_differ (res : QString → QString)
    (messages time : QString)
    (hno : mixNoRx.hasMatch time = false)
    (hlang : parseLanguage messages ≠ parseLanguage time)
    (hzh : parseLanguage messages ≠ fromUtf8 "zh")
    (hja : parseLanguage messages ≠ fromUtf8 "ja")
    (hko : parseLanguage messages ≠ fromUtf8 "ko")
    (hdir : scriptIsRtl (localeScript res time) = scriptIsRtl (localeScript res messages)) :
    mixingSymbolsWanted res messages time = true := by
  simp [mixingSymbolsWanted, hno, hlang, hzh, hja, hko, hdir]

/-- The pattern of `parseIcuLocaleString` matches `en_US` and `zh_CN`, but the
last group that takes part is group 3, so `capturedTexts()` has four entries
and the test `size() == 5` fails: all four fields come back empty. -/
theorem parseIcuLocaleString_without_variant :
    (icuLocaleRx.search (fromUtf8 "en_US")).map capturedTextsSize = some 4
      ∧ (icuLocaleRx.search (fromUtf8 "zh_CN")).map capturedTextsSize = some 4
      ∧ parseIcuLocaleString (fromUtf8 "en_US")
          = { ok := false, language := [], script := [], country := [], variant := [] }
      ∧ parseIcuLocaleString (fromUtf8 "zh_CN")
          = { ok := false, language := [], script := [], country := [], variant := [] } := by
  decide

/-- C8 at its failing input: for Messages locale `en_US` and Time locale
`zh_CN` the result is false, whatever ICU reports as their scripts, because
both names parse to the empty language. -/
theorem mixingSymbolsWanted_en_US_zh_CN (res : QString → QString) :
    mixingSymbolsWanted res (fromUtf8 "en_US") (fromUtf8 "zh_CN") = false := by
  have h1 : parseLanguage (fromUtf8 "en_US") = [] := by decide
  have h2 : parseLanguage (fromUtf8 "zh_CN") = [] := by decide
  have h3 : mixYesRx.hasMatch (fromUtf8 "zh_CN") = false := by decide
  simp [mixingSymbolsWanted, h1, h2, h3]

/-- C9: for Messages locale `ar_EG` and Time locale `he_IL` the result is false. -/
theorem mixingSymbolsWanted_ar_EG_he_IL (res : QString → QString) :
    mixingSymbolsWanted res (fromUtf8 "ar_EG") (fromUtf8 "he_IL") = false := by
  have h1 : parseLanguage (fromUtf8 "ar_EG") = [] := by decide
  have h2 : parseLanguage (fromUtf8 "he_IL") = [] := by decide
  have h3 : mixYesRx.hasMatch (fromUtf8 "he_IL") = false := by decide
  simp [mixingSymbolsWanted, h1, h2, h3]

/-- The first loop of `indexBucket` finds the first label that sorts after the text. -/
theorem scanBuckets_of_firstSortingAfter (coll : Collator) (up : QString) :
    ∀ (bs : List QString) (i0 i : Nat), FirstSortingAfter coll up bs i →
      scanBuckets coll up bs i0 = some (i0 + i) := by
  intro bs
  induction bs with
  | nil =>
    intro i0 i h
    obtain ⟨⟨b, hb, _⟩, _⟩ := h
    simp at hb
  | cons b bs ih =>
    intro i0 i h
    obtain ⟨⟨x, hx, hcx⟩, hmin⟩ := h
    cases i with
    | zero =>
      simp at hx
      subst hx
      simp [scanBuckets, hcx]
    | succ j =>
      have hb : coll up b = false := hmin 0 b (Nat.succ_pos j) (by simp)
      have hrec : FirstSortingAfter coll up bs j := by
        refine ⟨⟨x, by simpa using hx, hcx⟩, ?_⟩
        intro k y hk hy
        exact hmin (k + 1) y (Nat.succ_lt_succ hk) (by simpa using hy)
      have := ih (i0 + 1) j hrec
      simp [scanBuckets, hb, this]
      omega

/-- An index found by the first loop is inside the list. -/
theorem scanBuckets_lt (coll : Collator) (up : QString) :
    ∀ (bs : List QString) (i0 i : Nat), scanBuckets coll up bs i0 = some i →
      i0 ≤ i ∧ i < i0 + bs.length := by
  intro bs
  induction bs with
  | nil => intro i0 i h; simp [scanBuckets] at h
  | cons b bs ih =>
    intro i0 i h
    by_cases hb : coll up b = true
    · simp [scanBuckets, hb] at h
      subst h
      simp
    · simp [scanBuckets, hb] at h
      have := ih (i0 + 1) i h
      simp only [List.length_cons]
      omega

/-- The second loop of `indexBucket` returns when the list has a last label. -/
theorem lastBucketLoop_isSome (coll : Collator) (buckets : List QString) (up fc : QString)
    (hne : buckets ≠ []) :
    ∀ (n i : Nat), (lastBucketLoop coll buckets up fc n i).isSome = true := by
  intro n
  induction n with
  | zero => intro i; simp [lastBucketLoop]
  | succ n ih =>
    intro i
    obtain ⟨l, hl⟩ : ∃ l, buckets.getLast? = some l := by
      cases h : buckets.getLast? with
      | none => exact absurd (List.getLast?_eq_none_iff.mp h) hne
      | some l => exact ⟨l, rfl⟩
    simp only [lastBucketLoop, hl]
    split
    · rfl
    · exact ih (i + 1)

/-- The body of the first loop returns at every index inside a list. -/
theorem bucketAt_isSome (env : BucketEnv) (str fc : QString) (buckets : List QString)
    (coll : Collator) (i : Nat) (hi : i < buckets.length) :
    (bucketAt env str fc buckets coll i).isSome = true := by
  unfold bucketAt
  by_cases h0 : i = 0
  · simp [h0]
  · simp only [h0, if_false]
    cases buckets with
    | nil => simp at hi
    | cons b bs =>
      simp only [List.head?_cons]
      by_cases hs : b = fromUtf8 "一"
      · simp [hs]
      · simp only [hs, if_false]
        by_cases h1 : 1 < i
        · have e2 : (b :: bs).get? (i - 2) = some ((b :: bs).get ⟨i - 2, by omega⟩) :=
            List.get?_eq_get _
          have e1 : (b :: bs).get? (i - 1) = some ((b :: bs).get ⟨i - 1, by omega⟩) :=
            List.get?_eq_get _
          simp only [h1, if_true, e2, e1]
          split <;> rfl
        · have e1 : (b :: bs).get? (i - 1) = some ((b :: bs).get ⟨i - 1, by omega⟩) :=
            List.get?_eq_get _
          simp only [h1, if_false, e1]
          rfl

/-- With a non-empty bucket list `indexBucket` returns a string for every text
and every collator. -/
theorem indexBucket_isSome_of_ne_nil (env : BucketEnv) (str : QString) (buckets : List QString)
    (coll : Collator) (hne : buckets ≠ []) :
    (indexBucket env str buckets coll).isSome = true := by
  obtain ⟨l, hl⟩ : ∃ l, buckets.getLast? = some l := by
    cases h : buckets.getLast? with
    | none => exact absurd (List.getLast?_eq_none_iff.mp h) hne
    | some l => exact ⟨l, rfl⟩
  have hslow : (indexBucketSlow env str buckets coll).isSome = true := by
    unfold indexBucketSlow
    by_cases hu : env.toUpper str = []
    · simp [hu]
    · simp only [hu, if_false]
      split
      · rfl
      · split
        · next i hscan =>
          have := scanBuckets_lt coll _ buckets 0 i hscan
          exact bucketAt_isSome _ _ _ _ _ _ (by omega)
        · exact lastBucketLoop_isSome _ _ _ _ hne _ _
  unfold indexBucket
  by_cases hs : str = []
  · simp [hs]
  · simp only [hs, if_false, fastPath, lastIs, hl]
    split
    · next h => split at h <;> simp at h
    · rfl
    · split
      · next h => split at h <;> simp at h
      · rfl
      · exact hslow

/-- C6 at its failing input: with an empty bucket list and the text `a` the
second loop evaluates `buckets.last()`, a label that does not exist, for every
collator. -/
theorem indexBucket_empty_list_reads_last (coll : Collator) :
    indexBucket sampleEnv (fromUtf8 "a") [] coll = none := by
  have h1 : fromUtf8 "a" = [97] := by decide
  have h2 : fromUtf8 "𪛖" = [55401, 57046] := by decide
  have h3 : fromUtf8 "ン" = [12531] := by decide
  simp [indexBucket, h1, h2, h3, fastPath, startsWith, indexBucketSlow, sampleEnv,
    sampleToUpperChar, leadingCharacter, removeAccents, sampleDecomposition, isHighSurrogate,
    isAsciiDigit, scanBuckets, lastBucketLoop]

/-- C7: the empty text gives the empty string for every environment, every
bucket list and every collator. -/
theorem indexBucket_empty_text (env : BucketEnv) (buckets : List QString) (coll : Collator) :
    indexBucket env (fromUtf8 "") buckets coll = some (fromUtf8 "") := by
  have h : fromUtf8 "" = [] := by decide
  simp [indexBucket, h]


/-! ### The example collator is a strict weak order -/

theorem lexLt_irrefl : ∀ a : List Nat, lexLt a a = false := by
  intro a
  induction a with
  | nil => rfl
  | cons x xs ih => simp [lexLt, ih]

theorem lexLt_trans : ∀ a b c : List Nat, lexLt a b = true → lexLt b c = true → lexLt a c = true := by
  intro a
  induction a with
  | nil =>
    intro b c hab hbc
    cases b with
    | nil => simp [lexLt] at hab
    | cons y ys =>
      cases c with
      | nil => simp [lexLt] at hbc
      | cons z zs => rfl
  | cons x xs ih =>
    intro b c hab hbc
    cases b with
    | nil => simp [lexLt] at hab
    | cons y ys =>
      cases c with
      | nil => simp [lexLt] at hbc
      | cons z zs =>
        simp only [lexLt, Bool.or_eq_true, Bool.and_eq_true, decide_eq_true_eq, beq_iff_eq] at hab hbc ⊢
        rcases hab with h1 | ⟨h1, h1r⟩ <;> rcases hbc with h2 | ⟨h2, h2r⟩
        · left; omega
        · left; omega
        · left; omega
        · right; exact ⟨by omega, ih ys zs h1r h2r⟩

theorem lexLt_eq_of_incomparable :
    ∀ a b : List Nat, lexLt a b = false → lexLt b a = false → a = b := by
  intro a
  induction a with
  | nil =>
    intro b hab _
    cases b with
    | nil => rfl
    | cons y ys => simp [lexLt] at hab
  | cons x xs ih =>
    intro b hab hba
    cases b with
    | nil => simp [lexLt] at hba
    | cons y ys =>
      simp only [lexLt, Bool.or_eq_false_iff, Bool.and_eq_false_iff, decide_eq_false_iff_not,
        beq_eq_false_iff_ne] at hab hba
      have hxy : x = y := by omega
      subst hxy
      have h1 : lexLt xs ys = false := by
        rcases hab.2 with h | h
        · exact absurd rfl h
        · exact h
      have h2 : lexLt ys xs = false := by
        rcases hba.2 with h | h
        · exact absurd rfl h
        · exact h
      rw [ih ys h1 h2]

/-- The example collator is a strict weak order. -/
theorem sampleCollator_strictWeakOrder : StrictWeakOrder sampleCollator := by
  refine ⟨fun a => lexLt_irrefl _, fun a b c => lexLt_trans _ _ _, ?_⟩
  intro a b c hab hba hbc hcb
  have e1 : samplePrimaryKey a = samplePrimaryKey b := lexLt_eq_of_incomparable _ _ hab hba
  have e2 : samplePrimaryKey b = samplePrimaryKey c := lexLt_eq_of_incomparable _ _ hbc hcb
  unfold sampleCollator
  rw [e1, e2]
  exact ⟨lexLt_irrefl _, lexLt_irrefl _⟩

/-! ### The label before the first label that sorts after the text -/

/-- C5 as stated fails: the text U+0340 `bc` is not empty, hits no fast path
and sorts before `C` under a strict weak order with strictly increasing labels
`A` .. `Z`; the first label that sorts after it is `C`, the label before that
is `B`, yet the result is the empty string, because removing the accents of
the first character U+0340 leaves nothing. -/
theorem indexBucket_combining_mark_counterexample :
    StrictWeakOrder sampleCollator
      ∧ latinBuckets.Pairwise (fun a b => sampleCollator a b = true)
      ∧ latinBuckets.head? ≠ some (fromUtf8 "一")
      ∧ (0x340 :: fromUtf8 "bc") ≠ []
      ∧ ¬ (startsWith (0x340 :: fromUtf8 "bc") (fromUtf8 "𪛖") = true
            ∧ latinBuckets.getLast? = some (fromUtf8 "𪛖"))
      ∧ ¬ (startsWith (0x340 :: fromUtf8 "bc") (fromUtf8 "ン") = true
            ∧ latinBuckets.getLast? = some (fromUtf8 "ん"))
      ∧ latinBuckets.get? 2 = some (fromUtf8 "C")
      ∧ sampleCollator (sampleEnv.toUpper (0x340 :: fromUtf8 "bc")) (fromUtf8 "C") = true
      ∧ sampleCollator (sampleEnv.toUpper (0x340 :: fromUtf8 "bc")) (fromUtf8 "A") = false
      ∧ sampleCollator (sampleEnv.toUpper (0x340 :: fromUtf8 "bc")) (fromUtf8 "B") = false
      ∧ latinBuckets.get? 1 = some (fromUtf8 "B")
      ∧ indexBucket sampleEnv (0x340 :: fromUtf8 "bc") latinBuckets sampleCollator
          = some (fromUtf8 "")
      ∧ indexBucket sampleEnv (0x340 :: fromUtf8 "bc") latinBuckets sampleCollator
          ≠ some (fromUtf8 "B") :=
  ⟨sampleCollator_strictWeakOrder, by decide, by decide, by decide, by decide, by decide,
    by decide, by decide, by decide, by decide, by decide, by decide, by decide⟩

/-- C5, amended: let the collator be a strict weak order and the bucket list
strictly increasing under it, with first label other than `一`.  For every
non-empty text that hits neither fast path, whose upper-cased form is not empty
and keeps a non-empty first character when its accents are removed, and for
which the first label that sorts after the upper-cased text has index `i >= 1`,
`indexBucket` returns the label at index `i - 1`. -/
theorem indexBucket_preceding_label (env : BucketEnv) (str : QString) (buckets : List QString)
    (coll : Collator) (i : Nat)
    (_hswo : StrictWeakOrder coll)
    (hinc : buckets.Pairwise (fun a b => coll a b = true))
    (hfirst : buckets.head? ≠ some (fromUtf8 "一"))
    (hstr : str ≠ [])
    (hfast1 : ¬ (startsWith str (fromUtf8 "𪛖") = true
                  ∧ buckets.getLast? = some (fromUtf8 "𪛖")))
    (hfast2 : ¬ (startsWith str (fromUtf8 "ン") = true
                  ∧ buckets.getLast? = some (fromUtf8 "ん")))
    (hup : env.toUpper str ≠ [])
    (hacc : removeAccents env (leadingCharacter (env.toUpper str)) ≠ [])
    (hi : FirstSortingAfter coll (env.toUpper str) buckets i)
    (hpos : 1 ≤ i) :
    i - 1 < buckets.length ∧ indexBucket env str buckets coll = buckets.get? (i - 1) := by
  have hscan := scanBuckets_of_firstSortingAfter coll (env.toUpper str) buckets 0 i hi
  have hlt : i < buckets.length := by
    have := scanBuckets_lt coll (env.toUpper str) buckets 0 i (by simpa using hscan)
    omega
  refine ⟨by omega, ?_⟩
  have hne : buckets ≠ [] := by
    intro h; rw [h] at hlt; simp at hlt
  obtain ⟨l, hl⟩ : ∃ l, buckets.getLast? = some l := by
    cases h : buckets.getLast? with
    | none => exact absurd (List.getLast?_eq_none_iff.mp h) hne
    | some l => exact ⟨l, rfl⟩
  have hf1 : fastPath str buckets (fromUtf8 "𪛖") (fromUtf8 "𪛖") = some false := by
    unfold fastPath lastIs
    by_cases hs : startsWith str (fromUtf8 "𪛖") = true
    · have : l ≠ fromUtf8 "𪛖" := fun h => hfast1 ⟨hs, by rw [hl, h]⟩
      simp [hs, hl, this]
    · simp [hs]
  have hf2 : fastPath str buckets (fromUtf8 "ン") (fromUtf8 "ん") = some false := by
    unfold fastPath lastIs
    by_cases hs : startsWith str (fromUtf8 "ン") = true
    · have : l ≠ fromUtf8 "ん" := fun h => hfast2 ⟨hs, by rw [hl, h]⟩
      simp [hs, hl, this]
    · simp [hs]
  have hbucket : ∀ fc, bucketAt env str fc buckets coll i = buckets.get? (i - 1) := by
    intro fc
    unfold bucketAt
    have h0 : i ≠ 0 := by omega
    simp only [h0, if_false]
    cases hb : buckets with
    | nil => exact absurd hb hne
    | cons b bs =>
      rw [hb] at hfirst hinc hlt
      have hs : b ≠ fromUtf8 "一" := fun h => hfirst (by simp [h])
      simp only [List.head?_cons, hs, if_false]
      by_cases h1 : 1 < i
      · have e2 : (b :: bs).get? (i - 2) = some ((b :: bs).get ⟨i - 2, by omega⟩) :=
          List.get?_eq_get _
        have e1 : (b :: bs).get? (i - 1) = some ((b :: bs).get ⟨i - 1, by omega⟩) :=
          List.get?_eq_get _
        have hrel : coll ((b :: bs).get ⟨i - 2, by omega⟩) ((b :: bs).get ⟨i - 1, by omega⟩)
            = true :=
          List.pairwise_iff_get.mp hinc ⟨i - 2, by omega⟩ ⟨i - 1, by omega⟩
            (by simp only [Fin.mk_lt_mk]; omega)
        simp only [h1, if_true, e2, e1, hrel]
        simp
      · simp only [h1, if_false]
  unfold indexBucket
  simp only [hstr, if_false, hf1, hf2]
  unfold indexBucketSlow
  simp only [hup, if_false]
  cases hra : removeAccents env (leadingCharacter (env.toUpper str)) with
  | nil => exact absurd hra hacc
  | cons f0 frest =>
    simp only [hscan, Nat.zero_add]
    exact hbucket _

/-- C5, amended, at the text `Émile` with the labels `A` .. `Z` and an
accent-insensitive collator: the first label that sorts after `ÉMILE` is `F`
(index 5) and the result is `E`. -/
theorem indexBucket_preceding_label_witness :
    StrictWeakOrder sampleCollator
      ∧ latinBuckets.Pairwise (fun a b => sampleCollator a b = true)
      ∧ FirstSortingAfter sampleCollator (sampleEnv.toUpper (fromUtf8 "Émile")) latinBuckets 5
      ∧ (5 - 1 < latinBuckets.length
          ∧ indexBucket sampleEnv (fromUtf8 "Émile") latinBuckets sampleCollator
              = latinBuckets.get? (5 - 1))
      ∧ latinBuckets.get? (5 - 1) = some (fromUtf8 "E") :=
  have hfsa : FirstSortingAfter sampleCollator (sampleEnv.toUpper (fromUtf8 "Émile"))
      latinBuckets 5 := by
    refine ⟨⟨fromUtf8 "F", by decide, by decide⟩, ?_⟩
    intro j b hj hb
    interval_cases j <;> simp [latinBuckets, List.range, List.range.loop] at hb <;> subst hb <;> decide
  ⟨sampleCollator_strictWeakOrder, by decide, hfsa,
    indexBucket_preceding_label sampleEnv (fromUtf8 "Émile") latinBuckets sampleCollator 5
      sampleCollator_strictWeakOrder (by decide) (by decide) (by decide) (by decide) (by decide)
      (by decide) (by decide) hfsa (by decide),
    by decide⟩

/-! ## Symbol mixing: what a true result implies -/

/-- C11 as stated fails: for Messages name `en_US_POSIX` and Time name
`zh_CN_PINYIN`, which carries no option at all, the result is true although
the Time language is `zh`; only the Messages language is tested against zh,
ja and ko. -/
theorem mixingSymbolsWanted_time_language_counterexample :
    ¬ List.IsInfix (fromUtf8 "mix-time-and-language=yes") (fromUtf8 "zh_CN_PINYIN")
      ∧ localeOptions (fromUtf8 "zh_CN_PINYIN") = [[]]
      ∧ mixingSymbolsWanted scriptByLanguage (fromUtf8 "en_US_POSIX") (fromUtf8 "zh_CN_PINYIN")
          = true
      ∧ parseLanguage (fromUtf8 "en_US_POSIX") = fromUtf8 "en"
      ∧ parseLanguage (fromUtf8 "zh_CN_PINYIN") = fromUtf8 "zh" := by
  decide

/-- C11, amended: for every Messages name and every Time name in which the text
`mix-time-and-language=yes` does not occur, a true result implies that the two
parsed languages differ, that the Messages language is none of zh, ja, ko, and
that the two scripts have the same writing direction. -/
theorem mixingSymbolsWanted_true_implies (res : QString → QString) (messages time : QString)
    (hyes : ¬ List.IsInfix (fromUtf8 "mix-time-and-language=yes") time)
    (h : mixingSymbolsWanted res messages time = true) :
    parseLanguage messages ≠ parseLanguage time
      ∧ parseLanguage messages ≠ fromUtf8 "zh"
      ∧ parseLanguage messages ≠ fromUtf8 "ja"
      ∧ parseLanguage messages ≠ fromUtf8 "ko"
      ∧ scriptIsRtl (localeScript res time) = scriptIsRtl (localeScript res messages) := by
  have hy : mixYesRx.hasMatch time = false := by
    cases hm : mixYesRx.hasMatch time with
    | false => rfl
    | true =>
      unfold mixYesRx at hm
      obtain ⟨pre, mid, post, e, _⟩ := (atDotStarLit_hasMatch_iff _ _).mp hm
      exact absurd ⟨pre ++ 64 :: mid, post, by rw [e]; simp⟩ hyes
  simp only [mixingSymbolsWanted, hy] at h
  simp at h
  obtain ⟨⟨⟨⟨⟨_, h1⟩, h2⟩, h3⟩, h4⟩, h5⟩ := h
  exact ⟨h1, h2, h3, h4, h5⟩

/-- C11, amended, at Messages name `en_US_POSIX` and Time name `fi_FI_POSIX`. -/
theorem mixingSymbolsWanted_true_implies_witness :
    ¬ List.IsInfix (fromUtf8 "mix-time-and-language=yes") (fromUtf8 "fi_FI_POSIX")
      ∧ mixingSymbolsWanted scriptByLanguage (fromUtf8 "en_US_POSIX") (fromUtf8 "fi_FI_POSIX") = true
      ∧ (parseLanguage (fromUtf8 "en_US_POSIX") ≠ parseLanguage (fromUtf8 "fi_FI_POSIX")
          ∧ parseLanguage (fromUtf8 "en_US_POSIX") ≠ fromUtf8 "zh"
          ∧ parseLanguage (fromUtf8 "en_US_POSIX") ≠ fromUtf8 "ja"
          ∧ parseLanguage (fromUtf8 "en_US_POSIX") ≠ fromUtf8 "ko"
          ∧ scriptIsRtl (localeScript scriptByLanguage (fromUtf8 "fi_FI_POSIX"))
              = scriptIsRtl (localeScript scriptByLanguage (fromUtf8 "en_US_POSIX"))) :=
  ⟨by decide, by decide,
    mixingSymbolsWanted_true_implies scriptByLanguage _ _ (by decide) (by decide)⟩


/-! ## Categories -/

/-- C17: after `setCategoryLocale(c, name)` the name of every category `k` is:
for `k = c` the name just set, or the default locale name when the empty string
was set; for every other category what it was before.  In the state after the
constructor every category resolves to the default locale name. -/
theorem categoryName_setCategoryLocale (env : LocaleEnv) (d : MLocalePrivate) (c k : Category)
    (name defaultLocale : QString) :
    categoryName (setCategoryLocale env d c name) k
        = (if k = c then (if name = [] then d._defaultLocale else name) else categoryName d k)
      ∧ categoryName (setCategoryLocale env d c []) c = d._defaultLocale
      ∧ categoryName (MLocalePrivate.init defaultLocale) k = defaultLocale := by
  refine ⟨?_, ?_, ?_⟩
  · cases c <;> cases k <;>
      simp [setCategoryLocale, MLocalePrivate.setCategoryLocale, dropCaches, categoryName,
        recreateNumberFormat]
  · cases c <;>
      simp [setCategoryLocale, MLocalePrivate.setCategoryLocale, dropCaches, categoryName,
        recreateNumberFormat]
  · cases k <;> simp [MLocalePrivate.init, categoryName]

/-- C18 as stated fails: the string `not a locale` is not matched by the pattern
of `parseIcuLocaleString`, which fails on it with four empty fields, but after
it is set as the Time category `categoryName` returns that string and not the
default locale name `en_GB`. -/
theorem categoryName_malformed_counterexample :
    icuLocaleRx.hasMatch (fromUtf8 "not a locale") = false
      ∧ parseIcuLocaleString (fromUtf8 "not a locale")
          = { ok := false, language := [], script := [], country := [], variant := [] }
      ∧ categoryName (setCategoryLocale sampleLocaleEnv (MLocalePrivate.init (fromUtf8 "en_GB"))
            Category.MLcTime (fromUtf8 "not a locale")) Category.MLcTime
          = fromUtf8 "not a locale"
      ∧ categoryName (setCategoryLocale sampleLocaleEnv (MLocalePrivate.init (fromUtf8 "en_GB"))
            Category.MLcTime (fromUtf8 "not a locale")) Category.MLcTime
          ≠ fromUtf8 "en_GB" := by
  decide

/-- C18, amended: when a category is set to a non-empty string on which
`parseIcuLocaleString` fails, the four parsed fields are empty and
`categoryName` returns that string unchanged. -/
theorem categoryName_of_unparsable (env : LocaleEnv) (d : MLocalePrivate) (c : Category)
    (name : QString) (hne : name ≠ []) (hfail : (parseIcuLocaleString name).ok = false) :
    parseIcuLocaleString name
        = { ok := false, language := [], script := [], country := [], variant := [] }
      ∧ categoryName (setCategoryLocale env d c name) c = name := by
  constructor
  · unfold parseIcuLocaleString at hfail ⊢
    cases hs : icuLocaleRx.search name with
    | none => rfl
    | some m =>
      rw [hs] at hfail
      by_cases h5 : capturedTextsSize m = 5
      · simp [h5] at hfail
      · simp [h5]
  · cases c <;>
      simp [setCategoryLocale, MLocalePrivate.setCategoryLocale, dropCaches, categoryName,
        recreateNumberFormat, hne]

/-- C18, amended, at the string `not a locale` set as the Time category. -/
theorem categoryName_of_unparsable_witness :
    fromUtf8 "not a locale" ≠ []
      ∧ (parseIcuLocaleString (fromUtf8 "not a locale")).ok = false
      ∧ (parseIcuLocaleString (fromUtf8 "not a locale")
          = { ok := false, language := [], script := [], country := [], variant := [] }
        ∧ categoryName (setCategoryLocale sampleLocaleEnv (MLocalePrivate.init (fromUtf8 "en_GB"))
            Category.MLcTime (fromUtf8 "not a locale")) Category.MLcTime
          = fromUtf8 "not a locale") :=
  ⟨by decide, by decide, categoryName_of_unparsable _ _ _ _ (by decide) (by decide)⟩

/-! ## The cache of derived date formats -/

/-- C16 as stated fails: a long date and time format is derived and stored, then
the Collate category is written; the key of the stored entry is still in the
cache, so the next derivation with the same seven components is a hit. -/
theorem dateFormatCache_survives_write_counterexample :
    (createDateFormat sampleLocaleEnv (MLocalePrivate.init (fromUtf8 "en_GB"))
        DateType.DateLong TimeType.TimeLong CalendarType.GregorianCalendar
        TimeFormat24h.LocaleDefaultTimeFormat24h).map
      (fun r =>
        ((setCategoryLocale sampleLocaleEnv r.2 Category.MLcCollate
            (fromUtf8 "fi_FI"))._dateFormatCache.contains
          (dateFormatKey sampleLocaleEnv DateType.DateLong TimeType.TimeLong
            CalendarType.GregorianCalendar TimeFormat24h.LocaleDefaultTimeFormat24h
            (fromUtf8 "en_GB") (fromUtf8 "en_GB") (fromUtf8 "en_GB"))))
      = some true := by
  decide

/-- C16, amended: a category write and a clock-preference write empty the cache
of translated format strings and leave the cache of derived date formats as it
was, so that after the write a derivation is a hit exactly for the keys that
were stored before it. -/
theorem caches_after_write (env : LocaleEnv) (d : MLocalePrivate) (c : Category)
    (name : QString) (timeFormat24h : TimeFormat24h) (key : QString) :
    (setCategoryLocale env d c name)._icuFormatStringCache.entries = []
      ∧ (setTimeFormat24h d timeFormat24h)._icuFormatStringCache.entries = []
      ∧ (setCategoryLocale env d c name)._dateFormatCache = d._dateFormatCache
      ∧ (setTimeFormat24h d timeFormat24h)._dateFormatCache = d._dateFormatCache
      ∧ (setCategoryLocale env d c name)._dateFormatCache.contains key
          = d._dateFormatCache.contains key
      ∧ (setTimeFormat24h d timeFormat24h)._dateFormatCache.contains key
          = d._dateFormatCache.contains key := by
  have h1 : (setCategoryLocale env d c name)._dateFormatCache = d._dateFormatCache := by
    cases c <;> simp [setCategoryLocale, MLocalePrivate.setCategoryLocale, dropCaches]
  have h2 : (setTimeFormat24h d timeFormat24h)._dateFormatCache = d._dateFormatCache := by
    simp [setTimeFormat24h, dropCaches]
  refine ⟨?_, ?_, h1, h2, by rw [h1], by rw [h2]⟩
  · cases c <;> simp [setCategoryLocale, MLocalePrivate.setCategoryLocale, dropCaches, QCache.clear]
  · simp [setTimeFormat24h, dropCaches, QCache.clear]

/-! ## A base formatter that cannot be constructed -/

/-- No customization step touches a null pointer. -/
theorem customizeDateFormat_none (env : LocaleEnv) (d : MLocalePrivate) (dateType : DateType)
    (timeType : TimeType) (timeFormat24h : TimeFormat24h) :
    customizeDateFormat env d dateType timeType timeFormat24h none = none := by
  unfold customizeDateFormat
  split
  · rfl
  · split
    · rfl
    · split
      · rfl
      · split
        · cases timeFormat24h <;> rfl
        · rfl

/-- Without mixed symbols, a base formatter that ICU cannot construct gives a
null pointer, which is returned after it has passed every step unchanged. -/
theorem createDateFormat_null_without_mixing (env : LocaleEnv) (d : MLocalePrivate)
    (dateType : DateType) (timeType : TimeType) (calendarType : CalendarType)
    (timeFormat24h : TimeFormat24h)
    (hnull : ∀ dt tt name, env.createDateTimeInstance dt tt name = none)
    (hmiss : d._dateFormatCache.contains
      (currentDateFormatKey env d dateType timeType calendarType timeFormat24h) = false)
    (hmix : mixingSymbolsWanted env.localeScriptResource
      (fixCategoryNameForNumbers env d
        (env.setCalendarOption (categoryName d Category.MLcMessages) calendarType))
      (fixCategoryNameForNumbers env d
        (env.setCalendarOption (categoryName d Category.MLcTime) calendarType)) = false) :
    (createDateFormat env d dateType timeType calendarType timeFormat24h).map (fun r => r.1)
      = some none := by
  simp [createDateFormat, deriveDateFormat, hmiss, hnull, hmix, mixSymbols,
    customizeDateFormat_none, maybeEmbedDateFormat]

/-- C20 at its failing input: ICU cannot construct a base formatter and the Time
category `fi_FI@mix-time-and-language=yes` asks for mixed symbols.  Then
`createDateFormat` calls `adoptDateFormatSymbols` through the null pointer, for
a plain and for a composite date style, and so does `formatDateTime`; the
sibling `formatDateTimeICU` tests the pointer before that call. -/
theorem createDateFormat_null_with_mixing :
    createDateFormat failingLocaleEnv
        (setCategoryLocale failingLocaleEnv (MLocalePrivate.init (fromUtf8 "en_GB"))
          Category.MLcTime (fromUtf8 "fi_FI@mix-time-and-language=yes"))
        DateType.DateLong TimeType.TimeLong CalendarType.GregorianCalendar
        TimeFormat24h.LocaleDefaultTimeFormat24h = none
      ∧ createDateFormat failingLocaleEnv
        (setCategoryLocale failingLocaleEnv (MLocalePrivate.init (fromUtf8 "en_GB"))
          Category.MLcTime (fromUtf8 "fi_FI@mix-time-and-language=yes"))
        DateType.DateYearAndMonth TimeType.TimeNone CalendarType.GregorianCalendar
        TimeFormat24h.TwelveHourTimeFormat24h = none
      ∧ formatDateTimeStyled failingLocaleEnv sampleCalendarOps
        (setCategoryLocale failingLocaleEnv (MLocalePrivate.init (fromUtf8 "en_GB"))
          Category.MLcTime (fromUtf8 "fi_FI@mix-time-and-language=yes"))
        (0 : Nat) DateType.DateLong TimeType.TimeLong = none :=
  ⟨Option.isNone_iff_eq_none.mp (by decide), Option.isNone_iff_eq_none.mp (by decide),
    Option.isNone_iff_eq_none.mp (by decide)⟩

/-! ## The translation of a POSIX format string and its cache -/

/-- Deriving a date format does not touch the cache of translated format strings. -/
theorem createDateFormat_icuFormatStringCache (env : LocaleEnv) (d d1 : MLocalePrivate)
    (dateType : DateType) (timeType : TimeType) (calendarType : CalendarType)
    (timeFormat24h : TimeFormat24h) (df : Option DateFormat)
    (h : createDateFormat env d dateType timeType calendarType timeFormat24h = some (df, d1)) :
    d1._icuFormatStringCache = d._icuFormatStringCache := by
  unfold createDateFormat at h
  split at h
  · cases h
    rfl
  · split at h
    · cases h
    · cases h
      rfl

/-- The pattern of a derived format is read without touching the cache of
translated format strings. -/
theorem icuFormatString_icuFormatStringCache (env : LocaleEnv) (d : MLocalePrivate)
    (dateType : DateType) (timeType : TimeType) (calendarType : CalendarType)
    (timeFormat24h : TimeFormat24h) (r : QString × MLocalePrivate)
    (h : icuFormatString env d dateType timeType calendarType timeFormat24h = some r) :
    r.2._icuFormatStringCache = d._icuFormatStringCache := by
  unfold icuFormatString at h
  split at h
  · simp at h
  · next f d1 hc =>
    simp only [Option.some.injEq] at h
    rw [← h]
    exact createDateFormat_icuFormatStringCache _ _ _ _ _ _ _ _ hc
  · next d1 hc =>
    simp only [Option.some.injEq] at h
    rw [← h]
    exact createDateFormat_icuFormatStringCache _ _ _ _ _ _ _ _ hc

/-- The cases that clear `canCacheIcuFormat` are those of the specifiers c, C, u,
U, v, V, w, W, x and X. -/
theorem specifierOf_fromDate (next : QChar) :
    (specifierOf next).fromDate = dateDependentSpecifiers.contains next := by
  by_cases hmem : next ∈ dateDependentSpecifiers
  · have h1 : dateDependentSpecifiers.contains next = true := by simpa using hmem
    rw [h1]
    have hall : ∀ c ∈ dateDependentSpecifiers, (specifierOf c).fromDate = true := by decide
    exact hall next hmem
  · have h1 : dateDependentSpecifiers.contains next = false := by simpa using hmem
    rw [h1]
    unfold specifierOf
    split
    · next e he =>
      have hin := List.mem_of_find?_eq_some he
      have hk := List.find?_some he
      have hk2 : e.1 = next := by simpa using hk
      have hall : ∀ x ∈ specifierTable, x.2.fromDate = true → x.1 ∈ dateDependentSpecifiers := by
        decide
      cases hfd : e.2.fromDate with
      | false => rfl
      | true => exact absurd (hk2 ▸ hall e hin hfd) hmem
    · rfl

/-- One conversion specifier: the cache of translated format strings and the
quotation state are kept, and `canCacheIcuFormat` is cleared exactly by the
specifiers c, C, u, U, v, V, w, W, x and X. -/
theorem translateSpecifier_spec {Cal : Type} (env : LocaleEnv) (ops : CalendarOps Cal)
    (fuel : Nat) (mCalendar : Cal) (next : QChar) (t t1 : Translation)
    (h : translateSpecifier env ops fuel mCalendar next t = some t1) :
    t1.d._icuFormatStringCache = t.d._icuFormatStringCache
      ∧ t1.isInNormalText = t.isInNormalText
      ∧ t1.canCacheIcuFormat
          = (t.canCacheIcuFormat && !dateDependentSpecifiers.contains next) := by
  rw [← specifierOf_fromDate]
  unfold translateSpecifier at h
  cases hs : specifierOf next <;> rw [hs] at h <;> simp only [Specifier.fromDate] at h ⊢
  case fixed text => cases h; simp [Translation.append]
  case dateTime =>
    obtain ⟨x, _, rfl⟩ := Option.map_eq_some'.mp h
    simp [Translation.appendFromDate]
  case century =>
    obtain ⟨x, _, rfl⟩ := Option.map_eq_some'.mp h
    simp [Translation.appendFromDate]
  case time12 =>
    obtain ⟨x, hx, rfl⟩ := Option.map_eq_some'.mp h
    simp [icuFormatString_icuFormatStringCache _ _ _ _ _ _ _ hx]
  case time24 =>
    obtain ⟨x, hx, rfl⟩ := Option.map_eq_some'.mp h
    simp [icuFormatString_icuFormatStringCache _ _ _ _ _ _ _ hx]
  case isoWeekday =>
    obtain ⟨x, _, rfl⟩ := Option.map_eq_some'.mp h
    simp [Translation.appendFromDate]
  case weekSunday =>
    split at h
    · cases h; simp [Translation.appendFromDate]
    · cases h
  case weekIso =>
    obtain ⟨x, _, rfl⟩ := Option.map_eq_some'.mp h
    simp [Translation.appendFromDate]
  case weekday =>
    obtain ⟨x, _, rfl⟩ := Option.map_eq_some'.mp h
    simp [Translation.appendFromDate]
  case weekMonday =>
    split at h
    · cases h; simp [Translation.appendFromDate]
    · cases h
  case date =>
    obtain ⟨x, _, rfl⟩ := Option.map_eq_some'.mp h
    simp [Translation.appendFromDate]
  case time =>
    obtain ⟨x, _, rfl⟩ := Option.map_eq_some'.mp h
    simp [Translation.appendFromDate]
  case other => cases h; simp


/-- Formatting with a translated pattern does not touch the cache of translated
format strings. -/
theorem formatDateTimeICU_icuFormatStringCache {Cal : Type} (env : LocaleEnv)
    (ops : CalendarOps Cal) (d : MLocalePrivate) (mCalendar : Cal) (formatString : QString) :
    (formatDateTimeICU env ops d mCalendar formatString).2._icuFormatStringCache
      = d._icuFormatStringCache := by
  unfold formatDateTimeICU
  simp only []
  split
  · split <;> rfl
  · split <;> rfl

/-- After `insert` into a cache with room for one object the key is present. -/
theorem QCache.contains_insert {α : Type} (c : QCache α) (key : QString) (object : α)
    (h : 1 ≤ c.maxCost) : (c.insert key object).contains key = true := by
  have h1 : ¬ 1 > c.maxCost := by omega
  simp [QCache.insert, QCache.contains, h1]

/-- After `insert` into a cache with room for one object the key holds the object. -/
theorem QCache.find_insert {α : Type} (c : QCache α) (key : QString) (object : α)
    (h : 1 ≤ c.maxCost) : (c.insert key object).find key = some object := by
  have h1 : ¬ 1 > c.maxCost := by omega
  simp [QCache.insert, QCache.find, h1]

/-- None of the listed specifiers is at the head or in the rest. -/
theorem all_not_head_or (l : List QChar) (y : QChar) (f : QChar → Bool) :
    l.all (fun c => !(y == c || f c)) = (!l.contains y && l.all (fun c => !f c)) := by
  induction l with
  | nil => rfl
  | cons a l ih =>
    simp only [List.all_cons, List.contains_cons]
    rw [ih]
    cases (y == a) <;> cases (f a) <;> cases (l.contains y) <;> simp

/-- The plain-text branch keeps the state and `canCacheIcuFormat`. -/
theorem translatePlain_spec (current : QChar) (t : Translation) :
    (translatePlain current t).d = t.d
      ∧ (translatePlain current t).canCacheIcuFormat = t.canCacheIcuFormat := by
  unfold translatePlain
  split_ifs <;> simp [Translation.append]

/-- Ending a quotation keeps the state and `canCacheIcuFormat`. -/
theorem endQuotation_spec (t : Translation) :
    t.endQuotation.d = t.d ∧ t.endQuotation.canCacheIcuFormat = t.canCacheIcuFormat := by
  unfold Translation.endQuotation
  split_ifs <;> exact ⟨rfl, rfl⟩

/-- The translation loop keeps the cache of translated format strings, and
`canCacheIcuFormat` is cleared exactly when the format string has one of the
specifiers c, C, u, U, v, V, w, W, x and X. -/
theorem translateLoop_spec {Cal : Type} (env : LocaleEnv) (ops : CalendarOps Cal)
    (fuel : Nat) (mCalendar : Cal) (fmt : QString) :
    ∀ (t t1 : Translation), translateLoop env ops fuel mCalendar t fmt = some t1 →
      t1.d._icuFormatStringCache = t.d._icuFormatStringCache
        ∧ t1.canCacheIcuFormat
            = (t.canCacheIcuFormat
                && dateDependentSpecifiers.all (fun c => !hasSpecifier c fmt)) := by
  suffices H : ∀ (n : Nat) (fmt : QString), fmt.length = n →
      ∀ (t t1 : Translation), translateLoop env ops fuel mCalendar t fmt = some t1 →
        t1.d._icuFormatStringCache = t.d._icuFormatStringCache
          ∧ t1.canCacheIcuFormat
              = (t.canCacheIcuFormat
                  && dateDependentSpecifiers.all (fun c => !hasSpecifier c fmt)) from
    H _ fmt rfl
  intro n
  induction n using Nat.strong_induction_on with
  | _ n ih =>
    intro fmt hn t t1 h
    match fmt, hn with
    | [], _ =>
      simp only [translateLoop, Option.some.injEq] at h
      subst h
      simp [hasSpecifier]
    | current :: rest, hn =>
      unfold translateLoop at h
      split_ifs at h with hc
      · match rest, hn with
        | [], _ => simp at h
        | next :: rest1, hn =>
          simp only at h
          split at h
          · cases h
          · next t2 h2 =>
            have hs := translateSpecifier_spec _ _ _ _ _ _ _ h2
            have hl := ih rest1.length (by simp at hn; omega) rest1 rfl t2 t1 h
            have he := endQuotation_spec t
            subst hc
            refine ⟨?_, ?_⟩
            · rw [hl.1, hs.1, he.1]
            · rw [hl.2, hs.2.2, he.2]
              simp only [hasSpecifier, if_true]
              rw [all_not_head_or, Bool.and_assoc]
      · have hl := ih rest.length (by simp at hn; omega) rest rfl _ t1 h
        have hp := translatePlain_spec current t
        have hh : ∀ c, hasSpecifier c (current :: rest) = hasSpecifier c rest := by
          intro c
          conv_lhs => unfold hasSpecifier
          simp only [if_neg hc]
        exact ⟨by rw [hl.1, hp.1], by rw [hl.2, hp.2]; simp only [hh]⟩


/-- A key present after `insert` is the inserted key or was present before. -/
theorem QCache.contains_of_contains_insert {α : Type} (c : QCache α) (key k : QString)
    (object : α) (h : (c.insert key object).contains k = true) :
    k = key ∨ c.contains k = true := by
  unfold QCache.insert at h
  simp only [QCache.contains] at h ⊢
  split_ifs at h
  · right
    rw [List.any_eq_true] at h ⊢
    obtain ⟨e, he, hk⟩ := h
    exact ⟨e, (List.mem_filter.mp he).1, hk⟩
  · rw [List.any_cons, Bool.or_eq_true] at h
    rcases h with h | h
    · left
      exact (beq_iff_eq.mp h).symm
    · right
      rw [List.any_eq_true] at h ⊢
      obtain ⟨e, he, hk⟩ := h
      exact ⟨e, (List.mem_filter.mp (List.mem_of_mem_take he)).1, hk⟩

/-- A key present after `touch` was present before. -/
theorem QCache.contains_of_contains_touch {α : Type} (c : QCache α) (key k : QString)
    (h : (c.touch key).contains k = true) : c.contains k = true := by
  unfold QCache.touch at h
  split at h
  · next e he =>
    simp only [QCache.contains] at h ⊢
    rw [List.any_cons, Bool.or_eq_true] at h
    rw [List.any_eq_true]
    rcases h with h | h
    · exact ⟨e, List.mem_of_find?_eq_some he, h⟩
    · rw [List.any_eq_true] at h
      obtain ⟨x, hx, hk⟩ := h
      exact ⟨x, (List.mem_filter.mp hx).1, hk⟩
  · exact h

/-- A format string with a listed specifier has one of the listed specifiers. -/
theorem dateDependent_of_hasSpecifier (c : QChar) (fmt : QString)
    (hc : c ∈ dateDependentSpecifiers) (h : hasSpecifier c fmt = true) :
    dateDependentSpecifiers.all (fun c => !hasSpecifier c fmt) = false := by
  rw [Bool.eq_false_iff]
  intro hall
  rw [List.all_eq_true] at hall
  have := hall c hc
  simp [h] at this


/-! ### C12 to C15: the translation of a POSIX format string -/

/-- C12: for every state whose cache of translated format strings has room and
does not hold `%Y-%m-%d` yet, `formatDateTime` with the format string `%Y-%m-%d`
returns, the pattern it hands to ICU is `yyyy-MM-dd` (the hyphens unquoted), and
afterwards the cache holds `yyyy-MM-dd` under the key `%Y-%m-%d`. -/
theorem formatDateTime_year_month_day {Cal : Type} (env : LocaleEnv) (ops : CalendarOps Cal)
    (fuel : Nat) (d : MLocalePrivate) (mCalendar : Cal)
    (hmiss : d._icuFormatStringCache.contains (fromUtf8 "%Y-%m-%d") = false)
    (hmax : 1 ≤ d._icuFormatStringCache.maxCost) :
    (formatDateTime env ops fuel d mCalendar (fromUtf8 "%Y-%m-%d")).map
        (fun r => (r.icuFormat, r.d._icuFormatStringCache.find (fromUtf8 "%Y-%m-%d")))
      = some (fromUtf8 "yyyy-MM-dd", some (fromUtf8 "yyyy-MM-dd")) := by
  have hloop : translateLoop env ops fuel mCalendar
      { d := d, icuFormat := [], isInNormalText := false, canCacheIcuFormat := true }
      (fromUtf8 "%Y-%m-%d")
      = some { d := d, icuFormat := fromUtf8 "yyyy-MM-dd", isInNormalText := false,
               canCacheIcuFormat := true } := rfl
  unfold formatDateTime
  rw [hmiss, hloop]
  simp only [Bool.not_false, if_true, Option.map_some', Option.some.injEq, Prod.mk.injEq,
    true_and]
  rw [QCache.find, formatDateTimeICU_icuFormatStringCache, ← QCache.find]
  exact QCache.find_insert _ _ _ hmax

/-- C12 at the freshly constructed state with default locale `en_GB`. -/
theorem formatDateTime_year_month_day_witness :
    (MLocalePrivate.init (fromUtf8 "en_GB"))._icuFormatStringCache.contains
        (fromUtf8 "%Y-%m-%d") = false
      ∧ 1 ≤ (MLocalePrivate.init (fromUtf8 "en_GB"))._icuFormatStringCache.maxCost
      ∧ (formatDateTime sampleLocaleEnv sampleCalendarOps 0
            (MLocalePrivate.init (fromUtf8 "en_GB")) 0 (fromUtf8 "%Y-%m-%d")).map
          (fun r => (r.icuFormat, r.d._icuFormatStringCache.find (fromUtf8 "%Y-%m-%d")))
        = some (fromUtf8 "yyyy-MM-dd", some (fromUtf8 "yyyy-MM-dd")) :=
  ⟨by decide, by decide,
    formatDateTime_year_month_day sampleLocaleEnv sampleCalendarOps 0
      (MLocalePrivate.init (fromUtf8 "en_GB")) 0 (by decide) (by decide)⟩

/-- C13: on a state whose cache of translated format strings holds no key with
the specifier `%u`, a call of `formatDateTime` with any format string leaves a
cache that holds no key with `%u`; and a call with a format string that
contains `%u` returns exactly when the translation loop does, hands to ICU the
pattern that the loop has just produced from the calendar at hand, and leaves
the cache as it was.  The freshly constructed state and the state after every
category write have an empty cache, so no such key is ever stored. -/
theorem formatDateTime_weekday_not_cached {Cal : Type} (env : LocaleEnv)
    (ops : CalendarOps Cal) (fuel : Nat) (d : MLocalePrivate) (mCalendar : Cal) (fmt : QString)
    (hinv : ∀ k, hasSpecifier 117 k = true → d._icuFormatStringCache.contains k = false) :
    (∀ r, formatDateTime env ops fuel d mCalendar fmt = some r →
        ∀ k, hasSpecifier 117 k = true → r.d._icuFormatStringCache.contains k = false)
      ∧ (hasSpecifier 117 fmt = true →
          (formatDateTime env ops fuel d mCalendar fmt).map
              (fun r => (r.icuFormat, r.d._icuFormatStringCache))
            = (translateLoop env ops fuel mCalendar
                { d := d, icuFormat := [], isInNormalText := false, canCacheIcuFormat := true }
                fmt).map (fun t => (t.icuFormat, d._icuFormatStringCache))) := by
  constructor
  · intro r hr k hk
    unfold formatDateTime at hr
    split_ifs at hr with hc
    · split at hr
      · cases hr
      · next t ht =>
        have hl := translateLoop_spec env ops fuel mCalendar fmt _ _ ht
        simp only [Option.some.injEq] at hr
        subst hr
        simp only
        rw [formatDateTimeICU_icuFormatStringCache]
        split_ifs with hcan
        · simp only
          rw [Bool.eq_false_iff]
          intro hcon
          rcases QCache.contains_of_contains_insert _ _ _ _ hcon with heq | hold
          · subst heq
            rw [hl.2, dateDependent_of_hasSpecifier 117 k (by decide) hk] at hcan
            simp at hcan
          · rw [hl.1, hinv k hk] at hold
            cases hold
        · rw [hl.1]
          exact hinv k hk
    · split at hr
      · cases hr
      · simp only [Option.some.injEq] at hr
        subst hr
        simp only
        rw [formatDateTimeICU_icuFormatStringCache]
        simp only
        rw [Bool.eq_false_iff]
        intro hcon
        have hold := QCache.contains_of_contains_touch _ _ _ hcon
        rw [hinv k hk] at hold
        cases hold
  · intro hu
    unfold formatDateTime
    rw [hinv fmt hu]
    simp only [Bool.not_false, if_true]
    split
    · next hn => rw [hn]; rfl
    · next t ht =>
      have hl := translateLoop_spec env ops fuel mCalendar fmt _ _ ht
      rw [ht]
      have hcan : t.canCacheIcuFormat = false := by
        rw [hl.2, dateDependent_of_hasSpecifier 117 fmt (by decide) hu]
        rfl
      simp only [hcan, Option.map_some', Option.some.injEq, Prod.mk.injEq, true_and]
      rw [formatDateTimeICU_icuFormatStringCache]
      exact hl.1

/-- C13 at the format string `%u`, on the state after the Time category has
been set to `fi_FI`: the call returns the pattern `1` of the Monday at hand and
the cache stays empty. -/
theorem formatDateTime_weekday_not_cached_witness :
    (∀ k, hasSpecifier 117 k = true →
        (setCategoryLocale sampleLocaleEnv (MLocalePrivate.init (fromUtf8 "en_GB"))
          Category.MLcTime (fromUtf8 "fi_FI"))._icuFormatStringCache.contains k = false)
      ∧ (formatDateTime sampleLocaleEnv sampleCalendarOps 0
            (setCategoryLocale sampleLocaleEnv (MLocalePrivate.init (fromUtf8 "en_GB"))
              Category.MLcTime (fromUtf8 "fi_FI")) 0 (fromUtf8 "%u")).map
          (fun r => (r.icuFormat, r.d._icuFormatStringCache.entries))
        = some (fromUtf8 "1", [])
      ∧ (formatDateTime sampleLocaleEnv sampleCalendarOps 0
            (setCategoryLocale sampleLocaleEnv (MLocalePrivate.init (fromUtf8 "en_GB"))
              Category.MLcTime (fromUtf8 "fi_FI")) 0 (fromUtf8 "%u")).map
          (fun r => (r.icuFormat, r.d._icuFormatStringCache))
        = (translateLoop sampleLocaleEnv sampleCalendarOps 0 0
            { d := setCategoryLocale sampleLocaleEnv (MLocalePrivate.init (fromUtf8 "en_GB"))
                Category.MLcTime (fromUtf8 "fi_FI"),
              icuFormat := [], isInNormalText := false, canCacheIcuFormat := true }
            (fromUtf8 "%u")).map
          (fun t => (t.icuFormat,
            (setCategoryLocale sampleLocaleEnv (MLocalePrivate.init (fromUtf8 "en_GB"))
              Category.MLcTime (fromUtf8 "fi_FI"))._icuFormatStringCache)) :=
  ⟨fun _ _ => rfl, by decide,
    (formatDateTime_weekday_not_cached sampleLocaleEnv sampleCalendarOps 0
      (setCategoryLocale sampleLocaleEnv (MLocalePrivate.init (fromUtf8 "en_GB"))
        Category.MLcTime (fromUtf8 "fi_FI")) 0 (fromUtf8 "%u") (fun _ _ => rfl)).2 (by decide)⟩

/-- C14 as stated fails: the format string `%r` is stored in the cache of
translated format strings by the first call that translates it. -/
theorem formatDateTime_short_time_cached_counterexample :
    (formatDateTime sampleLocaleEnv sampleCalendarOps 0
        (MLocalePrivate.init (fromUtf8 "en_GB")) 0 (fromUtf8 "%r")).map
      (fun r => (r.icuFormat, r.d._icuFormatStringCache.find (fromUtf8 "%r")))
      = some (fromUtf8 "hh:mm a", some (fromUtf8 "hh:mm a")) := by
  decide

/-- C14, amended: for every state whose cache of translated format strings has
room and does not hold the format string yet, `formatDateTime` returns exactly
when the translation loop does, and afterwards the cache holds the format
string exactly when it has none of the specifiers c, C, u, U, v, V, w, W, x
and X; the specifiers r and R do not count. -/
theorem formatDateTime_cached_iff {Cal : Type} (env : LocaleEnv) (ops : CalendarOps Cal)
    (fuel : Nat) (d : MLocalePrivate) (mCalendar : Cal) (fmt : QString)
    (hmiss : d._icuFormatStringCache.contains fmt = false)
    (hmax : 1 ≤ d._icuFormatStringCache.maxCost) :
    (formatDateTime env ops fuel d mCalendar fmt).map
        (fun r => r.d._icuFormatStringCache.contains fmt)
      = (translateLoop env ops fuel mCalendar
          { d := d, icuFormat := [], isInNormalText := false, canCacheIcuFormat := true }
          fmt).map (fun _ => dateDependentSpecifiers.all (fun c => !hasSpecifier c fmt)) := by
  unfold formatDateTime
  rw [hmiss]
  simp only [Bool.not_false, if_true]
  split
  · next hn => rw [hn]; rfl
  · next t ht =>
    have hl := translateLoop_spec env ops fuel mCalendar fmt _ _ ht
    rw [ht]
    simp only [Option.map_some', Option.some.injEq]
    rw [QCache.contains, formatDateTimeICU_icuFormatStringCache, ← QCache.contains]
    rw [← Bool.true_and (dateDependentSpecifiers.all (fun c => !hasSpecifier c fmt)), ← hl.2]
    cases hcan : t.canCacheIcuFormat
    · simp only [Bool.false_eq_true, if_false]
      rw [hl.1]
      exact hmiss
    · simp only [if_true]
      exact QCache.contains_insert _ _ _ (by rw [hl.1]; exact hmax)

/-- C14, amended, at the format string `%R, week %V` on the freshly constructed
state after the Time category has been set to `fi_FI`: the call returns and the
string is not stored. -/
theorem formatDateTime_cached_iff_witness :
    (setCategoryLocale sampleLocaleEnv (MLocalePrivate.init (fromUtf8 "en_GB"))
        Category.MLcTime (fromUtf8 "fi_FI"))._icuFormatStringCache.contains
        (fromUtf8 "%R, week %V") = false
      ∧ 1 ≤ (setCategoryLocale sampleLocaleEnv (MLocalePrivate.init (fromUtf8 "en_GB"))
          Category.MLcTime (fromUtf8 "fi_FI"))._icuFormatStringCache.maxCost
      ∧ (translateLoop sampleLocaleEnv sampleCalendarOps 0 0
            { d := setCategoryLocale sampleLocaleEnv (MLocalePrivate.init (fromUtf8 "en_GB"))
                Category.MLcTime (fromUtf8 "fi_FI"),
              icuFormat := [], isInNormalText := false, canCacheIcuFormat := true }
            (fromUtf8 "%R, week %V")).isSome = true
      ∧ dateDependentSpecifiers.all (fun c => !hasSpecifier c (fromUtf8 "%R, week %V")) = false
      ∧ (formatDateTime sampleLocaleEnv sampleCalendarOps 0
            (setCategoryLocale sampleLocaleEnv (MLocalePrivate.init (fromUtf8 "en_GB"))
              Category.MLcTime (fromUtf8 "fi_FI")) 0 (fromUtf8 "%R, week %V")).map
          (fun r => r.d._icuFormatStringCache.contains (fromUtf8 "%R, week %V"))
        = (translateLoop sampleLocaleEnv sampleCalendarOps 0 0
            { d := setCategoryLocale sampleLocaleEnv (MLocalePrivate.init (fromUtf8 "en_GB"))
                Category.MLcTime (fromUtf8 "fi_FI"),
              icuFormat := [], isInNormalText := false, canCacheIcuFormat := true }
            (fromUtf8 "%R, week %V")).map
          (fun _ => dateDependentSpecifiers.all
            (fun c => !hasSpecifier c (fromUtf8 "%R, week %V"))) :=
  ⟨by decide, by decide, by decide, by decide,
    formatDateTime_cached_iff sampleLocaleEnv sampleCalendarOps 0
      (setCategoryLocale sampleLocaleEnv (MLocalePrivate.init (fromUtf8 "en_GB"))
        Category.MLcTime (fromUtf8 "fi_FI")) 0 (fromUtf8 "%R, week %V") (by decide) (by decide)⟩

/-- C15 at its failing input: the translation of the format string `abc` is the
pattern of four units `quote a b c`, whose single quote is never closed: the
number of quotes of the pattern is odd. -/
theorem formatDateTime_trailing_letters_unclosed :
    (formatDateTime sampleLocaleEnv sampleCalendarOps 0
        (MLocalePrivate.init (fromUtf8 "en_GB")) 0 (fromUtf8 "abc")).map
      (fun r => (r.icuFormat, quoteCount r.icuFormat % 2))
      = some ([39, 97, 98, 99], 1) := by
  decide

/-! ## C19: parsing a serialized locale identifier -/

/-- C21: for every pattern and every pair of locale names, `maybeEmbedDateFormat`
writes U+202B, the pattern and U+202C when the pattern is non-empty, the script
of the Time locale is right-to-left (`Arab` or `Hebr`) and that of the Messages
locale is not; U+202A, the pattern and U+202C when the pattern is non-empty, the
script of the Messages locale is right-to-left and that of the Time locale is
not; and the pattern unchanged when both scripts have the same direction or the
pattern is empty. -/
theorem maybeEmbedDateFormat_spec (env : LocaleEnv) (f : DateFormat)
    (categoryNameMessages categoryNameTime : QString) :
    (scriptIsRtl (localeScript env.localeScriptResource categoryNameTime) = true →
        scriptIsRtl (localeScript env.localeScriptResource categoryNameMessages) = false →
        f.pattern ≠ [] →
        maybeEmbedDateFormat env (some f) categoryNameMessages categoryNameTime
          = some { f with pattern := 0x202B :: f.pattern ++ [0x202C] })
      ∧ (scriptIsRtl (localeScript env.localeScriptResource categoryNameTime) = false →
        scriptIsRtl (localeScript env.localeScriptResource categoryNameMessages) = true →
        f.pattern ≠ [] →
        maybeEmbedDateFormat env (some f) categoryNameMessages categoryNameTime
          = some { f with pattern := 0x202A :: f.pattern ++ [0x202C] })
      ∧ ((scriptIsRtl (localeScript env.localeScriptResource categoryNameTime)
            = scriptIsRtl (localeScript env.localeScriptResource categoryNameMessages)
          ∨ f.pattern = []) →
        maybeEmbedDateFormat env (some f) categoryNameMessages categoryNameTime = some f)
      ∧ (∀ script, scriptIsRtl script = true ↔ (script = fromUtf8 "Arab" ∨ script = fromUtf8 "Hebr")) := by
  refine ⟨?_, ?_, ?_, ?_⟩
  · intro ht hm hp
    simp [maybeEmbedDateFormat, embeddedPattern, ht, hm, hp]
  · intro ht hm hp
    simp [maybeEmbedDateFormat, embeddedPattern, ht, hm, hp]
  · intro h
    rcases h with h | h
    · simp [maybeEmbedDateFormat, embeddedPattern, h]
    · cases f with
      | mk pattern symbols =>
        simp only at h
        subst h
        simp [maybeEmbedDateFormat, embeddedPattern]
  · intro script
    simp [scriptIsRtl]

/-- C21 at the pattern `d.M.y` with Time locale `ar_EG_POSIX` (script `Arab`)
and Messages locale `en_US_POSIX` (script `Latn`). -/
theorem maybeEmbedDateFormat_spec_witness :
    maybeEmbedDateFormat sampleLocaleEnv
        (some { pattern := fromUtf8 "d.M.y", symbols := Symbols.own })
        (fromUtf8 "en_US_POSIX") (fromUtf8 "ar_EG_POSIX")
      = some { pattern := 0x202B :: fromUtf8 "d.M.y" ++ [0x202C], symbols := Symbols.own } :=
  (maybeEmbedDateFormat_spec sampleLocaleEnv
      { pattern := fromUtf8 "d.M.y", symbols := Symbols.own }
      (fromUtf8 "en_US_POSIX") (fromUtf8 "ar_EG_POSIX")).1 (by decide) (by decide) (by decide)

/-! ## C24 and C30: a leading marker and the week number of `%W` -/

/-- C24 at its failing input: the marker-first pattern `a h:mm` becomes ` H:mm`,
with the space that followed the marker left in front; the marker-last pattern
`h:mm a` becomes `H:mm`. -/
theorem dateFormatTo24h_marker_first_keeps_space :
    isTwelveHours (fromUtf8 "a h:mm") = true
      ∧ dateFormatTo24h (some { pattern := fromUtf8 "a h:mm", symbols := Symbols.own })
          = some { pattern := fromUtf8 " H:mm", symbols := Symbols.own }
      ∧ dateFormatTo24h (some { pattern := fromUtf8 "h:mm a", symbols := Symbols.own })
          = some { pattern := fromUtf8 "H:mm", symbols := Symbols.own } := by
  decide

/-- C30 at its failing input: on Monday the first of January 2024, which is in
week 1 counted from the first Monday, `%W` is translated to the one digit `1`. -/
theorem formatDateTime_week_monday_not_padded :
    weekNumberStartingFromDay sampleCalendarOps 10 0 sampleCalendarOps.monday = some 1
    ∧ (formatDateTime sampleLocaleEnv sampleCalendarOps 10
        (setCategoryLocale sampleLocaleEnv (MLocalePrivate.init (fromUtf8 "en_GB"))
          Category.MLcTime (fromUtf8 "fi_FI")) 0 (fromUtf8 "%W")).map (fun r => r.icuFormat)
      = some (fromUtf8 "1") := by
  decide

/-! ## C25: the pattern of the year-and-month date style -/

/-- A name starts with a text of two units exactly when these are its first two. -/
theorem startsWith_pair (s : QString) (a b : QChar) :
    startsWith s [a, b] = true ↔ ∃ rest, s = a :: b :: rest := by
  match s with
  | [] => simp [startsWith]
  | [x] => simp [startsWith]
  | x :: y :: rest =>
    constructor
    · intro h
      simp only [startsWith, List.isPrefixOf, Bool.and_eq_true, beq_iff_eq, Bool.and_true] at h
      exact ⟨rest, by rw [h.1, h.2]⟩
    · rintro ⟨r, hr⟩
      simp only [List.cons.injEq] at hr
      simp [startsWith, hr.1, hr.2.1]

/-- C25 at its failing input: the Time locale `kok_IN_POSIX` (Konkani) has the
parsed language `kok`, which is none of zh, ja, ko, vi, eu, hu, ms, yet the
pattern written is the one for Korean, `yyyy년 M월`, and not the default
`LLLL yyyy`: the test `startsWith("ko")` on the name of the Time category holds
for the language `kok` as well. -/
theorem dateFormatToYearAndMonth_konkani_gets_korean :
    parseLanguage (fromUtf8 "kok_IN_POSIX") = fromUtf8 "kok"
      ∧ categoryName
          (setCategoryLocale sampleLocaleEnv
            (setCategoryLocale sampleLocaleEnv (MLocalePrivate.init (fromUtf8 "en_GB"))
              Category.MLcMessages (fromUtf8 "kok_IN_POSIX"))
            Category.MLcTime (fromUtf8 "kok_IN_POSIX")) Category.MLcTime
          = fromUtf8 "kok_IN_POSIX"
      ∧ dateFormatToYearAndMonth sampleLocaleEnv
          (setCategoryLocale sampleLocaleEnv
            (setCategoryLocale sampleLocaleEnv (MLocalePrivate.init (fromUtf8 "en_GB"))
              Category.MLcMessages (fromUtf8 "kok_IN_POSIX"))
            Category.MLcTime (fromUtf8 "kok_IN_POSIX"))
          (some { pattern := fromUtf8 "EEEE, d MMMM y", symbols := Symbols.own })
        = some { pattern := fromUtf8 "yyyy년 M월", symbols := Symbols.own }
      ∧ dateFormatToYearAndMonth sampleLocaleEnv
          (setCategoryLocale sampleLocaleEnv
            (setCategoryLocale sampleLocaleEnv (MLocalePrivate.init (fromUtf8 "en_GB"))
              Category.MLcMessages (fromUtf8 "kok_IN_POSIX"))
            Category.MLcTime (fromUtf8 "kok_IN_POSIX"))
          (some { pattern := fromUtf8 "EEEE, d MMMM y", symbols := Symbols.own })
        ≠ some { pattern := fromUtf8 "LLLL yyyy", symbols := Symbols.own } := by
  decide

/-- The branches of `dateFormatToYearAndMonth` as the code takes them, by the
first two units of the name of the Time category: a name that starts with `vi`
gets `LLLL - yyyy`; one that starts with `eu`, `hu` or `ms` gets `yyyy LLLL`;
one that starts with `zh`, `ja` or `ko` gets its own pattern when symbols are
not mixed and `yyyy LLLL` when they are; every name that starts with none of
`zh`, `ja`, `ko`, `vi`, `eu`, `hu`, `ms` gets `LLLL yyyy`.  A language of three
letters that starts with one of these pairs takes the branch of the pair. -/
theorem dateFormatToYearAndMonth_by_name (env : LocaleEnv) (d : MLocalePrivate)
    (f : DateFormat) :
    (startsWith (categoryName d Category.MLcTime) (fromUtf8 "vi") = true →
        dateFormatToYearAndMonth env d (some f)
          = some { f with pattern := fromUtf8 "LLLL - yyyy" })
      ∧ ((startsWith (categoryName d Category.MLcTime) (fromUtf8 "eu") = true
            ∨ startsWith (categoryName d Category.MLcTime) (fromUtf8 "hu") = true
            ∨ startsWith (categoryName d Category.MLcTime) (fromUtf8 "ms") = true) →
        dateFormatToYearAndMonth env d (some f)
          = some { f with pattern := fromUtf8 "yyyy LLLL" })
      ∧ (startsWith (categoryName d Category.MLcTime) (fromUtf8 "zh") = true →
        dateFormatToYearAndMonth env d (some f)
          = some { f with pattern :=
              if (mixingSymbolsWanted env.localeScriptResource
                  (categoryName d Category.MLcMessages) (categoryName d Category.MLcTime)) = true
              then fromUtf8 "yyyy LLLL" else fromUtf8 "yyyy年 LLLL" })
      ∧ (startsWith (categoryName d Category.MLcTime) (fromUtf8 "ja") = true →
        dateFormatToYearAndMonth env d (some f)
          = some { f with pattern :=
              if (mixingSymbolsWanted env.localeScriptResource
                  (categoryName d Category.MLcMessages) (categoryName d Category.MLcTime)) = true
              then fromUtf8 "yyyy LLLL" else fromUtf8 "yyyy年M月" })
      ∧ (startsWith (categoryName d Category.MLcTime) (fromUtf8 "ko") = true →
        dateFormatToYearAndMonth env d (some f)
          = some { f with pattern :=
              if (mixingSymbolsWanted env.localeScriptResource
                  (categoryName d Category.MLcMessages) (categoryName d Category.MLcTime)) = true
              then fromUtf8 "yyyy LLLL" else fromUtf8 "yyyy년 M월" })
      ∧ (startsWith (categoryName d Category.MLcTime) (fromUtf8 "zh") = false →
        startsWith (categoryName d Category.MLcTime) (fromUtf8 "ja") = false →
        startsWith (categoryName d Category.MLcTime) (fromUtf8 "ko") = false →
        startsWith (categoryName d Category.MLcTime) (fromUtf8 "vi") = false →
        startsWith (categoryName d Category.MLcTime) (fromUtf8 "eu") = false →
        startsWith (categoryName d Category.MLcTime) (fromUtf8 "hu") = false →
        startsWith (categoryName d Category.MLcTime) (fromUtf8 "ms") = false →
        dateFormatToYearAndMonth env d (some f)
          = some { f with pattern := fromUtf8 "LLLL yyyy" }) := by
  have hzh : fromUtf8 "zh" = [122, 104] := by decide
  have hja : fromUtf8 "ja" = [106, 97] := by decide
  have hko : fromUtf8 "ko" = [107, 111] := by decide
  have hvi : fromUtf8 "vi" = [118, 105] := by decide
  have heu : fromUtf8 "eu" = [101, 117] := by decide
  have hhu : fromUtf8 "hu" = [104, 117] := by decide
  have hms : fromUtf8 "ms" = [109, 115] := by decide
  simp only [hzh, hja, hko, hvi, heu, hhu, hms]
  refine ⟨?_, ?_, ?_, ?_, ?_, ?_⟩
  · intro h
    obtain ⟨rest, hr⟩ := (startsWith_pair _ _ _).mp h
    simp [dateFormatToYearAndMonth, yearAndMonthPattern, compositePattern, hr, startsWith,
      hzh, hja, hko, hvi]
  · intro h
    rcases h with h | h | h <;> obtain ⟨rest, hr⟩ := (startsWith_pair _ _ _).mp h <;>
      simp [dateFormatToYearAndMonth, yearAndMonthPattern, compositePattern, hr, startsWith,
        hzh, hja, hko, hvi, heu, hhu, hms]
  · intro h
    obtain ⟨rest, hr⟩ := (startsWith_pair _ _ _).mp h
    by_cases hm : mixingSymbolsWanted env.localeScriptResource
        (categoryName d Category.MLcMessages) (122 :: 104 :: rest) = true <;>
      simp [dateFormatToYearAndMonth, yearAndMonthPattern, compositePattern, hr, startsWith,
        hzh, hm]
  · intro h
    obtain ⟨rest, hr⟩ := (startsWith_pair _ _ _).mp h
    by_cases hm : mixingSymbolsWanted env.localeScriptResource
        (categoryName d Category.MLcMessages) (106 :: 97 :: rest) = true <;>
      simp [dateFormatToYearAndMonth, yearAndMonthPattern, compositePattern, hr, startsWith,
        hzh, hja, hm]
  · intro h
    obtain ⟨rest, hr⟩ := (startsWith_pair _ _ _).mp h
    by_cases hm : mixingSymbolsWanted env.localeScriptResource
        (categoryName d Category.MLcMessages) (107 :: 111 :: rest) = true <;>
      simp [dateFormatToYearAndMonth, yearAndMonthPattern, compositePattern, hr, startsWith,
        hzh, hja, hko, hm]
  · intro h1 h2 h3 h4 h5 h6 h7
    simp [dateFormatToYearAndMonth, yearAndMonthPattern, compositePattern, h1, h2, h3, h4, h5,
      h6, h7, hzh, hja, hko, hvi, heu, hhu, hms]

/-! ## C27 and C28: stroke counts and labels that are primary-equal -/

/-- A text that passes the fast paths and keeps a first character reaches the
body of the first loop at the first label that sorts after it. -/
theorem indexBucket_eq_bucketAt (env : BucketEnv) (str : QString) (buckets : List QString)
    (coll : Collator) (i : Nat)
    (hstr : str ≠ [])
    (hfast1 : ¬ (startsWith str (fromUtf8 "𪛖") = true
                  ∧ buckets.getLast? = some (fromUtf8 "𪛖")))
    (hfast2 : ¬ (startsWith str (fromUtf8 "ン") = true
                  ∧ buckets.getLast? = some (fromUtf8 "ん")))
    (hup : env.toUpper str ≠ [])
    (hacc : removeAccents env (leadingCharacter (env.toUpper str)) ≠ [])
    (hi : FirstSortingAfter coll (env.toUpper str) buckets i) :
    i < buckets.length
      ∧ ∃ fc, indexBucket env str buckets coll = bucketAt env str fc buckets coll i := by
  have hscan := scanBuckets_of_firstSortingAfter coll (env.toUpper str) buckets 0 i hi
  have hlt : i < buckets.length := by
    have := scanBuckets_lt coll (env.toUpper str) buckets 0 i (by simpa using hscan)
    omega
  refine ⟨hlt, ?_⟩
  have hne : buckets ≠ [] := by
    intro h; rw [h] at hlt; simp at hlt
  obtain ⟨l, hl⟩ : ∃ l, buckets.getLast? = some l := by
    cases h : buckets.getLast? with
    | none => exact absurd (List.getLast?_eq_none_iff.mp h) hne
    | some l => exact ⟨l, rfl⟩
  have hf1 : fastPath str buckets (fromUtf8 "𪛖") (fromUtf8 "𪛖") = some false := by
    unfold fastPath lastIs
    by_cases hs : startsWith str (fromUtf8 "𪛖") = true
    · have : l ≠ fromUtf8 "𪛖" := fun h => hfast1 ⟨hs, by rw [hl, h]⟩
      simp [hs, hl, this]
    · simp [hs]
  have hf2 : fastPath str buckets (fromUtf8 "ン") (fromUtf8 "ん") = some false := by
    unfold fastPath lastIs
    by_cases hs : startsWith str (fromUtf8 "ン") = true
    · have : l ≠ fromUtf8 "ん" := fun h => hfast2 ⟨hs, by rw [hl, h]⟩
      simp [hs, hl, this]
    · simp [hs]
  unfold indexBucket
  simp only [hstr, if_false, hf1, hf2]
  unfold indexBucketSlow
  simp only [hup, if_false]
  cases hra : removeAccents env (leadingCharacter (env.toUpper str)) with
  | nil => exact absurd hra hacc
  | cons f0 frest =>
    simp only [hscan, Nat.zero_add]
    exact ⟨_, rfl⟩

/-- C27 as stated fails: with the labels `一`, `丙` and the text U+0340 `丁`, the
first label that sorts after the upper-cased text is `丙` at index 1, yet the
result is the empty string and not `1劃`, because removing the accents of the
first character U+0340 leaves nothing. -/
theorem indexBucket_stroke_count_counterexample :
    [fromUtf8 "一", fromUtf8 "丙"].head? = some (fromUtf8 "一")
      ∧ sampleCollator (sampleEnv.toUpper (0x340 :: fromUtf8 "丁")) (fromUtf8 "一") = false
      ∧ sampleCollator (sampleEnv.toUpper (0x340 :: fromUtf8 "丁")) (fromUtf8 "丙") = true
      ∧ indexBucket sampleEnv (0x340 :: fromUtf8 "丁") [fromUtf8 "一", fromUtf8 "丙"]
          sampleCollator = some []
      ∧ indexBucket sampleEnv (0x340 :: fromUtf8 "丁") [fromUtf8 "一", fromUtf8 "丙"]
          sampleCollator ≠ some (fromUtf8 "1劃") := by
  decide

/-- C27, amended: let the first bucket label be `一`.  For every non-empty text
that hits neither fast path, whose upper-cased form is not empty and keeps a
non-empty first character when its accents are removed, and for which the first
label that sorts after the upper-cased text has index `i >= 1`, `indexBucket`
returns the decimal numeral of `i` followed by `劃`. -/
theorem indexBucket_stroke_count (env : BucketEnv) (str : QString) (buckets : List QString)
    (coll : Collator) (i : Nat)
    (hfirst : buckets.head? = some (fromUtf8 "一"))
    (hstr : str ≠ [])
    (hfast1 : ¬ (startsWith str (fromUtf8 "𪛖") = true
                  ∧ buckets.getLast? = some (fromUtf8 "𪛖")))
    (hfast2 : ¬ (startsWith str (fromUtf8 "ン") = true
                  ∧ buckets.getLast? = some (fromUtf8 "ん")))
    (hup : env.toUpper str ≠ [])
    (hacc : removeAccents env (leadingCharacter (env.toUpper str)) ≠ [])
    (hi : FirstSortingAfter coll (env.toUpper str) buckets i)
    (hpos : 1 ≤ i) :
    indexBucket env str buckets coll = some (QString_number i ++ fromUtf8 "劃") := by
  obtain ⟨_, fc, hfc⟩ := indexBucket_eq_bucketAt env str buckets coll i hstr hfast1 hfast2 hup
    hacc hi
  rw [hfc]
  have h0 : i ≠ 0 := by omega
  simp [bucketAt, h0, hfirst]

/-- C27, amended, at the labels `一`, `丙` and the text `丁`: the result is `1劃`. -/
theorem indexBucket_stroke_count_witness :
    FirstSortingAfter sampleCollator (sampleEnv.toUpper (fromUtf8 "丁"))
        [fromUtf8 "一", fromUtf8 "丙"] 1
      ∧ indexBucket sampleEnv (fromUtf8 "丁") [fromUtf8 "一", fromUtf8 "丙"] sampleCollator
          = some (QString_number 1 ++ fromUtf8 "劃")
      ∧ QString_number 1 ++ fromUtf8 "劃" = fromUtf8 "1劃" :=
  have hfsa : FirstSortingAfter sampleCollator (sampleEnv.toUpper (fromUtf8 "丁"))
      [fromUtf8 "一", fromUtf8 "丙"] 1 := by
    refine ⟨⟨fromUtf8 "丙", by decide, by decide⟩, ?_⟩
    intro j b hj hb
    interval_cases j
    simp at hb
    subst hb
    decide
  ⟨hfsa,
    indexBucket_stroke_count sampleEnv (fromUtf8 "丁") [fromUtf8 "一", fromUtf8 "丙"]
      sampleCollator 1 (by decide) (by decide) (by decide) (by decide) (by decide) (by decide)
      hfsa (by decide),
    by decide⟩

/-- C28 as stated fails: with the labels `一`, `丁`, `丁` with an acute accent and
`丙`, the first label that sorts after the text `七` is `丙` at index 3, the two
labels before it are primary-equal and the text does not start with the later
one, yet the result is `3劃` and not the label `丁` at index 1, because the first
label is `一`. -/
theorem indexBucket_primary_equal_counterexample :
    sampleCollator (sampleEnv.toUpper (fromUtf8 "七")) (fromUtf8 "一") = false
      ∧ sampleCollator (sampleEnv.toUpper (fromUtf8 "七")) (fromUtf8 "丁") = false
      ∧ sampleCollator (sampleEnv.toUpper (fromUtf8 "七")) (fromUtf8 "丁" ++ [0x301]) = false
      ∧ sampleCollator (sampleEnv.toUpper (fromUtf8 "七")) (fromUtf8 "丙") = true
      ∧ sampleCollator (fromUtf8 "丁") (fromUtf8 "丁" ++ [0x301]) = false
      ∧ sampleCollator (fromUtf8 "丁" ++ [0x301]) (fromUtf8 "丁") = false
      ∧ sampleEnv.startsWithCaseInsensitive (fromUtf8 "七") (fromUtf8 "丁" ++ [0x301]) = false
      ∧ indexBucket sampleEnv (fromUtf8 "七")
          [fromUtf8 "一", fromUtf8 "丁", fromUtf8 "丁" ++ [0x301], fromUtf8 "丙"] sampleCollator
          = some (fromUtf8 "3劃")
      ∧ indexBucket sampleEnv (fromUtf8 "七")
          [fromUtf8 "一", fromUtf8 "丁", fromUtf8 "丁" ++ [0x301], fromUtf8 "丙"] sampleCollator
          ≠ some (fromUtf8 "丁") := by
  decide

/-- C28, amended: let the first bucket label be other than `一`.  For every
non-empty text that hits neither fast path, whose upper-cased form is not empty
and keeps a non-empty first character when its accents are removed, and for
which the first label that sorts after the upper-cased text has index `i > 1`
while the labels at `i - 2` and `i - 1` are primary-equal under the collator:
`indexBucket` returns the label at `i - 1` if the text starts with it,
case-insensitively, and the label at `i - 2` if it does not. -/
theorem indexBucket_primary_equal (env : BucketEnv) (str : QString) (buckets : List QString)
    (coll : Collator) (i : Nat) (b2 b1 : QString)
    (hfirst : buckets.head? ≠ some (fromUtf8 "一"))
    (hstr : str ≠ [])
    (hfast1 : ¬ (startsWith str (fromUtf8 "𪛖") = true
                  ∧ buckets.getLast? = some (fromUtf8 "𪛖")))
    (hfast2 : ¬ (startsWith str (fromUtf8 "ン") = true
                  ∧ buckets.getLast? = some (fromUtf8 "ん")))
    (hup : env.toUpper str ≠ [])
    (hacc : removeAccents env (leadingCharacter (env.toUpper str)) ≠ [])
    (hi : FirstSortingAfter coll (env.toUpper str) buckets i)
    (hpos : 1 < i)
    (hb2 : buckets.get? (i - 2) = some b2) (hb1 : buckets.get? (i - 1) = some b1)
    (heq : coll b2 b1 = false ∧ coll b1 b2 = false) :
    indexBucket env str buckets coll
      = some (if env.startsWithCaseInsensitive str b1 = true then b1 else b2) := by
  obtain ⟨hlt, fc, hfc⟩ := indexBucket_eq_bucketAt env str buckets coll i hstr hfast1 hfast2
    hup hacc hi
  rw [hfc]
  have h0 : i ≠ 0 := by omega
  cases hb : buckets with
  | nil => rw [hb] at hlt; simp at hlt
  | cons b bs =>
    rw [hb] at hfirst hb2 hb1
    have hs : b ≠ fromUtf8 "一" := fun h => hfirst (by simp [h])
    simp only [bucketAt, h0, if_false, List.head?_cons, hs, hpos, if_true, hb2, hb1, heq.1]
    cases env.startsWithCaseInsensitive str b1 <;> simp

/-- C28, amended, at the labels `A`, `E`, `É`, `F` and the texts `Emil`, which
does not start with `É` and gets `E`, and `Émil`, which does and gets `É`. -/
theorem indexBucket_primary_equal_witness :
    indexBucket sampleEnv (fromUtf8 "Emil")
        [fromUtf8 "A", fromUtf8 "E", fromUtf8 "É", fromUtf8 "F"] sampleCollator
      = some (fromUtf8 "E")
    ∧ indexBucket sampleEnv (fromUtf8 "Émil")
        [fromUtf8 "A", fromUtf8 "E", fromUtf8 "É", fromUtf8 "F"] sampleCollator
      = some (fromUtf8 "É") :=
  have hfsa : ∀ t, t = fromUtf8 "Emil" ∨ t = fromUtf8 "Émil" →
      FirstSortingAfter sampleCollator (sampleEnv.toUpper t)
        [fromUtf8 "A", fromUtf8 "E", fromUtf8 "É", fromUtf8 "F"] 3 := by
    intro t ht
    refine ⟨⟨fromUtf8 "F", by decide, by rcases ht with h | h <;> subst h <;> decide⟩, ?_⟩
    intro j b hj hb
    interval_cases j <;> simp at hb <;> subst hb <;> rcases ht with h | h <;> subst h <;> decide
  ⟨indexBucket_primary_equal sampleEnv (fromUtf8 "Emil")
      [fromUtf8 "A", fromUtf8 "E", fromUtf8 "É", fromUtf8 "F"] sampleCollator 3
      (fromUtf8 "E") (fromUtf8 "É") (by decide) (by decide) (by decide) (by decide) (by decide)
      (by decide) (hfsa _ (Or.inl rfl)) (by decide) (by decide) (by decide) (by decide),
    indexBucket_primary_equal sampleEnv (fromUtf8 "Émil")
      [fromUtf8 "A", fromUtf8 "E", fromUtf8 "É", fromUtf8 "F"] sampleCollator 3
      (fromUtf8 "E") (fromUtf8 "É") (by decide) (by decide) (by decide) (by decide) (by decide)
      (by decide) (hfsa _ (Or.inr rfl)) (by decide) (by decide) (by decide) (by decide)⟩

/-! ## C22: quoted spans are left alone -/

/-- A unit other than a quote, read outside a span, changes nothing. -/
theorem spanStep_unquoted (σ : List QString × Option QString) (c : QChar)
    (hσ : σ.2 = none) (hc : c ≠ 39) : spanStep σ c = σ := by
  simp [spanStep, hσ, hc]

/-- A unit other than a quote closes no span. -/
theorem spanStep_fst (σ : List QString × Option QString) (c : QChar) (hc : c ≠ 39) :
    (spanStep σ c).1 = σ.1 := by
  unfold spanStep
  split <;> simp [hc]

/-- A quote toggles whether a span is open, another unit does not. -/
theorem spanStep_isSome (σ : List QString × Option QString) (c : QChar) :
    (spanStep σ c).2.isSome = (if c = 39 then !σ.2.isSome else σ.2.isSome) := by
  unfold spanStep
  split <;> rename_i h <;> by_cases hc : c = 39 <;> simp [hc, h]

/-- Removing a final space that was read outside a span changes nothing. -/
theorem foldl_spanStep_dropLast (tmp : QString) (σ : List QString × Option QString)
    (hscan : tmp.foldl spanStep ([], none) = σ) (hσ : σ.2 = none)
    (hend : endsWithChar tmp 32 = true) :
    tmp.dropLast.foldl spanStep ([], none) = σ := by
  have hsplit : tmp = tmp.dropLast ++ [32] := by
    unfold endsWithChar at hend
    cases hl : tmp.getLast? with
    | none => simp [hl] at hend
    | some x =>
      simp only [hl, Option.some_beq_some, beq_iff_eq] at hend
      subst hend
      have hne : tmp ≠ [] := by
        intro h; rw [h] at hl; simp at hl
      rw [List.getLast?_eq_getLast _ hne, Option.some.injEq] at hl
      rw [← hl]
      exact (List.dropLast_append_getLast hne).symm
  rw [hsplit, List.foldl_append, List.foldl_cons, List.foldl_nil] at hscan
  cases h2 : (tmp.dropLast.foldl spanStep ([], none)).2 with
  | none =>
    rw [spanStep_unquoted _ _ h2 (by decide)] at hscan
    exact hscan
  | some cur =>
    have := spanStep_isSome (tmp.dropLast.foldl spanStep ([], none)) 32
    rw [hscan, hσ, h2] at this
    simp at this

/-- Appending units other than a quote outside a span changes nothing. -/
theorem foldl_spanStep_append_unquoted (tmp add : QString) (σ : List QString × Option QString)
    (hscan : tmp.foldl spanStep ([], none) = σ) (hσ : σ.2 = none)
    (hadd : ∀ c ∈ add, c ≠ 39) :
    (tmp ++ add).foldl spanStep ([], none) = σ := by
  rw [List.foldl_append, hscan]
  induction add with
  | nil => rfl
  | cons c cs ih =>
    rw [List.foldl_cons, spanStep_unquoted σ c hσ (hadd c (List.mem_cons_self _ _))]
    exact ih (fun x hx => hadd x (List.mem_cons_of_mem _ hx))

/-- The loop of `dateFormatTo24h` reads the same spans from what it writes as
from what it is given. -/
theorem to24hLoop_spans :
    ∀ (rest tmp : QString) (isQuoted : Bool) (σ : List QString × Option QString),
      tmp.foldl spanStep ([], none) = σ → σ.2.isSome = isQuoted →
      (to24hLoop tmp isQuoted rest).foldl spanStep ([], none) = rest.foldl spanStep σ := by
  intro rest
  induction rest with
  | nil => intro tmp q σ hscan _; simpa [to24hLoop] using hscan
  | cons c rest ih =>
    intro tmp q σ hscan hq
    have hstep : (tmp ++ [c]).foldl spanStep ([], none) = spanStep σ c := by
      rw [List.foldl_append, hscan]; rfl
    have hq1 : (spanStep σ c).2.isSome = (if c = 39 then !q else q) := by
      rw [spanStep_isSome, hq]
    rw [List.foldl_cons]
    by_cases hc : c = 39
    · subst hc
      have hrw : to24hLoop tmp q (39 :: rest) = to24hLoop (tmp ++ [39]) (!q) rest := by
        cases q <;> simp [to24hLoop]
      rw [hrw]
      exact ih _ _ _ hstep (by simpa using hq1)
    · cases q with
      | true =>
        have hrw : to24hLoop tmp true (c :: rest) = to24hLoop (tmp ++ [c]) true rest := by
          simp [to24hLoop, hc]
        rw [hrw]
        exact ih _ _ _ hstep (by simpa [hc] using hq1)
      | false =>
        have hσ : σ.2 = none := by
          cases h : σ.2 with
          | none => rfl
          | some x => rw [h] at hq; cases hq
        rw [spanStep_unquoted σ c hσ hc]
        by_cases h104 : c = 104
        · have hrw : to24hLoop tmp false (c :: rest)
              = to24hLoop (tmp ++ fromUtf8 "H") false rest := by
            simp [to24hLoop, h104]
          rw [hrw]
          exact ih _ _ _ (foldl_spanStep_append_unquoted tmp _ σ hscan hσ (by decide)) hq
        · by_cases h75 : c = 75
          · have hrw : to24hLoop tmp false (c :: rest)
                = to24hLoop (tmp ++ fromUtf8 "k") false rest := by
              simp [to24hLoop, h75]
            rw [hrw]
            exact ih _ _ _ (foldl_spanStep_append_unquoted tmp _ σ hscan hσ (by decide)) hq
          · by_cases h97 : c = 97
            · by_cases hend : endsWithChar tmp 32 = true
              · have hd := foldl_spanStep_dropLast tmp σ hscan hσ hend
                by_cases hr : rest = []
                · have hrw : to24hLoop tmp false (c :: rest)
                      = to24hLoop tmp.dropLast false rest := by
                    simp [to24hLoop, h97, hend, hr]
                  rw [hrw]
                  exact ih _ _ _ hd hq
                · by_cases hh : rest.head? = some 32
                  · have hrw : to24hLoop tmp false (c :: rest)
                        = to24hLoop tmp.dropLast false rest := by
                      simp [to24hLoop, h97, hend, hr, hh]
                    rw [hrw]
                    exact ih _ _ _ hd hq
                  · have hrw : to24hLoop tmp false (c :: rest) = to24hLoop tmp false rest := by
                      simp [to24hLoop, h97, hend, hr, hh]
                    rw [hrw]
                    exact ih _ _ _ hscan hq
              · have hrw : to24hLoop tmp false (c :: rest) = to24hLoop tmp false rest := by
                  simp [to24hLoop, h97, hend]
                rw [hrw]
                exact ih _ _ _ hscan hq
            · have hrw : to24hLoop tmp false (c :: rest)
                  = to24hLoop (tmp ++ [c]) false rest := by
                simp [to24hLoop, hc, h104, h75, h97]
              rw [hrw]
              exact ih _ _ _
                (foldl_spanStep_append_unquoted tmp _ σ hscan hσ (by simpa using hc)) hq

/-- The first loop of `dateFormatTo12h` reads the same spans from what it writes
as from what it is given. -/
theorem to12hLoopBefore_spans :
    ∀ (rest tmp : QString) (isQuoted written : Bool) (σ : List QString × Option QString),
      tmp.foldl spanStep ([], none) = σ → σ.2.isSome = isQuoted →
      (to12hLoopBefore tmp isQuoted written rest).foldl spanStep ([], none)
        = rest.foldl spanStep σ := by
  intro rest
  induction rest with
  | nil => intro tmp q w σ hscan _; simpa [to12hLoopBefore] using hscan
  | cons c rest ih =>
    intro tmp q w σ hscan hq
    have hstep : (tmp ++ [c]).foldl spanStep ([], none) = spanStep σ c := by
      rw [List.foldl_append, hscan]; rfl
    have hq1 : (spanStep σ c).2.isSome = (if c = 39 then !q else q) := by
      rw [spanStep_isSome, hq]
    rw [List.foldl_cons]
    by_cases hc : c = 39
    · subst hc
      have hrw : to12hLoopBefore tmp q w (39 :: rest)
          = to12hLoopBefore (tmp ++ [39]) (!q) w rest := by
        cases q <;> simp [to12hLoopBefore]
      rw [hrw]
      exact ih _ _ _ _ hstep (by simpa using hq1)
    · cases q with
      | true =>
        have hrw : to12hLoopBefore tmp true w (c :: rest)
            = to12hLoopBefore (tmp ++ [c]) true w rest := by
          simp [to12hLoopBefore, hc]
        rw [hrw]
        exact ih _ _ _ _ hstep (by simpa [hc] using hq1)
      | false =>
        have hσ : σ.2 = none := by
          cases h : σ.2 with
          | none => rfl
          | some x => rw [h] at hq; cases hq
        rw [spanStep_unquoted σ c hσ hc]
        by_cases h72 : c = 72
        · have hrw : to12hLoopBefore tmp false w (c :: rest)
              = to12hLoopBefore (tmp ++ ((if w then [] else fromUtf8 "a") ++ fromUtf8 "h"))
                  false true rest := by
            cases w <;> simp [to12hLoopBefore, h72]
          rw [hrw]
          exact ih _ _ _ _ (foldl_spanStep_append_unquoted tmp _ σ hscan hσ
            (by cases w <;> decide)) hq
        · by_cases h107 : c = 107
          · have hrw : to12hLoopBefore tmp false w (c :: rest)
                = to12hLoopBefore (tmp ++ ((if w then [] else fromUtf8 "a") ++ fromUtf8 "K"))
                    false true rest := by
              cases w <;> simp [to12hLoopBefore, h107]
            rw [hrw]
            exact ih _ _ _ _ (foldl_spanStep_append_unquoted tmp _ σ hscan hσ
              (by cases w <;> decide)) hq
          · have hrw : to12hLoopBefore tmp false w (c :: rest)
                = to12hLoopBefore (tmp ++ [c]) false w rest := by
              simp [to12hLoopBefore, hc, h72, h107]
            rw [hrw]
            exact ih _ _ _ _
              (foldl_spanStep_append_unquoted tmp _ σ hscan hσ (by simpa using hc)) hq

/-- The second loop of `dateFormatTo12h` reads the same spans from what it
writes as from what it is given. -/
theorem to12hLoopAfter_spans :
    ∀ (rest tmp : QString) (isQuoted written : Bool) (σ : List QString × Option QString),
      tmp.foldl spanStep ([], none) = σ → σ.2.isSome = isQuoted →
      (to12hLoopAfter tmp isQuoted written rest).1.foldl spanStep ([], none)
        = rest.foldl spanStep σ := by
  intro rest
  induction rest with
  | nil => intro tmp q w σ hscan _; simpa [to12hLoopAfter] using hscan
  | cons c rest ih =>
    intro tmp q w σ hscan hq
    have hstep : (tmp ++ [c]).foldl spanStep ([], none) = spanStep σ c := by
      rw [List.foldl_append, hscan]; rfl
    have hq1 : (spanStep σ c).2.isSome = (if c = 39 then !q else q) := by
      rw [spanStep_isSome, hq]
    rw [List.foldl_cons]
    by_cases hc : c = 39
    · subst hc
      have hrw : to12hLoopAfter tmp q w (39 :: rest)
          = to12hLoopAfter (tmp ++ [39]) (!q) w rest := by
        cases q <;> simp [to12hLoopAfter]
      rw [hrw]
      exact ih _ _ _ _ hstep (by simpa using hq1)
    · cases q with
      | true =>
        have hrw : to12hLoopAfter tmp true w (c :: rest)
            = to12hLoopAfter (tmp ++ [c]) true w rest := by
          simp [to12hLoopAfter, hc]
        rw [hrw]
        exact ih _ _ _ _ hstep (by simpa [hc] using hq1)
      | false =>
        have hσ : σ.2 = none := by
          cases h : σ.2 with
          | none => rfl
          | some x => rw [h] at hq; cases hq
        rw [spanStep_unquoted σ c hσ hc]
        by_cases h72 : c = 72
        · have hrw : to12hLoopAfter tmp false w (c :: rest)
              = to12hLoopAfter (tmp ++ fromUtf8 "h") false w rest := by
            simp [to12hLoopAfter, h72]
          rw [hrw]
          exact ih _ _ _ _ (foldl_spanStep_append_unquoted tmp _ σ hscan hσ (by decide)) hq
        · by_cases h107 : c = 107
          · have hrw : to12hLoopAfter tmp false w (c :: rest)
                = to12hLoopAfter (tmp ++ fromUtf8 "K") false w rest := by
              simp [to12hLoopAfter, h107]
            rw [hrw]
            exact ih _ _ _ _ (foldl_spanStep_append_unquoted tmp _ σ hscan hσ (by decide)) hq
          · by_cases h122 : c = 122
            · have hrw : to12hLoopAfter tmp false w (c :: rest)
                  = to12hLoopAfter
                      (tmp ++ (if w then [122]
                        else (if endsWithChar tmp 32 then [] else [32]) ++ fromUtf8 "a z"))
                      false true rest := by
                cases w <;> cases hE : endsWithChar tmp 32 <;>
                  simp [to12hLoopAfter, h122, hE, fromUtf8, utf16Units]
              rw [hrw]
              exact ih _ _ _ _ (foldl_spanStep_append_unquoted tmp _ σ hscan hσ
                (by cases w <;> cases endsWithChar tmp 32 <;> decide)) hq
            · have hrw : to12hLoopAfter tmp false w (c :: rest)
                  = to12hLoopAfter (tmp ++ [c]) false w rest := by
                simp [to12hLoopAfter, hc, h72, h107, h122]
              rw [hrw]
              exact ih _ _ _ _
                (foldl_spanStep_append_unquoted tmp _ σ hscan hσ (by simpa using hc)) hq

/-- C22: for every pattern and every state, `dateFormatTo12h` and
`dateFormatTo24h` write a pattern with the same quoted spans as the one they
read: the texts between an opening quote and the quote that closes it are the
same, in the same order. -/
theorem dateFormat_quotedSpans (d : MLocalePrivate) (f : DateFormat) :
    (dateFormatTo12h d (some f)).map (fun g => quotedSpans g.pattern)
        = some (quotedSpans f.pattern)
      ∧ (dateFormatTo24h (some f)).map (fun g => quotedSpans g.pattern)
        = some (quotedSpans f.pattern) := by
  constructor
  · simp only [dateFormatTo12h, Option.map_some', Option.some.injEq, to12hPattern, quotedSpans]
    split_ifs with h1 h2 h3
    · rw [to12hLoopBefore_spans f.pattern [] false false ([], none) rfl rfl]
    · rw [List.foldl_append, to12hLoopAfter_spans f.pattern [] false false ([], none) rfl rfl]
      have ha : fromUtf8 " a" = [32, 97] := by decide
      rw [ha, List.foldl_cons, List.foldl_cons, List.foldl_nil,
        spanStep_fst _ 97 (by decide), spanStep_fst _ 32 (by decide)]
    · rw [to12hLoopAfter_spans f.pattern [] false false ([], none) rfl rfl]
    · rfl
  · simp only [dateFormatTo24h, Option.map_some', Option.some.injEq, to24hPattern, quotedSpans]
    split_ifs with h1
    · rw [to24hLoop_spans f.pattern [] false ([], none) rfl rfl]
    · rfl

/-! ## C23: the am/pm marker written by `dateFormatTo12h` -/

/-- Counting over a concatenation. -/
theorem unquotedCount_append (x : QChar) :
    ∀ (s t : QString) (q : Bool),
      unquotedCount x q (s ++ t) = unquotedCount x q s + unquotedCount x (quotedAfter q s) t := by
  intro s
  induction s with
  | nil => intro t q; simp [unquotedCount, quotedAfter]
  | cons c cs ih =>
    intro t q
    rw [List.cons_append]
    simp only [unquotedCount, quotedAfter]
    rw [ih]
    omega

/-- Replacing hour letters moves no quote. -/
theorem quotedAfter_hoursTo12 :
    ∀ (s : QString) (q : Bool), quotedAfter q (hoursTo12 q s) = quotedAfter q s := by
  intro s
  induction s with
  | nil => intro q; rfl
  | cons c cs ih =>
    intro q
    by_cases hc : c = 39
    · subst hc
      simp [hoursTo12, quotedAfter, ih]
    · by_cases h72 : c = 72
      · subst h72
        cases q <;> simp [hoursTo12, quotedAfter, ih]
      · by_cases h107 : c = 107
        · subst h107
          cases q <;> simp [hoursTo12, quotedAfter, ih]
        · simp [hoursTo12, quotedAfter, ih, hc, h72, h107]

/-- A text without a unit has no occurrence of it outside quoted spans. -/
theorem unquotedCount_eq_zero_of_not_mem (x : QChar) :
    ∀ (s : QString) (q : Bool), x ∉ s → unquotedCount x q s = 0 := by
  intro s
  induction s with
  | nil => intro q _; rfl
  | cons c cs ih =>
    intro q h
    have hc : (c == x) = false := by
      simp only [beq_eq_false_iff_ne, ne_eq]
      intro e
      exact h (by simp [e])
    simp only [unquotedCount, hc, Bool.and_false, Bool.false_eq_true, if_false, Nat.zero_add]
    exact ih _ (fun hx => h (List.mem_cons_of_mem _ hx))

/-- The loop of `isTwelveHours` finds every marker outside a quoted span. -/
theorem unquotedCount_of_isTwelveHoursLoop :
    ∀ (s : QString) (q : Bool), isTwelveHoursLoop q s = false → unquotedCount 97 q s = 0 := by
  intro s
  induction s with
  | nil => intro q _; rfl
  | cons c cs ih =>
    intro q h
    by_cases hc : c = 39
    · subst hc
      have h39 : ((39 : QChar) == 97) = false := by decide
      simp only [isTwelveHoursLoop, if_true, h39, Bool.and_false, Bool.false_eq_true,
        if_false] at h
      simp only [unquotedCount, if_true, h39, Bool.and_false, Bool.false_eq_true, if_false,
        Nat.zero_add]
      exact ih _ h
    · cases q with
      | true =>
        simp only [isTwelveHoursLoop, hc, if_false, Bool.not_true, Bool.false_and,
          Bool.false_eq_true] at h
        simp only [unquotedCount, hc, if_false, Bool.not_true, Bool.false_and,
          Bool.false_eq_true, Nat.zero_add]
        exact ih _ h
      | false =>
        by_cases h97 : c = 97
        · subst h97
          simp [isTwelveHoursLoop] at h
        · have hb : (c == 97) = false := by simpa using h97
          simp only [isTwelveHoursLoop, hc, if_false, Bool.not_false, Bool.true_and, hb,
            Bool.false_eq_true] at h
          simp only [unquotedCount, hc, if_false, Bool.not_false, Bool.true_and, hb,
            Bool.false_eq_true, Nat.zero_add]
          exact ih _ h

/-- A pattern that `isTwelveHours` rejects has no marker outside a quoted span. -/
theorem unquotedCount_of_isTwelveHours (p : QString) (h : isTwelveHours p = false) :
    unquotedCount 97 false p = 0 := by
  unfold isTwelveHours at h
  split_ifs at h with h1
  · exact unquotedCount_of_isTwelveHoursLoop p false h
  · exact unquotedCount_eq_zero_of_not_mem 97 p false (by simpa using h)

/-- The first loop of `dateFormatTo12h` after the marker has been written. -/
theorem to12hLoopBefore_written :
    ∀ (rest tmp : QString) (q : Bool),
      to12hLoopBefore tmp q true rest = tmp ++ hoursTo12 q rest := by
  intro rest
  induction rest with
  | nil => intro tmp q; simp [to12hLoopBefore, hoursTo12]
  | cons c rest ih =>
    intro tmp q
    by_cases hc : c = 39
    · subst hc
      cases q <;> simp [to12hLoopBefore, hoursTo12, ih]
    · by_cases h72 : c = 72
      · subst h72
        cases q <;> simp [to12hLoopBefore, hoursTo12, ih, fromUtf8, utf16Units]
      · by_cases h107 : c = 107
        · subst h107
          cases q <;> simp [to12hLoopBefore, hoursTo12, ih, fromUtf8, utf16Units]
        · cases q <;> simp [to12hLoopBefore, hoursTo12, ih, hc, h72, h107]

/-- The second loop of `dateFormatTo12h` replaces the hour letters of the text
in front of the first `z` outside a quoted span. -/
theorem to12hLoopAfter_prefix :
    ∀ (pre s tmp : QString) (q w : Bool),
      unquotedCount 122 q pre = 0 →
      to12hLoopAfter tmp q w (pre ++ s)
        = to12hLoopAfter (tmp ++ hoursTo12 q pre) (quotedAfter q pre) w s := by
  intro pre
  induction pre with
  | nil => intro s tmp q w _; simp [quotedAfter, hoursTo12]
  | cons c pre ih =>
    intro s tmp q w h122
    rw [List.cons_append]
    have hgoal : ∀ q1, q1 = (if c = 39 then !q else q) →
        (((!q1) = true ∧ c = 122) → False) → unquotedCount 122 q1 pre = 0 →
        to12hLoopAfter tmp q w (c :: (pre ++ s))
          = to12hLoopAfter (tmp ++ hoursTo12 q (c :: pre)) (quotedAfter q (c :: pre)) w s := by
      intro q1 hq1 n122 c122
      have hrw : to12hLoopAfter tmp q w (c :: (pre ++ s))
          = to12hLoopAfter
              (tmp ++ [if !q1 && c == 72 then 104 else if !q1 && c == 107 then 75 else c])
              q1 w (pre ++ s) := by
        rw [to12hLoopAfter, ← hq1]
        by_cases hn : (!q1) = true
        · have e1 : c ≠ 122 := fun e => n122 ⟨hn, e⟩
          by_cases h72 : c = 72
          · subst h72
            simp [hn, fromUtf8, utf16Units]
          · by_cases h107 : c = 107
            · subst h107
              simp [hn, fromUtf8, utf16Units]
            · simp [hn, e1, h72, h107]
        · simp [hn]
      rw [hrw, ih s _ q1 w c122, quotedAfter, hoursTo12, ← hq1]
      simp
    simp only [unquotedCount, Nat.add_eq_zero] at h122
    refine hgoal _ rfl ?_ h122.2
    rintro ⟨h1, h2⟩
    have := h122.1
    simp [h1, h2] at this
    rw [h2] at h1
    simp [this] at h1

/-- A text that contains three units `m` in a row completes a run of three. -/
theorem tripleFrom_of_infix (m : QChar) (s : QString) (h : [m, m, m] <:+: s) (r : Nat) :
    tripleFrom m r s = true := by
  obtain ⟨pre, post, rfl⟩ := h
  induction pre generalizing r with
  | nil => simp [tripleFrom]
  | cons c pre ih =>
    simp only [List.cons_append, List.append_assoc, tripleFrom]
    split_ifs
    · simp only [Bool.or_eq_true]
      right
      simpa using ih (r + 1)
    · simpa using ih 0

/-- Fewer units in front complete no more runs. -/
theorem tripleFrom_mono (m : QChar) :
    ∀ (s : QString) (r r1 : Nat), r1 ≤ r → tripleFrom m r s = false →
      tripleFrom m r1 s = false := by
  intro s
  induction s with
  | nil => intro r r1 _ _; rfl
  | cons c cs ih =>
    intro r r1 hr h
    simp only [tripleFrom] at h ⊢
    split_ifs at h ⊢ with hc
    · simp only [Bool.or_eq_false_iff, decide_eq_false_iff_not] at h ⊢
      exact ⟨by omega, ih (r + 1) (r1 + 1) (by omega) h.2⟩
    · exact h

/-- A non-empty text without the unit `m` ends every run. -/
theorem tripleFrom_append_clean (m : QChar) (X : QString) :
    ∀ (a : QString) (r : Nat), a ≠ [] → (∀ c ∈ a, c ≠ m) →
      tripleFrom m r (a ++ X) = tripleFrom m 0 X := by
  intro a
  induction a with
  | nil => intro r h _; exact absurd rfl h
  | cons c cs ih =>
    intro r _ hc
    have h1 : c ≠ m := hc c (List.mem_cons_self _ _)
    simp only [List.cons_append, tripleFrom, h1, if_false]
    cases cs with
    | nil => rfl
    | cons c2 cs2 => exact ih 0 (List.cons_ne_nil _ _) (fun x hx => hc x (List.mem_cons_of_mem _ hx))

/-- Replacing a text by a non-empty one without the unit `m` completes no run
that the text given does not complete. -/
theorem tripleFrom_replaceGo (m : QChar) (before after : QString)
    (hne : after ≠ []) (hclean : ∀ c ∈ after, c ≠ m) :
    ∀ (s : QString) (skip rin rout : Nat), rout ≤ rin → (skip ≠ 0 → rout = 0) →
      tripleFrom m rin s = false →
      tripleFrom m rout (replaceGo before after skip s) = false := by
  intro s
  induction s with
  | nil => intro skip rin rout _ _ _; cases skip <;> rfl
  | cons c cs ih =>
    intro skip rin rout hle hskip h
    simp only [tripleFrom] at h
    cases skip with
    | succ k =>
      have h0 : rout = 0 := hskip (Nat.succ_ne_zero k)
      subst h0
      simp only [replaceGo]
      split_ifs at h with hc
      · simp only [Bool.or_eq_false_iff] at h
        exact ih k _ 0 (Nat.zero_le _) (fun _ => rfl) h.2
      · exact ih k _ 0 (Nat.zero_le _) (fun _ => rfl) h
    | zero =>
      simp only [replaceGo]
      have hnext : ∃ rin1, tripleFrom m rin1 cs = false := by
        split_ifs at h with hc
        · simp only [Bool.or_eq_false_iff] at h
          exact ⟨_, h.2⟩
        · exact ⟨_, h⟩
      obtain ⟨rin1, hrin1⟩ := hnext
      split_ifs with hp
      · rw [tripleFrom_append_clean m _ after rout hne hclean]
        exact ih _ rin1 0 (Nat.zero_le _) (fun _ => rfl) hrin1
      · simp only [tripleFrom]
        split_ifs at h ⊢ with hc
        · simp only [Bool.or_eq_false_iff, decide_eq_false_iff_not] at h ⊢
          exact ⟨by omega, ih 0 (rin + 1) (rout + 1) (by omega) (fun h => absurd rfl h) h.2⟩
        · exact ih 0 0 0 (Nat.le_refl _) (fun _ => rfl) h

/-- After every run of three units `m` has been replaced by a non-empty text
without `m`, no run of three is left. -/
theorem tripleFrom_replaceGo_self (m : QChar) (after : QString)
    (hne : after ≠ []) (hclean : ∀ c ∈ after, c ≠ m) :
    ∀ (n : Nat) (s : QString), s.length ≤ n →
      tripleFrom m 0 (replaceGo [m, m, m] after 0 s) = false := by
  intro n
  induction n with
  | zero =>
    intro s hs
    have : s = [] := List.length_eq_zero.mp (Nat.le_zero.mp hs)
    subst this
    rfl
  | succ n ih =>
    intro s hs
    match s, hs with
    | [], _ => rfl
    | x :: rest, hs =>
      by_cases hx : x = m
      · subst hx
        match rest, hs with
        | [], _ => simp [replaceGo, tripleFrom]
        | y :: rest2, hs =>
          by_cases hy : y = x
          · subst hy
            match rest2, hs with
            | [], _ => simp [replaceGo, tripleFrom]
            | z :: rest3, hs =>
              by_cases hz : z = y
              · subst hz
                have hrw : replaceGo [z, z, z] after 0 (z :: z :: z :: rest3)
                    = after ++ replaceGo [z, z, z] after 0 rest3 := by
                  simp [replaceGo]
                rw [hrw, tripleFrom_append_clean z _ after 0 hne hclean]
                exact ih rest3 (by simp at hs; omega)
              · have hrw : replaceGo [y, y, y] after 0 (y :: y :: z :: rest3)
                    = y :: y :: z :: replaceGo [y, y, y] after 0 rest3 := by
                  have hz2 : ¬ y = z := fun e => hz e.symm
                  simp [replaceGo, hz, hz2]
                rw [hrw]
                simp only [tripleFrom, if_true, hz, if_false]
                simp only [Nat.zero_add, Nat.reduceLeDiff, decide_False, Bool.false_or,
                  Nat.reduceAdd]
                exact ih rest3 (by simp at hs; omega)
          · have hrw : replaceGo [x, x, x] after 0 (x :: y :: rest2)
                = x :: y :: replaceGo [x, x, x] after 0 rest2 := by
              have hy2 : ¬ x = y := fun e => hy e.symm
              simp [replaceGo, hy, hy2]
            rw [hrw]
            simp only [tripleFrom, if_true, hy, if_false]
            simp only [Nat.zero_add, Nat.reduceLeDiff, decide_False, Bool.false_or]
            exact ih rest2 (by simp at hs; omega)
      · have hrw : replaceGo [m, m, m] after 0 (x :: rest)
            = x :: replaceGo [m, m, m] after 0 rest := by
          have hx2 : ¬ m = x := fun e => hx e.symm
          simp [replaceGo, hx2]
        rw [hrw]
        simp only [tripleFrom, hx, if_false]
        exact ih rest (by simp at hs; omega)

/-- A list of replacements by non-empty texts without the unit `m` completes no
run that the text given does not complete. -/
theorem tripleFrom_replaceEach (m : QChar) :
    ∀ (table : List (QString × QString)) (s : QString),
      (∀ e ∈ table, e.1 ≠ [] ∧ e.2 ≠ [] ∧ ∀ c ∈ e.2, c ≠ m) →
      tripleFrom m 0 s = false → tripleFrom m 0 (replaceEach s table) = false := by
  intro table
  induction table with
  | nil => intro s _ h; exact h
  | cons e es ih =>
    intro s ht h
    obtain ⟨h1, h2, h3⟩ := ht e (List.mem_cons_self _ _)
    simp only [replaceEach, List.foldl_cons]
    apply ih _ (fun x hx => ht x (List.mem_cons_of_mem _ hx))
    simp only [QString_replace, h1, if_false]
    exact tripleFrom_replaceGo m e.1 e.2 h2 h3 s 0 0 0 (Nat.le_refl _) (fun _ => rfl) h

/-- The loop of `simplified` completes no run of a unit that is no whitespace
which the text given does not complete. -/
theorem tripleFrom_simplifiedGo (m : Nat) (hm : isSpace m = false) :
    ∀ (s : QString) (pending : Bool) (rin rout : Nat), (pending = false → rout ≤ rin) →
      tripleFrom m rin s = false → tripleFrom m rout (simplifiedGo pending s) = false := by
  intro s
  induction s with
  | nil => intro p rin rout _ _; rfl
  | cons c cs ih =>
    intro p rin rout hle h
    simp only [tripleFrom] at h
    by_cases hsp : isSpace c = true
    · have hc : c ≠ m := fun e => by rw [e, hm] at hsp; cases hsp
      simp only [hc, if_false] at h
      simp only [simplifiedGo, hsp, if_true]
      exact ih true 0 rout (fun hp => by cases hp) h
    · have h32 : (32 : QChar) ≠ m := fun e => by rw [← e] at hm; revert hm; decide
      by_cases hc : c = m
      · simp only [hc, if_true, Bool.or_eq_false_iff, decide_eq_false_iff_not] at h
        cases p with
        | true =>
          simp only [simplifiedGo, hsp, if_false, if_true, Bool.false_eq_true]
          simp only [tripleFrom, h32, if_false, hc, if_true]
          simp only [Bool.or_eq_false_iff, decide_eq_false_iff_not]
          exact ⟨by omega, ih false (rin + 1) (0 + 1) (fun _ => by omega) h.2⟩
        | false =>
          simp only [simplifiedGo, hsp, if_false, Bool.false_eq_true]
          simp only [tripleFrom, hc, if_true]
          simp only [Bool.or_eq_false_iff, decide_eq_false_iff_not]
          have := hle rfl
          exact ⟨by omega, ih false (rin + 1) (rout + 1) (fun _ => by omega) h.2⟩
      · simp only [hc, if_false] at h
        cases p with
        | true =>
          simp only [simplifiedGo, hsp, if_false, if_true, Bool.false_eq_true]
          simp only [tripleFrom, h32, if_false, hc]
          exact ih false 0 0 (fun _ => Nat.le_refl _) h
        | false =>
          simp only [simplifiedGo, hsp, if_false, Bool.false_eq_true]
          simp only [tripleFrom, hc, if_false]
          exact ih false 0 0 (fun _ => Nat.le_refl _) h

/-- The call `simplified` completes no run of a unit that is no whitespace which
the text given does not complete. -/
theorem tripleFrom_simplified (m : Nat) (hm : isSpace m = false) (s : QString)
    (h : tripleFrom m 0 s = false) : tripleFrom m 0 (simplified s) = false := by
  unfold simplified
  apply tripleFrom_simplifiedGo m hm _ false 0 0 (fun _ => Nat.le_refl _)
  induction s with
  | nil => rfl
  | cons c cs ih =>
    simp only [List.dropWhile]
    split
    · next hsp =>
      have hc : c ≠ m := fun e => by rw [e, hm] at hsp; cases hsp
      simp only [tripleFrom, hc, if_false] at h
      exact ih h
    · exact h

/-- A text in which a unit from U+0080 on is followed by `m` contains `m`. -/
theorem contains_of_nonAsciiThen (m : Nat) :
    ∀ s : List Nat, nonAsciiThen m s = true → s.contains m = true := by
  intro s
  induction s with
  | nil => intro h; cases h
  | cons c cs ih =>
    intro h
    simp only [nonAsciiThen, Bool.or_eq_true, Bool.and_eq_true] at h
    simp only [List.contains_cons, Bool.or_eq_true]
    rcases h with h | h
    · exact Or.inr h.2
    · exact Or.inr (ih h)

/-- A text in which a unit from U+0080 on stands between two `m` contains `m`. -/
theorem contains_of_nonAsciiBetween (m : Nat) :
    ∀ s : List Nat, nonAsciiBetween m s = true → s.contains m = true := by
  intro s
  induction s with
  | nil => intro h; cases h
  | cons c cs ih =>
    intro h
    simp only [nonAsciiBetween, Bool.or_eq_true, Bool.and_eq_true] at h
    simp only [List.contains_cons, Bool.or_eq_true]
    rcases h with h | h
    · exact Or.inr (contains_of_nonAsciiThen m cs h.2)
    · exact Or.inr (ih h)

/-- The pass from state 2 fails exactly when the text contains `m`. -/
theorem gapFrom_two (m : Nat) (hm : m < 0x80) :
    ∀ s : List Nat, gapFrom m 2 s = s.contains m := by
  intro s
  induction s with
  | nil => rfl
  | cons c cs ih =>
    by_cases hc : c = m
    · subst hc
      simp [gapFrom]
    · have hb : (m == c) = false := by
        simp only [beq_eq_false_iff_ne, ne_eq]
        exact fun e => hc e.symm
      simp only [gapFrom, if_neg hc, List.contains_cons, hb, Bool.false_or]
      by_cases h80 : 0x80 ≤ c
      · simp only [h80, if_true]
        exact ih
      · simp only [h80, if_false]
        exact ih

/-- The pass from state 1 fails exactly when a unit from U+0080 on is followed
by `m` or stands between two `m`. -/
theorem gapFrom_one (m : Nat) (hm : m < 0x80) :
    ∀ s : List Nat, gapFrom m 1 s = (nonAsciiThen m s || nonAsciiBetween m s) := by
  intro s
  induction s with
  | nil => rfl
  | cons c cs ih =>
    by_cases hc : c = m
    · subst hc
      have h80 : ¬ 0x80 ≤ c := by omega
      simp only [gapFrom, if_true, nonAsciiThen, nonAsciiBetween, h80, decide_False,
        Bool.false_and, Bool.false_or, beq_self_eq_true, Bool.true_and, ih]
      cases nonAsciiThen c cs <;> cases nonAsciiBetween c cs <;> rfl
    · have hb : (c == m) = false := by simpa using hc
      simp only [gapFrom, if_neg hc, nonAsciiThen, nonAsciiBetween, hb, Bool.false_and,
        Bool.false_or]
      by_cases h80 : 0x80 ≤ c
      · simp only [h80, if_true, decide_True, Bool.true_and]
        rw [show (if (1 : Nat) = 0 then 0 else 2) = 2 by decide, gapFrom_two m hm]
        cases hcon : cs.contains m with
        | true => rfl
        | false =>
          have h1 : nonAsciiThen m cs = false := by
            cases h : nonAsciiThen m cs with
            | false => rfl
            | true => rw [contains_of_nonAsciiThen m cs h] at hcon; cases hcon
          have h2 : nonAsciiBetween m cs = false := by
            cases h : nonAsciiBetween m cs with
            | false => rfl
            | true => rw [contains_of_nonAsciiBetween m cs h] at hcon; cases hcon
          rw [h1, h2]
          rfl
      · simp only [h80, if_false, decide_False, Bool.false_and, Bool.false_or]
        exact ih

/-- The pass from state 0 computes `nonAsciiBetween`. -/
theorem gapFrom_zero (m : Nat) (hm : m < 0x80) :
    ∀ s : List Nat, gapFrom m 0 s = nonAsciiBetween m s := by
  intro s
  induction s with
  | nil => rfl
  | cons c cs ih =>
    by_cases hc : c = m
    · subst hc
      simp only [gapFrom, if_true, nonAsciiBetween, beq_self_eq_true, Bool.true_and,
        gapFrom_one c hm]
      simp
    · have hb : (c == m) = false := by simpa using hc
      simp only [gapFrom, if_neg hc, nonAsciiBetween, hb, Bool.false_and, Bool.false_or]
      by_cases h80 : 0x80 ≤ c
      · simp only [h80, if_true]
        exact ih
      · simp only [h80, if_false]
        exact ih

/-- The pass fails no earlier from a state further on. -/
theorem gapFrom_mono (m : Nat) :
    ∀ (s : List Nat) (st1 st2 : Nat), st1 ≤ st2 → st2 ≤ 2 → gapFrom m st2 s = false →
      gapFrom m st1 s = false := by
  intro s
  induction s with
  | nil => intro st1 st2 _ _ _; rfl
  | cons c cs ih =>
    intro st1 st2 h12 h2 h
    simp only [gapFrom] at h ⊢
    by_cases hc : c = m
    · simp only [hc, if_true, Bool.or_eq_false_iff, decide_eq_false_iff_not] at h ⊢
      exact ⟨by omega, h.2⟩
    · simp only [hc, if_false] at h ⊢
      by_cases h80 : 0x80 ≤ c
      · simp only [h80, if_true] at h ⊢
        by_cases h1 : st1 = 0
        · by_cases h0 : st2 = 0
          · simpa [h1, h0] using h
          · simp only [h0, if_false] at h
            simp only [h1, if_true]
            exact ih 0 2 (by omega) (le_refl 2) h
        · have h0 : st2 ≠ 0 := by omega
          simp only [h0, if_false] at h
          simp only [h1, if_false]
          exact h
      · simp only [h80, if_false] at h ⊢
        exact ih st1 st2 h12 h2 h

/-- A pass that does not fail on a text does not fail on the text without its
first unit. -/
theorem gapFrom_tail (m : Nat) (c : Nat) (cs : List Nat) (st : Nat) (hst : st ≤ 2)
    (h : gapFrom m st (c :: cs) = false) : gapFrom m st cs = false := by
  simp only [gapFrom] at h
  by_cases hc : c = m
  · simp only [hc, if_true, Bool.or_eq_false_iff, decide_eq_false_iff_not] at h
    by_cases h0 : st = 0
    · subst h0
      exact gapFrom_mono m cs 0 1 (by omega) (by omega) h.2
    · have h1 : st = 1 := by omega
      subst h1
      exact h.2
  · simp only [hc, if_false] at h
    by_cases h80 : 0x80 ≤ c
    · simp only [h80, if_true] at h
      by_cases h0 : st = 0
      · simpa [h0] using h
      · simp only [h0, if_false] at h
        exact gapFrom_mono m cs st 2 hst (le_refl 2) h
    · simpa [h80] using h

/-- ASCII units other than `m` in front do not change the pass. -/
theorem gapFrom_append_clean (m : Nat) (X : List Nat) (st : Nat) :
    ∀ (a : List Nat), (∀ c : Nat, c ∈ a → c ≠ m ∧ c < 0x80) →
      gapFrom m st (a ++ X) = gapFrom m st X := by
  intro a
  induction a with
  | nil => intro _; rfl
  | cons c cs ih =>
    intro h
    obtain ⟨h1, h2⟩ := h c (List.mem_cons_self _ _)
    have h80 : ¬ 0x80 ≤ c := by omega
    simp only [List.cons_append, gapFrom, if_neg h1, h80, if_false]
    exact ih (fun x hx => h x (List.mem_cons_of_mem _ hx))

/-- Replacing a text by ASCII units other than `m` puts no unit from U+0080 on
between two `m`. -/
theorem gapFrom_replaceGo (m : Nat) (before after : List Nat)
    (hclean : ∀ c : Nat, c ∈ after → c ≠ m ∧ c < 0x80) :
    ∀ (s : List Nat) (skip st : Nat), st ≤ 2 → gapFrom m st s = false →
      gapFrom m st (replaceGo before after skip s) = false := by
  intro s
  induction s with
  | nil => intro skip st _ _; cases skip <;> rfl
  | cons c cs ih =>
    intro skip st hst h
    cases skip with
    | succ k =>
      simp only [replaceGo]
      exact ih k st hst (gapFrom_tail m c cs st hst h)
    | zero =>
      simp only [replaceGo]
      split_ifs with hp
      · rw [gapFrom_append_clean m _ st after hclean]
        exact ih _ st hst (gapFrom_tail m c cs st hst h)
      · simp only [gapFrom] at h ⊢
        by_cases hc : c = m
        · simp only [hc, if_true, Bool.or_eq_false_iff] at h ⊢
          exact ⟨h.1, ih 0 1 (by omega) h.2⟩
        · simp only [hc, if_false] at h ⊢
          by_cases h80 : 0x80 ≤ c
          · simp only [h80, if_true] at h ⊢
            by_cases h0 : st = 0
            · simp only [h0, if_true] at h ⊢
              exact ih 0 0 (by omega) h
            · simp only [h0, if_false] at h ⊢
              exact ih 0 2 (le_refl 2) h
          · simp only [h80, if_false] at h ⊢
            exact ih 0 st hst h

/-- A list of replacements by ASCII texts without `m` puts no unit from U+0080
on between two `m`. -/
theorem gapFrom_replaceEach (m : Nat) :
    ∀ (table : List (List Nat × List Nat)) (s : List Nat),
      (∀ e ∈ table, e.1 ≠ [] ∧ ∀ c : Nat, c ∈ e.2 → c ≠ m ∧ c < 0x80) →
      gapFrom m 0 s = false → gapFrom m 0 (replaceEach s table) = false := by
  intro table
  induction table with
  | nil => intro s _ h; exact h
  | cons e es ih =>
    intro s ht h
    obtain ⟨h1, h2⟩ := ht e (List.mem_cons_self _ _)
    simp only [replaceEach, List.foldl_cons]
    apply ih _ (fun x hx => ht x (List.mem_cons_of_mem _ hx))
    simp only [QString_replace, h1, if_false]
    exact gapFrom_replaceGo m e.1 e.2 h2 s 0 0 (by omega) h

/-- Removing the matches of a pattern puts no unit from U+0080 on between two `m`. -/
theorem gapFrom_Re_replaceGo (m : Nat) (r : Re) :
    ∀ (s : List Nat) (pos skip st : Nat), st ≤ 2 → gapFrom m st s = false →
      gapFrom m st (Re.replaceGo r [] pos skip s) = false := by
  intro s
  induction s with
  | nil =>
    intro pos skip st _ _
    cases skip <;> (simp only [Re.replaceGo]; split <;> rfl)
  | cons c cs ih =>
    intro pos skip st hst h
    have hstep : gapFrom m st (c :: Re.replaceGo r [] (pos + 1) 0 cs) = false := by
      simp only [gapFrom] at h ⊢
      by_cases hc : c = m
      · simp only [hc, if_true, Bool.or_eq_false_iff] at h ⊢
        exact ⟨h.1, ih _ 0 1 (by omega) h.2⟩
      · simp only [hc, if_false] at h ⊢
        by_cases h80 : 0x80 ≤ c
        · simp only [h80, if_true] at h ⊢
          by_cases h0 : st = 0
          · simp only [h0, if_true] at h ⊢
            exact ih _ 0 0 (by omega) h
          · simp only [h0, if_false] at h ⊢
            exact ih _ 0 2 (le_refl 2) h
        · simp only [h80, if_false] at h ⊢
          exact ih _ 0 st hst h
    cases skip with
    | succ k =>
      simp only [Re.replaceGo]
      exact ih _ k st hst (gapFrom_tail m c cs st hst h)
    | zero =>
      simp only [Re.replaceGo]
      split
      · split_ifs
        · simpa using hstep
        · simp only [List.nil_append]
          exact ih _ _ st hst (gapFrom_tail m c cs st hst h)
      · exact hstep

/-- Removing the units from U+0080 on completes no run of three units `m` in a
text in which no such unit stands between two `m`: the pass `gapFrom` is in
state `st`, `r` units `m` stand in front of the text and `r1` in front of what
is left of it. -/
theorem tripleFrom_filter (m : Nat) (hm : m < 0x80) :
    ∀ (s : List Nat) (st r r1 : Nat),
      (st = 2 ∨ (st = 1 ∧ r1 ≤ r) ∨ (st = 0 ∧ r1 = 0)) →
      gapFrom m st s = false → tripleFrom m r s = false →
      tripleFrom m r1 (s.filter (fun c => decide (c < 0x80))) = false := by
  intro s
  induction s with
  | nil => intro st r r1 _ _ _; rfl
  | cons c cs ih =>
    intro st r r1 hinv hg ht
    simp only [gapFrom] at hg
    simp only [tripleFrom] at ht
    by_cases hc : c = m
    · have hkeep : decide (c < 0x80) = true := by rw [hc]; exact decide_eq_true hm
      simp only [hc, if_true, Bool.or_eq_false_iff, decide_eq_false_iff_not] at hg ht
      simp only [List.filter_cons, hkeep, if_true]
      simp only [tripleFrom, hc, if_true, Bool.or_eq_false_iff, decide_eq_false_iff_not]
      have hr1 : r1 ≤ r := by
        rcases hinv with h | h | h
        · exact absurd h hg.1
        · exact h.2
        · omega
      exact ⟨by omega, ih 1 (r + 1) (r1 + 1) (Or.inr (Or.inl ⟨rfl, by omega⟩)) hg.2 ht.2⟩
    · simp only [hc, if_false] at hg ht
      by_cases h80 : 0x80 ≤ c
      · have hdrop : decide (c < 0x80) = false := decide_eq_false (by omega)
        simp only [h80, if_true] at hg
        simp only [List.filter_cons, hdrop, Bool.false_eq_true, if_false]
        by_cases h0 : st = 0
        · simp only [h0, if_true] at hg
          have hr1 : r1 = 0 := by
            rcases hinv with h | h | h
            · omega
            · omega
            · exact h.2
          exact ih 0 0 r1 (Or.inr (Or.inr ⟨rfl, hr1⟩)) hg ht
        · simp only [h0, if_false] at hg
          exact ih 2 0 r1 (Or.inl rfl) hg ht
      · have hkeep : decide (c < 0x80) = true := decide_eq_true (by omega)
        simp only [h80, if_false] at hg
        simp only [List.filter_cons, hkeep, if_true]
        simp only [tripleFrom, hc, if_false]
        refine ih st 0 0 ?_ hg ht
        rcases hinv with h | h | h
        · exact Or.inl h
        · exact Or.inr (Or.inl ⟨h.1, le_refl 0⟩)
        · exact Or.inr (Or.inr ⟨h.1, rfl⟩)

/-- The core of C26: no run of three `E` and no run of three `M` is left. -/
theorem simplifiedPattern_tripleFrom (m : Nat) (hm : m = 69 ∨ m = 77) (env : LocaleEnv)
    (d : MLocalePrivate) (p : QString)
    (h : (startsWith (categoryName d Category.MLcTime) (fromUtf8 "zh") = true
          ∨ startsWith (categoryName d Category.MLcTime) (fromUtf8 "ja") = true
          ∨ localeScript env.localeScriptResource (categoryName d Category.MLcTime)
              = fromUtf8 "Arab"
          ∨ localeScript env.localeScriptResource (categoryName d Category.MLcTime)
              = fromUtf8 "Hebr")
        ∨ nonAsciiBetween m p = false) :
    tripleFrom m 0 (simplifiedPattern env d p) = false := by
  have hm80 : m < 0x80 := by rcases hm with hm | hm <;> subst hm <;> decide
  unfold simplifiedPattern
  lift_lets
  intro cnT cnM sT sM cj s1 s2 s3 s4 s5 s6 s7 s8 s9
  have hE : fromUtf8 "EEE" = [69, 69, 69] := by decide
  have hM : fromUtf8 "MMM" = [77, 77, 77] := by decide
  have h5 : tripleFrom m 0 s5 = false := by
    show tripleFrom m 0 (replaceEach s4 simplifySymbolReplacements) = false
    simp only [replaceEach, simplifySymbolReplacements, List.foldl_cons, List.foldl_nil]
    generalize QString_replace (QString_replace s4 (fromUtf8 "EEEE") (fromUtf8 "cccc"))
      (fromUtf8 "MMMM") (fromUtf8 "LLLL") = x
    rcases hm with hm | hm <;> subst hm
    · have h3 : tripleFrom 69 0 (QString_replace x (fromUtf8 "EEE") (fromUtf8 "ccc")) = false := by
        rw [hE]
        simp only [QString_replace, List.cons_ne_nil, if_false]
        exact tripleFrom_replaceGo_self 69 _ (by decide) (by decide) _ x (Nat.le_refl _)
      rw [hM]
      simp only [QString_replace, List.cons_ne_nil, if_false] at h3 ⊢
      exact tripleFrom_replaceGo 69 _ _ (by decide) (by decide) _ 0 0 0 (Nat.le_refl _)
        (fun _ => rfl) h3
    · rw [hM]
      simp only [QString_replace, List.cons_ne_nil, if_false]
      exact tripleFrom_replaceGo_self 77 _ (by decide) (by decide) _ _ (Nat.le_refl _)
  have h6 : tripleFrom m 0 s6 = false := by
    show tripleFrom m 0 (if startsWith cnT (fromUtf8 "th") = true
      then replaceEach s5 simplifyThReplacements else s5) = false
    split_ifs
    · exact tripleFrom_replaceEach m _ _ (by rcases hm with hm | hm <;> subst hm <;> decide) h5
    · exact h5
  have h7 : tripleFrom m 0 s7 = false := by
    show tripleFrom m 0 (if cj = true then replaceEach s6 simplifyCjSpacing else s6) = false
    split_ifs
    · exact tripleFrom_replaceEach m _ _ (by rcases hm with hm | hm <;> subst hm <;> decide) h6
    · exact h6
  have h8 : tripleFrom m 0 s8 = false := by
    show tripleFrom m 0 (if sT = fromUtf8 "Hebr" ∧ sM ≠ fromUtf8 "Hebr"
      then QString_replace s7 (fromUtf8 "בL") (fromUtf8 "L") else s7) = false
    split_ifs
    · have hb : fromUtf8 "בL" ≠ [] := by decide
      simp only [QString_replace, hb, if_false]
      exact tripleFrom_replaceGo m _ _ (by decide)
        (by rcases hm with hm | hm <;> subst hm <;> decide) _ 0 0 0 (Nat.le_refl _)
        (fun _ => rfl) h7
    · exact h7
  have h9 : tripleFrom m 0 s9 = false := by
    show tripleFrom m 0 (if (!startsWith cnT (fromUtf8 "zh") && !startsWith cnT (fromUtf8 "ja")
        && sT != fromUtf8 "Arab" && sT != fromUtf8 "Hebr") = true
      then List.filter (fun c => decide (c < 128)) s8 else s8) = false
    split_ifs with hcond
    · have hgap : gapFrom m 0 p = false := by
        rw [gapFrom_zero m hm80]
        rcases h with h | h
        · exfalso
          simp only [Bool.and_eq_true, Bool.not_eq_true', bne_iff_ne, ne_eq] at hcond
          obtain ⟨⟨⟨c1, c2⟩, c3⟩, c4⟩ := hcond
          rcases h with h | h | h | h
          · rw [h] at c1; cases c1
          · rw [h] at c2; cases c2
          · exact c3 h
          · exact c4 h
        · exact h
      have g1 : gapFrom m 0 s1 = false := by
        show gapFrom m 0 (if cj = true then replaceEach p simplifyCjReplacements else p) = false
        split_ifs
        · exact gapFrom_replaceEach m _ _
            (by rcases hm with hm | hm <;> subst hm <;> decide) hgap
        · exact hgap
      have g2 : gapFrom m 0 s2 = false := by
        show gapFrom m 0 (if startsWith cnT (fromUtf8 "ko") = true
          then replaceEach s1 simplifyKoReplacements else s1) = false
        split_ifs
        · exact gapFrom_replaceEach m _ _
            (by rcases hm with hm | hm <;> subst hm <;> decide) g1
        · exact g1
      have g3 : gapFrom m 0 s3 = false :=
        gapFrom_replaceEach m _ _ (by rcases hm with hm | hm <;> subst hm <;> decide) g2
      have g4 : gapFrom m 0 s4 = false := by
        show gapFrom m 0 (Re.replaceAll quotedSpanRx s3 []) = false
        exact gapFrom_Re_replaceGo m _ _ 0 0 0 (by omega) g3
      have g5 : gapFrom m 0 s5 = false :=
        gapFrom_replaceEach m _ _ (by rcases hm with hm | hm <;> subst hm <;> decide) g4
      have g6 : gapFrom m 0 s6 = false := by
        show gapFrom m 0 (if startsWith cnT (fromUtf8 "th") = true
          then replaceEach s5 simplifyThReplacements else s5) = false
        split_ifs
        · exact gapFrom_replaceEach m _ _
            (by rcases hm with hm | hm <;> subst hm <;> decide) g5
        · exact g5
      have g7 : gapFrom m 0 s7 = false := by
        show gapFrom m 0 (if cj = true then replaceEach s6 simplifyCjSpacing else s6) = false
        split_ifs
        · exact gapFrom_replaceEach m _ _
            (by rcases hm with hm | hm <;> subst hm <;> decide) g6
        · exact g6
      have g8 : gapFrom m 0 s8 = false := by
        show gapFrom m 0 (if sT = fromUtf8 "Hebr" ∧ sM ≠ fromUtf8 "Hebr"
          then QString_replace s7 (fromUtf8 "בL") (fromUtf8 "L") else s7) = false
        split_ifs
        · exact gapFrom_replaceEach m [(fromUtf8 "בL", fromUtf8 "L")] s7
            (by rcases hm with hm | hm <;> subst hm <;> decide) g7
        · exact g7
      exact tripleFrom_filter m hm80 s8 0 0 0 (Or.inr (Or.inr ⟨rfl, rfl⟩)) g8 h8
    · exact h8
  exact tripleFrom_simplified m (by rcases hm with hm | hm <;> subst hm <;> decide) s9 h9

/-- In a text of ASCII units no unit from U+0080 on stands between two `m`. -/
theorem nonAsciiBetween_of_isAscii (m : Nat) (hm : m < 0x80) (s : List Nat)
    (h : isAscii s = true) : nonAsciiBetween m s = false := by
  rw [← gapFrom_zero m hm]
  have key : ∀ (t : List Nat) (st : Nat), st ≤ 1 → isAscii t = true → gapFrom m st t = false := by
    intro t
    induction t with
    | nil => intro st _ _; rfl
    | cons c cs ih =>
      intro st hst ht
      simp only [isAscii, List.all_cons, Bool.and_eq_true, decide_eq_true_eq] at ht
      have hcs : isAscii cs = true := by simpa [isAscii] using ht.2
      simp only [gapFrom]
      by_cases hc : c = m
      · simp only [hc, if_true, Bool.or_eq_false_iff, decide_eq_false_iff_not]
        exact ⟨by omega, ih 1 (le_refl 1) hcs⟩
      · have h1 : c < 128 := ht.1
        have h80 : ¬ 0x80 ≤ c := by omega
        simp only [hc, if_false, h80]
        exact ih st hst hcs
  exact key s 0 (by omega) h

/-- C26 as stated fails: for the Time and Messages locale `en_GB` the pattern
`MM–MM`, two months of two digits with the dash U+2013 between them, becomes
`MMMM`, and the pattern `d MMéM y`, with the letter U+00E9 between the second
and the third `M`, becomes `d MMM y`: the removal of the units that are not
ASCII comes after the replacement of `MMMM` and `MMM` and joins the letters. -/
theorem simplifyDateFormatForMixing_joins_counterexample :
    simplifyDateFormatForMixing sampleLocaleEnv (MLocalePrivate.init (fromUtf8 "en_GB"))
        (some { pattern := fromUtf8 "MM–MM", symbols := Symbols.own })
      = some { pattern := fromUtf8 "MMMM", symbols := Symbols.own }
    ∧ fromUtf8 "MMMM" <:+: fromUtf8 "MMMM"
    ∧ fromUtf8 "MMM" <:+: fromUtf8 "MMMM"
    ∧ simplifyDateFormatForMixing sampleLocaleEnv (MLocalePrivate.init (fromUtf8 "en_GB"))
        (some { pattern := fromUtf8 "d MMéM y", symbols := Symbols.own })
      = some { pattern := fromUtf8 "d MMM y", symbols := Symbols.own }
    ∧ fromUtf8 "MMM" <:+: fromUtf8 "d MMM y" := by
  decide

/-- C26, amended: for every state and every pattern, the pattern written by
`simplifyDateFormatForMixing` contains neither `EEEE` nor `EEE`, unless the
removal of the units that are not ASCII applies (the Time name starts with
neither `zh` nor `ja` and the Time script is neither `Arab` nor `Hebr`) and
some unit from U+0080 on stands between two `E` of the pattern given; and it
contains neither `MMMM` nor `MMM`, unless the removal applies and some unit from
U+0080 on stands between two `M` of the pattern given. -/
theorem simplifyDateFormatForMixing_symbols (env : LocaleEnv) (d : MLocalePrivate)
    (f : DateFormat) :
    simplifyDateFormatForMixing env d (some f)
        = some { f with pattern := simplifiedPattern env d f.pattern }
      ∧ (((startsWith (categoryName d Category.MLcTime) (fromUtf8 "zh") = true
            ∨ startsWith (categoryName d Category.MLcTime) (fromUtf8 "ja") = true
            ∨ localeScript env.localeScriptResource (categoryName d Category.MLcTime)
                = fromUtf8 "Arab"
            ∨ localeScript env.localeScriptResource (categoryName d Category.MLcTime)
                = fromUtf8 "Hebr")
          ∨ nonAsciiBetween 69 f.pattern = false) →
        ¬ fromUtf8 "EEEE" <:+: simplifiedPattern env d f.pattern
          ∧ ¬ fromUtf8 "EEE" <:+: simplifiedPattern env d f.pattern)
      ∧ (((startsWith (categoryName d Category.MLcTime) (fromUtf8 "zh") = true
            ∨ startsWith (categoryName d Category.MLcTime) (fromUtf8 "ja") = true
            ∨ localeScript env.localeScriptResource (categoryName d Category.MLcTime)
                = fromUtf8 "Arab"
            ∨ localeScript env.localeScriptResource (categoryName d Category.MLcTime)
                = fromUtf8 "Hebr")
          ∨ nonAsciiBetween 77 f.pattern = false) →
        ¬ fromUtf8 "MMMM" <:+: simplifiedPattern env d f.pattern
          ∧ ¬ fromUtf8 "MMM" <:+: simplifiedPattern env d f.pattern) := by
  have hE : fromUtf8 "EEE" = [69, 69, 69] := by decide
  have hM : fromUtf8 "MMM" = [77, 77, 77] := by decide
  refine ⟨rfl, ?_, ?_⟩
  · intro h
    have h3E : ¬ fromUtf8 "EEE" <:+: simplifiedPattern env d f.pattern := by
      intro hin
      rw [hE] at hin
      have := tripleFrom_of_infix 69 _ hin 0
      rw [simplifiedPattern_tripleFrom 69 (Or.inl rfl) env d f.pattern h] at this
      cases this
    exact ⟨fun hin => h3E (List.IsInfix.trans (by decide) hin), h3E⟩
  · intro h
    have h3M : ¬ fromUtf8 "MMM" <:+: simplifiedPattern env d f.pattern := by
      intro hin
      rw [hM] at hin
      have := tripleFrom_of_infix 77 _ hin 0
      rw [simplifiedPattern_tripleFrom 77 (Or.inr rfl) env d f.pattern h] at this
      cases this
    exact ⟨fun hin => h3M (List.IsInfix.trans (by decide) hin), h3M⟩

/-- C26, amended, at the pattern `EEEE, d MMMM y 'г'.` for the Time locale
`ru_RU` and the Messages locale `en_GB`: the pattern is not ASCII, its units
from U+0080 on stand after the last `E` and the last `M`, the removal applies,
and the pattern written is `cccc, d LLLL y`. -/
theorem simplifyDateFormatForMixing_symbols_witness :
    isAscii (fromUtf8 "EEEE, d MMMM y 'г'.") = false
    ∧ nonAsciiBetween 69 (fromUtf8 "EEEE, d MMMM y 'г'.") = false
    ∧ nonAsciiBetween 77 (fromUtf8 "EEEE, d MMMM y 'г'.") = false
    ∧ simplifiedPattern sampleLocaleEnv
        (setCategoryLocale sampleLocaleEnv (MLocalePrivate.init (fromUtf8 "en_GB"))
          Category.MLcTime (fromUtf8 "ru_RU")) (fromUtf8 "EEEE, d MMMM y 'г'.")
      = fromUtf8 "cccc, d LLLL y"
    ∧ (¬ fromUtf8 "EEEE" <:+: simplifiedPattern sampleLocaleEnv
          (setCategoryLocale sampleLocaleEnv (MLocalePrivate.init (fromUtf8 "en_GB"))
            Category.MLcTime (fromUtf8 "ru_RU")) (fromUtf8 "EEEE, d MMMM y 'г'.")
      ∧ ¬ fromUtf8 "EEE" <:+: simplifiedPattern sampleLocaleEnv
          (setCategoryLocale sampleLocaleEnv (MLocalePrivate.init (fromUtf8 "en_GB"))
            Category.MLcTime (fromUtf8 "ru_RU")) (fromUtf8 "EEEE, d MMMM y 'г'."))
    ∧ (¬ fromUtf8 "MMMM" <:+: simplifiedPattern sampleLocaleEnv
          (setCategoryLocale sampleLocaleEnv (MLocalePrivate.init (fromUtf8 "en_GB"))
            Category.MLcTime (fromUtf8 "ru_RU")) (fromUtf8 "EEEE, d MMMM y 'г'.")
      ∧ ¬ fromUtf8 "MMM" <:+: simplifiedPattern sampleLocaleEnv
          (setCategoryLocale sampleLocaleEnv (MLocalePrivate.init (fromUtf8 "en_GB"))
            Category.MLcTime (fromUtf8 "ru_RU")) (fromUtf8 "EEEE, d MMMM y 'г'.")) :=
  ⟨by decide, by decide, by decide, by decide,
    (simplifyDateFormatForMixing_symbols sampleLocaleEnv
      (setCategoryLocale sampleLocaleEnv (MLocalePrivate.init (fromUtf8 "en_GB"))
        Category.MLcTime (fromUtf8 "ru_RU"))
      { pattern := fromUtf8 "EEEE, d MMMM y 'г'.", symbols := Symbols.own }).2.1
      (Or.inr (by decide)),
    (simplifyDateFormatForMixing_symbols sampleLocaleEnv
      (setCategoryLocale sampleLocaleEnv (MLocalePrivate.init (fromUtf8 "en_GB"))
        Category.MLcTime (fromUtf8 "ru_RU"))
      { pattern := fromUtf8 "EEEE, d MMMM y 'г'.", symbols := Symbols.own }).2.2
      (Or.inr (by decide))⟩

/-! ## C29: the key of the cache of derived date formats -/

/-- The code units of a decimal digit. -/
theorem utf16Units_digitChar : ∀ k, k < 10 → utf16Units (Nat.digitChar k) = [48 + k] := by
  decide

/-- The digits written by `Nat.toDigitsCore`, as code units: ASCII digits with
the value of the number. -/
theorem toDigitsCore_spec :
    ∀ (fuel n : Nat) (ds : List Char), n < fuel →
      ∃ D : List Nat, (Nat.toDigitsCore 10 fuel n ds).flatMap utf16Units
          = D ++ ds.flatMap utf16Units
        ∧ digitsValue D = n ∧ ∀ c ∈ D, isAsciiDigit c = true := by
  intro fuel
  induction fuel with
  | zero => intro n ds h; omega
  | succ fuel ih =>
    intro n ds h
    have hd : utf16Units (Nat.digitChar (n % 10)) = [48 + n % 10] :=
      utf16Units_digitChar _ (Nat.mod_lt _ (by decide))
    have hdig : isAsciiDigit (48 + n % 10) = true := by
      have := Nat.mod_lt n (show 0 < 10 by decide)
      simp only [isAsciiDigit, Bool.and_eq_true, decide_eq_true_eq]
      omega
    unfold Nat.toDigitsCore
    simp only
    split_ifs with h0
    · refine ⟨[48 + n % 10], ?_, ?_, ?_⟩
      · simp [List.flatMap_cons, hd]
      · simp only [digitsValue, List.foldl_cons, List.foldl_nil]
        have := Nat.div_add_mod n 10
        omega
      · intro c hc
        simp only [List.mem_singleton] at hc
        rw [hc]
        exact hdig
    · obtain ⟨D, hD, hv, hall⟩ := ih (n / 10) (Nat.digitChar (n % 10) :: ds) (by omega)
      refine ⟨D ++ [48 + n % 10], ?_, ?_, ?_⟩
      · rw [hD]
        simp [List.flatMap_cons, hd]
      · simp only [digitsValue, List.foldl_append, List.foldl_cons, List.foldl_nil] at hv ⊢
        rw [hv]
        have := Nat.div_add_mod n 10
        omega
      · intro c hc
        rcases List.mem_append.mp hc with h1 | h1
        · exact hall c h1
        · simp only [List.mem_singleton] at h1
          rw [h1]
          exact hdig

/-- The decimal numeral of a number has its value and consists of ASCII digits. -/
theorem QString_number_spec (n : Nat) :
    digitsValue (QString_number n) = n ∧ ∀ c ∈ QString_number n, isAsciiDigit c = true := by
  obtain ⟨D, hD, hv, hall⟩ := toDigitsCore_spec (n + 1) n [] (Nat.lt_succ_self n)
  have hq : QString_number n = D := by
    have : QString_number n = (Nat.toDigitsCore 10 (n + 1) n []).flatMap utf16Units := rfl
    rw [this, hD]
    simp
  rw [hq]
  exact ⟨hv, hall⟩

/-- Different numbers have different decimal numerals. -/
theorem QString_number_injective (a b : Nat) (h : QString_number a = QString_number b) :
    a = b := by
  rw [← (QString_number_spec a).1, ← (QString_number_spec b).1, h]

/-- The scan of `QString::arg` copies a text without `%`. -/
theorem argTokens_append (dv : QChar → Option Nat) (rest : QString) :
    ∀ (X : QString), 37 ∉ X →
      argTokens dv ArgMode.normal (X ++ rest)
        = X.map ArgToken.unit ++ argTokens dv ArgMode.normal rest := by
  intro X
  induction X with
  | nil => intro _; rfl
  | cons c cs ih =>
    intro h
    have hc : c ≠ 37 := fun e => h (by simp [e])
    have hcs : 37 ∉ cs := fun e => h (List.mem_cons_of_mem _ e)
    rw [List.cons_append, List.map_cons, List.cons_append, ← ih hcs]
    simp only [argTokens, hc, if_false]

/-- Copied units are no place markers. -/
theorem minMarker_units (ts : List ArgToken) :
    ∀ (X : QString), minMarker (X.map ArgToken.unit ++ ts) = minMarker ts := by
  intro X
  induction X with
  | nil => rfl
  | cons c cs ih =>
    rw [List.map_cons, List.cons_append]
    simp only [minMarker]
    exact ih

/-- The call `arg` leaves a text without `%` in front of the string alone. -/
theorem QString_arg_append (dv : QChar → Option Nat) (X rest a : QString) (hX : 37 ∉ X) :
    QString_arg dv (X ++ rest) a = X ++ QString_arg dv rest a := by
  unfold QString_arg
  simp only [argTokens_append dv rest X hX, minMarker_units]
  split
  · rfl
  · rw [List.flatMap_append]
    congr 1
    induction X with
    | nil => rfl
    | cons c cs ih =>
      simp only [List.map_cons, List.flatMap_cons, List.singleton_append]
      rw [ih (fun e => hX (List.mem_cons_of_mem _ e))]

/-- A text without `_` in front of a `_` is determined by the whole. -/
theorem append_underscore_inj :
    ∀ (x y r s : List Nat), 95 ∉ x → 95 ∉ y → x ++ 95 :: r = y ++ 95 :: s → x = y ∧ r = s := by
  intro x
  induction x with
  | nil =>
    intro y r s _ hy h
    cases y with
    | nil => simpa using h
    | cons c cs =>
      simp only [List.nil_append, List.cons_append, List.cons.injEq] at h
      exact absurd (by rw [← h.1]; exact List.mem_cons_self _ _) hy
  | cons a as ih =>
    intro y r s hx hy h
    cases y with
    | nil =>
      simp only [List.nil_append, List.cons_append, List.cons.injEq] at h
      exact absurd (by rw [h.1]; exact List.mem_cons_self _ _) hx
    | cons c cs =>
      simp only [List.cons_append, List.cons.injEq] at h
      obtain ⟨h1, h2⟩ := ih cs r s (fun e => hx (List.mem_cons_of_mem _ e))
        (fun e => hy (List.mem_cons_of_mem _ e)) h.2
      exact ⟨by rw [h.1, h1], h2⟩

/-- A decimal numeral has no `%` and no `_`. -/
theorem QString_number_clean (n : Nat) : 37 ∉ QString_number n ∧ 95 ∉ QString_number n := by
  constructor <;> intro h <;> have := (QString_number_spec n).2 _ h <;> revert this <;> decide

/-- The key of `createDateFormat`: the numerals of the four styles, each followed
by `_`, and then what the three calls of `arg` with the names make of
`%5_%6_%7`. -/
theorem dateFormatKey_eq (env : LocaleEnv)
    (hdv : env.digitValue 49 = some 1 ∧ env.digitValue 50 = some 2 ∧ env.digitValue 51 = some 3
      ∧ env.digitValue 52 = some 4 ∧ env.digitValue 53 = some 5 ∧ env.digitValue 54 = some 6
      ∧ env.digitValue 55 = some 7 ∧ env.digitValue 95 = none)
    (dateType : DateType) (timeType : TimeType) (calendarType : CalendarType)
    (timeFormat24h : TimeFormat24h) (T N M : QString) :
    dateFormatKey env dateType timeType calendarType timeFormat24h T N M
      = QString_number (env.dateTypeValue dateType) ++ 95 ::
        (QString_number (env.timeTypeValue timeType) ++ 95 ::
        (QString_number (env.calendarTypeValue calendarType) ++ 95 ::
        (QString_number (env.timeFormat24hValue timeFormat24h) ++ 95 ::
          QString_arg env.digitValue (QString_arg env.digitValue
            (QString_arg env.digitValue (fromUtf8 "%5_%6_%7") T) N) M))) := by
  obtain ⟨h1, h2, h3, h4, h5, h6, h7, h95⟩ := hdv
  have t1 : ∀ a, QString_arg env.digitValue (fromUtf8 "%1_%2_%3_%4_%5_%6_%7") a
      = a ++ 95 :: fromUtf8 "%2_%3_%4_%5_%6_%7" := by
    intro a
    have e : fromUtf8 "%1_%2_%3_%4_%5_%6_%7"
        = [37, 49, 95, 37, 50, 95, 37, 51, 95, 37, 52, 95, 37, 53, 95, 37, 54, 95, 37, 55] := by
      decide
    have e2 : fromUtf8 "%2_%3_%4_%5_%6_%7"
        = [37, 50, 95, 37, 51, 95, 37, 52, 95, 37, 53, 95, 37, 54, 95, 37, 55] := by decide
    rw [e, e2]
    simp [QString_arg, argTokens, minMarker, markerStart, h1, h2, h3, h4, h5, h6, h7, h95]
  have t2 : ∀ a, QString_arg env.digitValue (fromUtf8 "%2_%3_%4_%5_%6_%7") a
      = a ++ 95 :: fromUtf8 "%3_%4_%5_%6_%7" := by
    intro a
    have e : fromUtf8 "%2_%3_%4_%5_%6_%7"
        = [37, 50, 95, 37, 51, 95, 37, 52, 95, 37, 53, 95, 37, 54, 95, 37, 55] := by decide
    have e2 : fromUtf8 "%3_%4_%5_%6_%7"
        = [37, 51, 95, 37, 52, 95, 37, 53, 95, 37, 54, 95, 37, 55] := by decide
    rw [e, e2]
    simp [QString_arg, argTokens, minMarker, markerStart, h2, h3, h4, h5, h6, h7, h95]
  have t3 : ∀ a, QString_arg env.digitValue (fromUtf8 "%3_%4_%5_%6_%7") a
      = a ++ 95 :: fromUtf8 "%4_%5_%6_%7" := by
    intro a
    have e : fromUtf8 "%3_%4_%5_%6_%7"
        = [37, 51, 95, 37, 52, 95, 37, 53, 95, 37, 54, 95, 37, 55] := by decide
    have e2 : fromUtf8 "%4_%5_%6_%7" = [37, 52, 95, 37, 53, 95, 37, 54, 95, 37, 55] := by decide
    rw [e, e2]
    simp [QString_arg, argTokens, minMarker, markerStart, h3, h4, h5, h6, h7, h95]
  have t4 : ∀ a, QString_arg env.digitValue (fromUtf8 "%4_%5_%6_%7") a
      = a ++ 95 :: fromUtf8 "%5_%6_%7" := by
    intro a
    have e : fromUtf8 "%4_%5_%6_%7" = [37, 52, 95, 37, 53, 95, 37, 54, 95, 37, 55] := by decide
    have e2 : fromUtf8 "%5_%6_%7" = [37, 53, 95, 37, 54, 95, 37, 55] := by decide
    rw [e, e2]
    simp [QString_arg, argTokens, minMarker, markerStart, h4, h5, h6, h7, h95]
  have c1 := QString_number_clean (env.dateTypeValue dateType)
  have c2 := QString_number_clean (env.timeTypeValue timeType)
  have c3 := QString_number_clean (env.calendarTypeValue calendarType)
  have c4 := QString_number_clean (env.timeFormat24hValue timeFormat24h)
  unfold dateFormatKey
  simp only
  rw [t1]
  have s2 : ∀ (x rest a : QString), 37 ∉ x →
      QString_arg env.digitValue (x ++ 95 :: rest) a
        = x ++ 95 :: QString_arg env.digitValue rest a := by
    intro x rest a hx
    have := QString_arg_append env.digitValue (x ++ [95]) rest a
      (by intro h; rcases List.mem_append.mp h with h | h
          · exact hx h
          · simp at h)
    simpa using this
  rw [s2 _ _ _ c1.1, t2, s2 _ _ _ c1.1, s2 _ _ _ c2.1, t3, s2 _ _ _ c1.1, s2 _ _ _ c2.1,
    s2 _ _ _ c3.1, t4, s2 _ _ _ c1.1, s2 _ _ _ c2.1, s2 _ _ _ c3.1, s2 _ _ _ c4.1,
    s2 _ _ _ c1.1, s2 _ _ _ c2.1, s2 _ _ _ c3.1, s2 _ _ _ c4.1,
    s2 _ _ _ c1.1, s2 _ _ _ c2.1, s2 _ _ _ c3.1, s2 _ _ _ c4.1]

/-- The names in the key of `createDateFormat`, for a Time and a Numeric name
without `%`: the three names with `_` between them. -/
theorem dateFormatKey_names (dv : QChar → Option Nat)
    (hdv : dv 53 = some 5 ∧ dv 54 = some 6 ∧ dv 55 = some 7 ∧ dv 95 = none)
    (T N M : QString) (hT : 37 ∉ T) (hN : 37 ∉ N) :
    QString_arg dv (QString_arg dv (QString_arg dv (fromUtf8 "%5_%6_%7") T) N) M
      = T ++ 95 :: (N ++ 95 :: M) := by
  obtain ⟨h5, h6, h7, h95⟩ := hdv
  have e5 : fromUtf8 "%5_%6_%7" = [37, 53, 95, 37, 54, 95, 37, 55] := by decide
  have t5 : QString_arg dv [37, 53, 95, 37, 54, 95, 37, 55] T = T ++ 95 :: [37, 54, 95, 37, 55] := by
    simp [QString_arg, argTokens, minMarker, markerStart, h5, h6, h7, h95]
  have t6 : QString_arg dv [37, 54, 95, 37, 55] N = N ++ 95 :: [37, 55] := by
    simp [QString_arg, argTokens, minMarker, markerStart, h6, h7, h95]
  have t7 : QString_arg dv [37, 55] M = M := by
    simp [QString_arg, argTokens, minMarker, markerStart, h7]
  have s2 : ∀ (x rest a : QString), 37 ∉ x →
      QString_arg dv (x ++ 95 :: rest) a = x ++ 95 :: QString_arg dv rest a := by
    intro x rest a hx
    have := QString_arg_append dv (x ++ [95]) rest a
      (by intro h; rcases List.mem_append.mp h with h | h
          · exact hx h
          · simp at h)
    simpa using this
  rw [e5, t5, s2 _ _ _ hT, t6, s2 _ _ _ hT, s2 _ _ _ hN, t7]

/-- C29 as stated fails: the Time name `en_US` with the Numeric name `fi` and
the Time name `en` with the Numeric name `US_fi` give the same key. -/
theorem dateFormatKey_collision_counterexample :
    dateFormatKey sampleLocaleEnv DateType.DateLong TimeType.TimeLong
        CalendarType.GregorianCalendar TimeFormat24h.LocaleDefaultTimeFormat24h
        (fromUtf8 "en_US") (fromUtf8 "fi") (fromUtf8 "de")
      = dateFormatKey sampleLocaleEnv DateType.DateLong TimeType.TimeLong
        CalendarType.GregorianCalendar TimeFormat24h.LocaleDefaultTimeFormat24h
        (fromUtf8 "en") (fromUtf8 "US_fi") (fromUtf8 "de")
    ∧ fromUtf8 "en_US" ≠ fromUtf8 "en" := by
  decide

/-- C29, amended: let the digit values of `1` .. `7` be what they are, `_` be no
digit, and the four enumerations have distinct values.  Two derivations with
the same key have the same date style, time style, calendar kind and clock
preference, whatever the three names are; and they have the same three names
when their Time and Numeric names contain neither `_` nor `%`. -/
theorem dateFormatKey_injective (env : LocaleEnv)
    (hdv : env.digitValue 49 = some 1 ∧ env.digitValue 50 = some 2 ∧ env.digitValue 51 = some 3
      ∧ env.digitValue 52 = some 4 ∧ env.digitValue 53 = some 5 ∧ env.digitValue 54 = some 6
      ∧ env.digitValue 55 = some 7 ∧ env.digitValue 95 = none)
    (hinj : Function.Injective env.dateTypeValue ∧ Function.Injective env.timeTypeValue
      ∧ Function.Injective env.calendarTypeValue ∧ Function.Injective env.timeFormat24hValue)
    (dateType dateType1 : DateType) (timeType timeType1 : TimeType)
    (calendarType calendarType1 : CalendarType) (timeFormat24h timeFormat24h1 : TimeFormat24h)
    (T N M T1 N1 M1 : QString)
    (hkey : dateFormatKey env dateType timeType calendarType timeFormat24h T N M
      = dateFormatKey env dateType1 timeType1 calendarType1 timeFormat24h1 T1 N1 M1) :
    dateType = dateType1 ∧ timeType = timeType1 ∧ calendarType = calendarType1
      ∧ timeFormat24h = timeFormat24h1
      ∧ (37 ∉ T → 95 ∉ T → 37 ∉ N → 95 ∉ N → 37 ∉ T1 → 95 ∉ T1 → 37 ∉ N1 → 95 ∉ N1 →
          T = T1 ∧ N = N1 ∧ M = M1) := by
  rw [dateFormatKey_eq env hdv, dateFormatKey_eq env hdv] at hkey
  obtain ⟨e1, hkey⟩ := append_underscore_inj _ _ _ _ (QString_number_clean _).2
    (QString_number_clean _).2 hkey
  obtain ⟨e2, hkey⟩ := append_underscore_inj _ _ _ _ (QString_number_clean _).2
    (QString_number_clean _).2 hkey
  obtain ⟨e3, hkey⟩ := append_underscore_inj _ _ _ _ (QString_number_clean _).2
    (QString_number_clean _).2 hkey
  obtain ⟨e4, hkey⟩ := append_underscore_inj _ _ _ _ (QString_number_clean _).2
    (QString_number_clean _).2 hkey
  refine ⟨hinj.1 (QString_number_injective _ _ e1), hinj.2.1 (QString_number_injective _ _ e2),
    hinj.2.2.1 (QString_number_injective _ _ e3), hinj.2.2.2 (QString_number_injective _ _ e4),
    ?_⟩
  intro a1 a2 a3 a4 b1 b2 b3 b4
  have hd := hdv.2.2.2.2
  rw [dateFormatKey_names _ hd T N M a1 a3, dateFormatKey_names _ hd T1 N1 M1 b1 b3] at hkey
  obtain ⟨f1, hkey⟩ := append_underscore_inj _ _ _ _ a2 b2 hkey
  obtain ⟨f2, f3⟩ := append_underscore_inj _ _ _ _ a4 b4 hkey
  exact ⟨f1, f2, f3⟩

/-- The example environment gives distinct values to distinct enumerators. -/
theorem sampleLocaleEnv_values_injective :
    Function.Injective sampleLocaleEnv.dateTypeValue
      ∧ Function.Injective sampleLocaleEnv.timeTypeValue
      ∧ Function.Injective sampleLocaleEnv.calendarTypeValue
      ∧ Function.Injective sampleLocaleEnv.timeFormat24hValue := by
  refine ⟨?_, ?_, ?_, ?_⟩
  · intro a b h
    cases a <;> cases b <;> first | rfl | (simp [sampleLocaleEnv] at h)
  · intro a b h
    cases a <;> cases b <;> first | rfl | (simp [sampleLocaleEnv] at h)
  · intro a b h
    cases a <;> cases b <;> first | rfl | (simp [sampleLocaleEnv] at h; done) | skip
    simp only [sampleLocaleEnv, Nat.add_right_cancel_iff] at h
    rw [h]
  · intro a b h
    cases a <;> cases b <;> first | rfl | (simp [sampleLocaleEnv] at h)

/-- C29, amended, at the two derivations of a long date and time format with
the names `en_US`, `fi`, `de` and `en`, `US_fi`, `de`, which have the same key:
the four styles agree, and the names are not covered, since two of them
contain `_`; and at a derivation with the names `fi`, `sv`, `en`. -/
theorem dateFormatKey_injective_witness :
    dateFormatKey sampleLocaleEnv DateType.DateLong TimeType.TimeLong
        CalendarType.GregorianCalendar TimeFormat24h.LocaleDefaultTimeFormat24h
        (fromUtf8 "en_US") (fromUtf8 "fi") (fromUtf8 "de")
      = dateFormatKey sampleLocaleEnv DateType.DateLong TimeType.TimeLong
        CalendarType.GregorianCalendar TimeFormat24h.LocaleDefaultTimeFormat24h
        (fromUtf8 "en") (fromUtf8 "US_fi") (fromUtf8 "de")
    ∧ (DateType.DateLong = DateType.DateLong ∧ TimeType.TimeLong = TimeType.TimeLong
      ∧ CalendarType.GregorianCalendar = CalendarType.GregorianCalendar
      ∧ TimeFormat24h.LocaleDefaultTimeFormat24h = TimeFormat24h.LocaleDefaultTimeFormat24h
      ∧ (37 ∉ fromUtf8 "en_US" → 95 ∉ fromUtf8 "en_US" → 37 ∉ fromUtf8 "fi" →
          95 ∉ fromUtf8 "fi" → 37 ∉ fromUtf8 "en" → 95 ∉ fromUtf8 "en" →
          37 ∉ fromUtf8 "US_fi" → 95 ∉ fromUtf8 "US_fi" →
          fromUtf8 "en_US" = fromUtf8 "en" ∧ fromUtf8 "fi" = fromUtf8 "US_fi"
            ∧ fromUtf8 "de" = fromUtf8 "de"))
    ∧ (fromUtf8 "fi" = fromUtf8 "fi" ∧ fromUtf8 "sv" = fromUtf8 "sv"
        ∧ fromUtf8 "en" = fromUtf8 "en") :=
  ⟨by decide,
    dateFormatKey_injective sampleLocaleEnv (by decide) sampleLocaleEnv_values_injective
      DateType.DateLong DateType.DateLong TimeType.TimeLong TimeType.TimeLong
      CalendarType.GregorianCalendar CalendarType.GregorianCalendar
      TimeFormat24h.LocaleDefaultTimeFormat24h TimeFormat24h.LocaleDefaultTimeFormat24h
      (fromUtf8 "en_US") (fromUtf8 "fi") (fromUtf8 "de")
      (fromUtf8 "en") (fromUtf8 "US_fi") (fromUtf8 "de") (by decide),
    (dateFormatKey_injective sampleLocaleEnv (by decide) sampleLocaleEnv_values_injective
      DateType.DateLong DateType.DateLong TimeType.TimeLong TimeType.TimeLong
      CalendarType.GregorianCalendar CalendarType.GregorianCalendar
      TimeFormat24h.LocaleDefaultTimeFormat24h TimeFormat24h.LocaleDefaultTimeFormat24h
      (fromUtf8 "fi") (fromUtf8 "sv") (fromUtf8 "en")
      (fromUtf8 "fi") (fromUtf8 "sv") (fromUtf8 "en") rfl).2.2.2.2
      (by decide) (by decide) (by decide) (by decide) (by decide) (by decide) (by decide)
      (by decide)⟩

/-! ## C31: the week number counted from a given weekday -/

/-- The loop of `weekNumberStartingFromDay` over `n` days of week 1 that are
followed by a day of another week: it ends, and the flag is cleared exactly
when one of the `n` days falls on the weekday. -/
theorem weekZeroLoop_scan {Cal : Type} (ops : CalendarOps Cal) (weekday : Int) (c0 : Cal) :
    ∀ (n k fuel : Nat) (weekZero : Bool),
      (∀ j, k ≤ j → j < k + n → ops.weekOfYear ((fun c => ops.addDays c 1)^[j] c0) = 1) →
      ops.weekOfYear ((fun c => ops.addDays c 1)^[k + n] c0) ≠ 1 →
      n + 1 ≤ fuel →
      weekZeroLoop ops weekday fuel ((fun c => ops.addDays c 1)^[k] c0) weekZero
        = some (weekZero && decide (∀ j, k ≤ j → j < k + n →
            ops.dayOfWeek ((fun c => ops.addDays c 1)^[j] c0) ≠ weekday)) := by
  intro n
  induction n with
  | zero =>
    intro k fuel weekZero _ hend hfuel
    obtain ⟨f, rfl⟩ : ∃ f, fuel = f + 1 := ⟨fuel - 1, by omega⟩
    have hend1 : ¬ ops.weekOfYear ((fun c => ops.addDays c 1)^[k] c0) = 1 := by simpa using hend
    have hall : (∀ j, k ≤ j → j < k + 0 →
        ops.dayOfWeek ((fun c => ops.addDays c 1)^[j] c0) ≠ weekday) := by
      intro j h1 h2; omega
    simp only [weekZeroLoop, if_neg hend1, decide_eq_true hall, Bool.and_true]
  | succ n ih =>
    intro k fuel weekZero hin hend hfuel
    obtain ⟨f, rfl⟩ : ∃ f, fuel = f + 1 := ⟨fuel - 1, by omega⟩
    have hk : ops.weekOfYear ((fun c => ops.addDays c 1)^[k] c0) = 1 := hin k (le_refl k) (by omega)
    have hstep : ops.addDays ((fun c => ops.addDays c 1)^[k] c0) 1
        = (fun c => ops.addDays c 1)^[k + 1] c0 := by
      rw [Function.iterate_succ_apply']
    have hrec := ih (k + 1) f
      (if ops.dayOfWeek ((fun c => ops.addDays c 1)^[k] c0) = weekday then false else weekZero)
      (fun j h1 h2 => hin j (by omega) (by omega))
      (by rw [show k + 1 + n = k + (n + 1) by omega]; exact hend) (by omega)
    simp only [weekZeroLoop, if_pos hk, hstep, hrec]
    congr 1
    by_cases hd : ops.dayOfWeek ((fun c => ops.addDays c 1)^[k] c0) = weekday
    · have hnot : ¬ (∀ j, k ≤ j → j < k + (n + 1) →
          ops.dayOfWeek ((fun c => ops.addDays c 1)^[j] c0) ≠ weekday) :=
        fun h => h k (le_refl k) (by omega) hd
      simp [hd, hnot]
    · have hiff : (∀ j, k + 1 ≤ j → j < k + 1 + n →
          ops.dayOfWeek ((fun c => ops.addDays c 1)^[j] c0) ≠ weekday)
          ↔ (∀ j, k ≤ j → j < k + (n + 1) →
          ops.dayOfWeek ((fun c => ops.addDays c 1)^[j] c0) ≠ weekday) := by
        constructor
        · intro h j h1 h2
          by_cases hj : j = k
          · subst hj; exact hd
          · exact h j (by omega) (by omega)
        · intro h j h1 h2
          exact h j (by omega) (by omega)
      simp only [if_neg hd]
      congr 1
      exact decide_eq_decide.mpr hiff

/-- C31: let the days that follow the first of January of the year of the
calendar count their weekday cyclically from 1 to 7, let the first of January
be in week 1 (minimal days in the first week 1) and let the week number go up
by one on each following day that falls on the weekday `weekday` (the first day
of the week), for the seven days that follow.  Then the loop of
`weekNumberStartingFromDay` ends after at most seven days, and the result is the
week number of the calendar for that first day of the week and minimal days 1,
as it is when the first of January falls on `weekday` and reduced by one when
it does not. -/
theorem weekNumberStartingFromDay_spec {Cal : Type} (ops : CalendarOps Cal) (calendar : Cal)
    (weekday : Int) (fuel : Nat)
    (hw : 1 ≤ weekday ∧ weekday ≤ 7)
    (hrange : 1 ≤ ops.dayOfWeek (ops.setDate
          (ops.setMinimalDaysInFirstWeek (ops.setFirstDayOfWeek calendar weekday) 1)
          (ops.year (ops.setMinimalDaysInFirstWeek (ops.setFirstDayOfWeek calendar weekday) 1))
          1 1)
      ∧ ops.dayOfWeek (ops.setDate
          (ops.setMinimalDaysInFirstWeek (ops.setFirstDayOfWeek calendar weekday) 1)
          (ops.year (ops.setMinimalDaysInFirstWeek (ops.setFirstDayOfWeek calendar weekday) 1))
          1 1) ≤ 7)
    (hdow : ∀ k, k < 7 →
      ops.dayOfWeek ((fun c => ops.addDays c 1)^[k + 1] (ops.setDate
          (ops.setMinimalDaysInFirstWeek (ops.setFirstDayOfWeek calendar weekday) 1)
          (ops.year (ops.setMinimalDaysInFirstWeek (ops.setFirstDayOfWeek calendar weekday) 1))
          1 1))
        = ops.dayOfWeek ((fun c => ops.addDays c 1)^[k] (ops.setDate
          (ops.setMinimalDaysInFirstWeek (ops.setFirstDayOfWeek calendar weekday) 1)
          (ops.year (ops.setMinimalDaysInFirstWeek (ops.setFirstDayOfWeek calendar weekday) 1))
          1 1)) % 7 + 1)
    (hjan : ops.weekOfYear (ops.setDate
          (ops.setMinimalDaysInFirstWeek (ops.setFirstDayOfWeek calendar weekday) 1)
          (ops.year (ops.setMinimalDaysInFirstWeek (ops.setFirstDayOfWeek calendar weekday) 1))
          1 1) = 1)
    (hweek : ∀ k, k < 7 →
      ops.weekOfYear ((fun c => ops.addDays c 1)^[k + 1] (ops.setDate
          (ops.setMinimalDaysInFirstWeek (ops.setFirstDayOfWeek calendar weekday) 1)
          (ops.year (ops.setMinimalDaysInFirstWeek (ops.setFirstDayOfWeek calendar weekday) 1))
          1 1))
        = (if ops.dayOfWeek ((fun c => ops.addDays c 1)^[k + 1] (ops.setDate
              (ops.setMinimalDaysInFirstWeek (ops.setFirstDayOfWeek calendar weekday) 1)
              (ops.year (ops.setMinimalDaysInFirstWeek (ops.setFirstDayOfWeek calendar weekday) 1))
              1 1)) = weekday
           then ops.weekOfYear ((fun c => ops.addDays c 1)^[k] (ops.setDate
              (ops.setMinimalDaysInFirstWeek (ops.setFirstDayOfWeek calendar weekday) 1)
              (ops.year (ops.setMinimalDaysInFirstWeek (ops.setFirstDayOfWeek calendar weekday) 1))
              1 1)) + 1
           else ops.weekOfYear ((fun c => ops.addDays c 1)^[k] (ops.setDate
              (ops.setMinimalDaysInFirstWeek (ops.setFirstDayOfWeek calendar weekday) 1)
              (ops.year (ops.setMinimalDaysInFirstWeek (ops.setFirstDayOfWeek calendar weekday) 1))
              1 1))))
    (hfuel : 8 ≤ fuel) :
    weekNumberStartingFromDay ops fuel calendar weekday
      = some (if ops.dayOfWeek (ops.setDate
              (ops.setMinimalDaysInFirstWeek (ops.setFirstDayOfWeek calendar weekday) 1)
              (ops.year (ops.setMinimalDaysInFirstWeek (ops.setFirstDayOfWeek calendar weekday) 1))
              1 1) = weekday
          then ops.weekNumber
            (ops.setMinimalDaysInFirstWeek (ops.setFirstDayOfWeek calendar weekday) 1)
          else ops.weekNumber
            (ops.setMinimalDaysInFirstWeek (ops.setFirstDayOfWeek calendar weekday) 1) - 1) := by
  generalize hc0 : ops.setDate
      (ops.setMinimalDaysInFirstWeek (ops.setFirstDayOfWeek calendar weekday) 1)
      (ops.year (ops.setMinimalDaysInFirstWeek (ops.setFirstDayOfWeek calendar weekday) 1))
      1 1 = c0 at hrange hdow hjan hweek ⊢
  -- the weekday of the days that follow the first of January
  have hd : ∀ k, k ≤ 7 → ops.dayOfWeek ((fun c => ops.addDays c 1)^[k] c0)
      = (ops.dayOfWeek c0 - 1 + (k : Int)) % 7 + 1 := by
    intro k
    induction k with
    | zero =>
      intro _
      simp only [Function.iterate_zero, id_eq]
      omega
    | succ k ih =>
      intro hk
      rw [hdow k (by omega), ih (by omega)]
      push_cast
      omega
  -- the first following day that falls on the weekday
  obtain ⟨m, hm⟩ : ∃ m : Nat, (m : Int) = (weekday - ops.dayOfWeek c0 + 6) % 7 + 1 :=
    ⟨((weekday - ops.dayOfWeek c0 + 6) % 7 + 1).toNat, by omega⟩
  have hm1 : 1 ≤ m := by omega
  have hm7 : m ≤ 7 := by omega
  have hone : ∀ j, j < m → ops.weekOfYear ((fun c => ops.addDays c 1)^[j] c0) = 1 := by
    intro j
    induction j with
    | zero => intro _; exact hjan
    | succ j ih =>
      intro hj
      rw [hweek j (by omega), ih (by omega)]
      have hne : ¬ ops.dayOfWeek ((fun c => ops.addDays c 1)^[j + 1] c0) = weekday := by
        rw [hd (j + 1) (by omega)]
        push_cast
        omega
      rw [if_neg hne]
  have hend : ops.weekOfYear ((fun c => ops.addDays c 1)^[0 + m] c0) ≠ 1 := by
    obtain ⟨j, rfl⟩ : ∃ j, m = j + 1 := ⟨m - 1, by omega⟩
    rw [Nat.zero_add, hweek j (by omega), hone j (by omega)]
    have he : ops.dayOfWeek ((fun c => ops.addDays c 1)^[j + 1] c0) = weekday := by
      rw [hd (j + 1) (by omega)]
      push_cast at hm ⊢
      omega
    rw [if_pos he]
    decide
  have hscan := weekZeroLoop_scan ops weekday c0 m 0 fuel true
    (fun j _ h2 => hone j (by omega)) hend (by omega)
  simp only [Function.iterate_zero, id_eq] at hscan
  unfold weekNumberStartingFromDay
  simp only [hc0, hscan, Bool.true_and]
  congr 1
  by_cases h0 : ops.dayOfWeek c0 = weekday
  · have hnot : ¬ (∀ j, 0 ≤ j → j < 0 + m →
        ops.dayOfWeek ((fun c => ops.addDays c 1)^[j] c0) ≠ weekday) :=
      fun h => h 0 (le_refl 0) (by omega) h0
    simp only [decide_eq_false hnot, if_pos h0, Bool.false_eq_true, if_false]
  · have hall : ∀ j, 0 ≤ j → j < 0 + m →
        ops.dayOfWeek ((fun c => ops.addDays c 1)^[j] c0) ≠ weekday := by
      intro j _ hj
      rw [hd j (by omega)]
      omega
    simp only [decide_eq_true hall, if_true, if_neg h0]

/-- C31 on the tenth of January of a year that starts on a Monday, for weeks
counted from Sunday: the calendar counts week 2 (week 1 holds the first six
days), a partial week 0 exists, and the result is 1. -/
theorem weekNumberStartingFromDay_spec_witness :
    weekNumberStartingFromDay weekCalendarOps 8
        { jan1 := 1, day := 9, firstDayOfWeek := 1, minimalDays := 4 } weekCalendarOps.sunday
      = some 1 :=
  weekNumberStartingFromDay_spec weekCalendarOps
    { jan1 := 1, day := 9, firstDayOfWeek := 1, minimalDays := 4 } weekCalendarOps.sunday 8
    (by decide) (by decide) (by decide) (by decide) (by decide) (by decide)

/-! ## C34: the accepted country calling codes are prefix-free -/

/-- No accepted code below 100 is the number made of the leading digits of
another accepted code, checked over the `case` labels. -/
theorem validCountryCodes_prefix_free_values :
    ∀ c ∈ validCountryCodes, c < 100 → ∀ d ∈ validCountryCodes,
      (10 ≤ d → d / 10 ≠ c) ∧ (100 ≤ d → d / 100 ≠ c) := by
  decide!

/-- An accepted code is a non-empty string of ASCII digits that does not start
with `0`, and its value is one of the `case` labels. -/
theorem digits_of_isValidCountryCode (code : List Nat)
    (h : isValidCountryCode code = some true) :
    code.head? ≠ some 48 ∧ code ≠ [] ∧ digitsValue code ∈ validCountryCodes
      ∧ ∀ c : Nat, c ∈ code → 48 ≤ c ∧ c ≤ 57 := by
  have h0 : (0 : Nat) ∉ validCountryCodes := by decide
  unfold isValidCountryCode at h
  cases code with
  | nil => simp [QString_at] at h
  | cons c0 cs =>
    simp only [QString_at, List.get?_cons_zero] at h
    split_ifs at h with h48
    · simp at h
    · simp only [Option.some.injEq, decide_eq_true_eq] at h
      unfold toUInt at h
      split_ifs at h with hcond
      · refine ⟨by simpa using h48, by simp, h, ?_⟩
        intro c hc
        have hdig := List.all_eq_true.mp hcond.2.1 c hc
        simpa [isAsciiDigit] using hdig
      · exact absurd h h0

/-- The search for a country code does not read outside a non-empty string. -/
theorem isValidCountryCode_isSome (code : QString) (h : code ≠ []) :
    ∃ b, isValidCountryCode code = some b := by
  cases code with
  | nil => exact absurd rfl h
  | cons c cs =>
    simp only [isValidCountryCode, QString_at, List.get?_cons_zero]
    split_ifs
    · exact ⟨false, rfl⟩
    · exact ⟨_, rfl⟩

/-- An accepted code of one digit does not start an accepted code of two digits. -/
theorem isValidCountryCode_one_two (x y : Nat)
    (h1 : isValidCountryCode [x] = some true) (h2 : isValidCountryCode [x, y] = some true) :
    False := by
  obtain ⟨a0, _, a1, a2⟩ := digits_of_isValidCountryCode _ h1
  obtain ⟨_, _, b1, b2⟩ := digits_of_isValidCountryCode _ h2
  have hx := b2 x (by simp)
  have hy := b2 y (by simp)
  have hx0 : x ≠ 48 := by simpa using a0
  simp only [digitsValue, List.foldl] at a1 b1
  refine (validCountryCodes_prefix_free_values _ a1 (by omega) _ b1).1 (by omega) (by omega)

/-- An accepted code of one digit does not start an accepted code of three digits. -/
theorem isValidCountryCode_one_three (x y z : Nat)
    (h1 : isValidCountryCode [x] = some true)
    (h2 : isValidCountryCode [x, y, z] = some true) : False := by
  obtain ⟨a0, _, a1, a2⟩ := digits_of_isValidCountryCode _ h1
  obtain ⟨_, _, b1, b2⟩ := digits_of_isValidCountryCode _ h2
  have hx := b2 x (by simp)
  have hy := b2 y (by simp)
  have hz := b2 z (by simp)
  have hx0 : x ≠ 48 := by simpa using a0
  simp only [digitsValue, List.foldl] at a1 b1
  refine (validCountryCodes_prefix_free_values _ a1 (by omega) _ b1).2 (by omega) (by omega)

/-- An accepted code of two digits does not start an accepted code of three digits. -/
theorem isValidCountryCode_two_three (x y z : Nat)
    (h1 : isValidCountryCode [x, y] = some true)
    (h2 : isValidCountryCode [x, y, z] = some true) : False := by
  obtain ⟨a0, _, a1, a2⟩ := digits_of_isValidCountryCode _ h1
  obtain ⟨_, _, b1, b2⟩ := digits_of_isValidCountryCode _ h2
  have hx := b2 x (by simp)
  have hy := b2 y (by simp)
  have hz := b2 z (by simp)
  have hx0 : x ≠ 48 := by simpa using a0
  simp only [digitsValue, List.foldl] at a1 b1
  refine (validCountryCodes_prefix_free_values _ a1 (by omega) _ b1).1 (by omega) (by omega)

/-- Two accepted codes among the first one, two and three digits of a number
are the same string. -/
theorem left_eq_of_isValidCountryCode (remaining : QString) (m n : Nat)
    (hm : m ∈ [1, 2, 3]) (hn : n ∈ [1, 2, 3]) (hmn : m ≤ n)
    (h1 : isValidCountryCode (left remaining m) = some true)
    (h2 : isValidCountryCode (left remaining n) = some true) :
    left remaining m = left remaining n := by
  rcases remaining with _ | ⟨x, _ | ⟨y, _ | ⟨z, rest⟩⟩⟩
  · simp [left]
  · simp only [List.mem_cons, List.mem_singleton, List.not_mem_nil, or_false] at hm hn
    rcases hm with rfl | rfl | rfl <;> rcases hn with rfl | rfl | rfl <;> simp [left]
  · simp only [List.mem_cons, List.mem_singleton, List.not_mem_nil, or_false] at hm hn
    rcases hm with rfl | rfl | rfl <;> rcases hn with rfl | rfl | rfl <;>
      simp only [left, List.take] at h1 h2 ⊢ <;> try omega
    all_goals exact (isValidCountryCode_one_two x y h1 h2).elim
  · simp only [List.mem_cons, List.mem_singleton, List.not_mem_nil, or_false] at hm hn
    rcases hm with rfl | rfl | rfl <;> rcases hn with rfl | rfl | rfl <;>
      simp only [left, List.take] at h1 h2 ⊢ <;> try omega
    · exact (isValidCountryCode_one_two x y h1 h2).elim
    · exact (isValidCountryCode_one_three x y z h1 h2).elim
    · exact (isValidCountryCode_two_three x y z h1 h2).elim

/-- C34: among the first one, two and three digits of a number at most one
string is an accepted country calling code (an accepted code of one or two
digits never starts another accepted code), and when one of them is accepted
the search of `formatPhoneNumber`, which tries the lengths 1, 2 and 3 in this
order, returns and finds that code. -/
theorem isValidCountryCode_prefix_free (remaining : QString) :
    (∀ m n, m ∈ [1, 2, 3] → n ∈ [1, 2, 3] →
        isValidCountryCode (left remaining m) = some true →
        isValidCountryCode (left remaining n) = some true →
        left remaining m = left remaining n)
      ∧ (∀ n, n ∈ [1, 2, 3] → isValidCountryCode (left remaining n) = some true →
          findCountryCode remaining = some (some (left remaining n))) := by
  have hpf : ∀ m n, m ∈ [1, 2, 3] → n ∈ [1, 2, 3] →
      isValidCountryCode (left remaining m) = some true →
      isValidCountryCode (left remaining n) = some true →
      left remaining m = left remaining n := by
    intro m n hm hn h1 h2
    rcases Nat.le_total m n with hmn | hmn
    · exact left_eq_of_isValidCountryCode remaining m n hm hn hmn h1 h2
    · exact (left_eq_of_isValidCountryCode remaining n m hn hm hmn h2 h1).symm
  refine ⟨hpf, ?_⟩
  intro n hn h
  have hne : remaining ≠ [] := by
    intro he
    have := (digits_of_isValidCountryCode _ h).2.1
    simp [he, left] at this
  have hleft : ∀ k, 1 ≤ k → left remaining k ≠ [] := by
    intro k hk he
    cases remaining with
    | nil => exact hne rfl
    | cons c cs =>
      obtain ⟨j, rfl⟩ : ∃ j, k = j + 1 := ⟨k - 1, by omega⟩
      simp [left] at he
  obtain ⟨b1, hb1⟩ := isValidCountryCode_isSome _ (hleft 1 (le_refl 1))
  obtain ⟨b2, hb2⟩ := isValidCountryCode_isSome _ (hleft 2 (by omega))
  obtain ⟨b3, hb3⟩ := isValidCountryCode_isSome _ (hleft 3 (by omega))
  unfold findCountryCode
  rw [hb1]
  cases b1 with
  | true =>
    simp only
    rw [hpf 1 n (by simp) hn hb1 h]
  | false =>
    simp only
    rw [hb2]
    cases b2 with
    | true =>
      simp only
      rw [hpf 2 n (by simp) hn hb2 h]
    | false =>
      simp only
      rw [hb3]
      cases b3 with
      | true =>
        simp only
        rw [hpf 3 n (by simp) hn hb3 h]
      | false =>
        simp only [List.mem_cons, List.mem_singleton, List.not_mem_nil, or_false] at hn
        rcases hn with rfl | rfl | rfl
        · rw [hb1] at h; cases h
        · rw [hb2] at h; cases h
        · rw [hb3] at h; cases h

/-- C34 at the number `358401234567`: the first digit and the first two digits
are no codes, the first three digits are one, and the search finds `358`. -/
theorem isValidCountryCode_prefix_free_witness :
    isValidCountryCode (left (fromUtf8 "358401234567") 1) = some false
      ∧ isValidCountryCode (left (fromUtf8 "358401234567") 2) = some false
      ∧ isValidCountryCode (left (fromUtf8 "358401234567") 3) = some true
      ∧ findCountryCode (fromUtf8 "358401234567") = some (some (fromUtf8 "358")) :=
  ⟨by decide, by decide, by decide,
    (isValidCountryCode_prefix_free (fromUtf8 "358401234567")).2 3 (by decide) (by decide)⟩

/-! ## C35: a format string that ends with a lone `%` -/

/-- C35 at its failing input: for the format string `%`, and for every format
string made of text without `%` followed by one `%`, the translation loop
reads the character after the `%` at the index `length`, outside the string,
in every state and for every calendar; `formatDateTime` of a freshly
constructed profile has no result for it. -/
theorem formatDateTime_lone_percent_reads_out_of_range {Cal : Type} (env : LocaleEnv)
    (ops : CalendarOps Cal) (fuel : Nat) (mCalendar : Cal) :
    (∀ t, translateLoop env ops fuel mCalendar t (fromUtf8 "%") = none)
      ∧ (∀ t, translateLoop env ops fuel mCalendar t (fromUtf8 "%H:%M %") = none)
      ∧ (∀ defaultLocale,
          formatDateTime env ops fuel (MLocalePrivate.init defaultLocale) mCalendar
            (fromUtf8 "%") = none) := by
  have h1 : fromUtf8 "%" = [37] := by decide
  have h2 : fromUtf8 "%H:%M %" = [37, 72, 58, 37, 77, 32, 37] := by decide
  refine ⟨?_, ?_, ?_⟩
  · intro t
    rw [h1]
    simp [translateLoop]
  · intro t
    rw [h2]
    have hH : specifierOf 72 = Specifier.fixed (fromUtf8 "HH") := by decide
    have hM : specifierOf 77 = Specifier.fixed (fromUtf8 "mm") := by decide
    simp [translateLoop, translateSpecifier, hH, hM]
  · intro defaultLocale
    rw [h1]
    simp [formatDateTime, MLocalePrivate.init, QCache.empty, QCache.contains, translateLoop]

/-! ## C32 and C33: grouping keeps the digits, and grouping twice -/

/-- Deleting separators from a concatenation. -/
theorem stripSeparators_append (s t : QString) :
    stripSeparators (s ++ t) = stripSeparators s ++ stripSeparators t := by
  simp [stripSeparators]

/-- A string of ASCII digits has no separator. -/
theorem stripSeparators_digits (s : List Nat) (h : s.all isAsciiDigit = true) :
    stripSeparators s = s := by
  unfold stripSeparators
  rw [List.filter_eq_self]
  intro c hc
  have hd := List.all_eq_true.mp h c hc
  simp only [isAsciiDigit, Bool.and_eq_true, decide_eq_true_eq] at hd
  have key : ∀ n : Nat, 48 ≤ n ∧ n ≤ 57 → n ≠ 32 ∧ n ≠ 40 ∧ n ≠ 41 ∧ n ≠ 45 := by
    intro n hn
    omega
  obtain ⟨h1, h2, h3, h4⟩ := key c hd
  simp [h1, h2, h3, h4]

/-- An optional `+` followed by ASCII digits has no separator. -/
theorem stripSeparators_isPlusDigits (s : List Nat) (h : isPlusDigits s = true) :
    stripSeparators s = s := by
  unfold isPlusDigits at h
  rcases Bool.or_eq_true_iff.mp h with h | h
  · exact stripSeparators_digits s h
  · cases s with
    | nil => rfl
    | cons c cs =>
      simp only [List.head?_cons, List.tail_cons, Bool.and_eq_true, beq_iff_eq,
        Option.some.injEq] at h
      obtain ⟨hc, hcs⟩ := h
      subst hc
      have := stripSeparators_digits cs hcs
      simp only [stripSeparators] at this ⊢
      rw [List.filter_cons_of_pos (by decide), this]

/-- The grouping of a national number that starts with 2 to 9 only inserts separators. -/
theorem stripSeparators_groupedNormalString (s : QString) :
    stripSeparators (groupedNormalString s) = stripSeparators s := by
  have e1 : stripSeparators (fromUtf8 "-") = [] := by decide
  have e2 : stripSeparators (fromUtf8 "(") = [] := by decide
  have e3 : stripSeparators (fromUtf8 ") ") = [] := by decide
  unfold groupedNormalString
  simp only []
  split_ifs
  · rfl
  · simp only [stripSeparators_append, e1, left, removeFront, List.append_nil]
    rw [← stripSeparators_append, List.take_append_drop]
  · simp only [stripSeparators_append, e1, e2, e3, left, removeFront, List.append_nil,
      List.nil_append]
    rw [List.append_assoc, ← stripSeparators_append (List.take 3 (List.drop 3 s)),
      List.take_append_drop, ← stripSeparators_append, List.take_append_drop]
  · rfl

/-- The grouping of a national number that starts with 1 only inserts separators. -/
theorem stripSeparators_groupedOneString (s : QString) :
    stripSeparators (groupedOneString s) = stripSeparators s := by
  have e1 : stripSeparators (fromUtf8 "-") = [] := by decide
  have e2 : stripSeparators (fromUtf8 " (") = [] := by decide
  have e3 : stripSeparators (fromUtf8 ") ") = [] := by decide
  have e4 : stripSeparators (fromUtf8 "  )") = [] := by decide
  have e5 : stripSeparators (fromUtf8 " )") = [] := by decide
  have e6 : stripSeparators (fromUtf8 ")") = [] := by decide
  unfold groupedOneString
  simp only []
  split_ifs
  · rfl
  · simp only [stripSeparators_append, e2, e4, left, removeFront, List.append_nil]
    rw [← stripSeparators_append, List.take_append_drop]
  · simp only [stripSeparators_append, e2, e5, left, removeFront, List.append_nil]
    rw [← stripSeparators_append, List.take_append_drop]
  · simp only [stripSeparators_append, e2, e6, left, removeFront, List.append_nil]
    rw [← stripSeparators_append, List.take_append_drop]
  · simp only [stripSeparators_append, e2, e3, left, removeFront, List.append_nil]
    rw [List.append_assoc, ← stripSeparators_append (List.take 3 (List.drop 1 s)),
      List.take_append_drop, ← stripSeparators_append, List.take_append_drop]
  · simp only [stripSeparators_append, e1, e2, e3, left, removeFront, List.append_nil]
    rw [List.append_assoc, List.append_assoc,
      ← stripSeparators_append (List.take 3 (List.drop 3 (List.drop 1 s))),
      List.take_append_drop, ← stripSeparators_append (List.take 3 (List.drop 1 s)),
      List.take_append_drop, ← stripSeparators_append, List.take_append_drop]
  · rfl

/-- The grouping of the digits after a country code only inserts separators. -/
theorem stripSeparators_groupedInternationalString (s : QString) :
    stripSeparators (groupedInternationalString s) = stripSeparators s := by
  have e1 : stripSeparators (fromUtf8 "-") = [] := by decide
  have e2 : stripSeparators (fromUtf8 "(") = [] := by decide
  have e3 : stripSeparators (fromUtf8 ") ") = [] := by decide
  have e4 : stripSeparators (fromUtf8 ")") = [] := by decide
  unfold groupedInternationalString
  simp only []
  split_ifs
  · simp only [stripSeparators_append, e2, e4, List.append_nil, List.nil_append]
  · simp only [stripSeparators_append, e2, e3, left, removeFront, List.append_nil,
      List.nil_append]
    rw [← stripSeparators_append, List.take_append_drop]
  · simp only [stripSeparators_append, e1, e2, e3, left, removeFront, List.append_nil,
      List.nil_append]
    rw [List.append_assoc, ← stripSeparators_append (List.take 3 (List.drop 3 s)),
      List.take_append_drop, ← stripSeparators_append, List.take_append_drop]
  · rfl

/-- The last part of `formatPhoneNumber` only inserts separators. -/
theorem stripSeparators_groupRemaining (g : PhoneNumberGrouping) (f : Bool)
    (result remaining : QString) :
    stripSeparators (groupRemaining g f result remaining)
      = stripSeparators result ++ stripSeparators remaining := by
  unfold groupRemaining
  split_ifs <;>
    simp only [stripSeparators_append, stripSeparators_groupedInternationalString,
      stripSeparators_groupedOneString, stripSeparators_groupedNormalString]

/-- The country code indicator that is split off and the rest make up the number. -/
theorem splitCountryCodeIndicator_spec (x : QString) :
    stripSeparators (splitCountryCodeIndicator x).2.1 ++ (splitCountryCodeIndicator x).2.2 = x
      ∧ ((splitCountryCodeIndicator x).1 = false → (splitCountryCodeIndicator x).2.1 = []) := by
  have e1 : fromUtf8 "+" = [43] := by decide
  have e2 : fromUtf8 "00" = [48, 48] := by decide
  have e3 : fromUtf8 "011" = [48, 49, 49] := by decide
  have e4 : stripSeparators (fromUtf8 "00 ") = [48, 48] := by decide
  have e5 : stripSeparators (fromUtf8 "011 ") = [48, 49, 49] := by decide
  have e6 : stripSeparators [43] = [43] := by decide
  have hpre : ∀ (p : QString), startsWith x p = true → p ++ x.drop p.length = x := by
    intro p hp
    unfold startsWith at hp
    obtain ⟨t, rfl⟩ := List.isPrefixOf_iff_prefix.mp hp
    simp
  unfold splitCountryCodeIndicator
  split_ifs with h1 h2 h3
  · refine ⟨?_, by simp⟩
    have := hpre _ h1
    rw [e1] at this ⊢
    simpa [removeFront, e6] using this
  · refine ⟨?_, by simp⟩
    have := hpre _ h2
    rw [e2] at this
    simpa [removeFront, e4] using this
  · refine ⟨?_, by simp⟩
    have := hpre _ h3
    rw [e3] at this
    simpa [removeFront, e5] using this
  · exact ⟨by simp [stripSeparators], fun _ => rfl⟩

/-- A country code that the search finds is made of the first digits of the number. -/
theorem findCountryCode_eq_some (remaining code : QString)
    (h : findCountryCode remaining = some (some code)) :
    code ++ removeFront remaining code.length = remaining := by
  have key : ∀ k, left remaining k ++ removeFront remaining (left remaining k).length
      = remaining := by
    intro k
    simp only [left, removeFront, List.length_take]
    rcases Nat.le_total k remaining.length with hk | hk
    · rw [Nat.min_eq_left hk, List.take_append_drop]
    · rw [Nat.min_eq_right hk, List.take_of_length_le hk, List.drop_length, List.append_nil]
  unfold findCountryCode at h
  split at h
  · cases h
  · simp only [Option.some.injEq] at h
    subst h
    exact key 1
  · split at h
    · cases h
    · simp only [Option.some.injEq] at h
      subst h
      exact key 2
    · split at h
      · cases h
      · simp only [Option.some.injEq] at h
        subst h
        exact key 3
      · cases h

/-- Grouping keeps the digits: for a number that passes the sanity check,
deleting the separators from a result of `formatPhoneNumber` gives the number. -/
theorem stripSeparators_formatPhoneNumber (x : List Nat) (g : PhoneNumberGrouping)
    (out : QString) (hv : isPlusDigits x = true) (h : formatPhoneNumber x g = some out) :
    stripSeparators out = x := by
  have hx := stripSeparators_isPlusDigits x hv
  have hsplit := splitCountryCodeIndicator_spec x
  unfold formatPhoneNumber at h
  rw [phoneNumberRx_hasMatch, hv] at h
  simp only [Bool.not_true, Bool.false_eq_true, if_false] at h
  split_ifs at h with h00
  · cases h
    exact hx
  · rcases hs : splitCountryCodeIndicator x with ⟨f, result, remaining⟩
    rw [hs] at h hsplit
    simp only at hsplit
    have hrem : stripSeparators remaining = remaining := by
      have h1 := congrArg stripSeparators hsplit.1
      rw [stripSeparators_append, hx] at h1
      have h2 := hsplit.1
      rw [← h1] at h2
      have h3 : stripSeparators (stripSeparators result) = stripSeparators result := by
        simp [stripSeparators]
      rw [h3] at h2
      exact (List.append_cancel_left h2).symm
    cases f with
    | false =>
      simp only [Option.some.injEq] at h
      subst h
      rw [stripSeparators_groupRemaining, hrem, hsplit.2 rfl]
      simpa [stripSeparators, hsplit.2 rfl] using hsplit.1
    | true =>
      simp only at h
      split at h
      · cases h
      · cases h
        exact hx
      · next code hcode =>
        simp only [Option.some.injEq] at h
        subst h
        have hc := findCountryCode_eq_some remaining code hcode
        have e : stripSeparators (fromUtf8 " ") = [] := by decide
        rw [stripSeparators_groupRemaining, stripSeparators_append, stripSeparators_append, e,
          List.append_nil, List.append_assoc, ← stripSeparators_append, hc, hrem]
        exact hsplit.1

/-- The function `formatPhoneNumber` has no result exactly for the three inputs
on which the country code test reads the first character of an empty string. -/
theorem formatPhoneNumber_eq_none_iff (x : QString) (g : PhoneNumberGrouping) :
    formatPhoneNumber x g = none
      ↔ (x = fromUtf8 "+" ∨ x = fromUtf8 "011"
          ∨ (x = fromUtf8 "00" ∧ g ≠ PhoneNumberGrouping.NorthAmericanPhoneNumberGrouping)) := by
  have e1 : fromUtf8 "+" = [43] := by decide
  have e2 : fromUtf8 "00" = [48, 48] := by decide
  have e3 : fromUtf8 "011" = [48, 49, 49] := by decide
  constructor
  · intro h
    have hsplit := splitCountryCodeIndicator_spec x
    unfold formatPhoneNumber at h
    split_ifs at h with hm h00
    rcases hs : splitCountryCodeIndicator x with ⟨f, result, remaining⟩
    rw [hs] at h hsplit
    cases f with
    | false => simp at h
    | true =>
      simp only at h hsplit
      split at h
      · next hn =>
        have hr := (findCountryCode_eq_none_iff remaining).mp hn
        subst hr
        have hx : x = stripSeparators result := by simpa using hsplit.1.symm
        unfold splitCountryCodeIndicator at hs
        split_ifs at hs with h1 h2 h3
        · left
          simp only [Prod.mk.injEq, true_and] at hs
          rw [hx, ← hs.1]
          decide
        · right; right
          simp only [Prod.mk.injEq, true_and] at hs
          refine ⟨by rw [hx, ← hs.1]; decide, ?_⟩
          intro hg
          exact h00 ⟨hg, h2⟩
        · right; left
          simp only [Prod.mk.injEq, true_and] at hs
          rw [hx, ← hs.1]
          decide
        · simp at hs
      · cases h
      · cases h
  · intro h
    rcases h with h | h | ⟨h, hg⟩
    · subst h
      cases g <;> decide
    · subst h
      cases g <;> decide
    · subst h
      cases g
      · decide
      · decide
      · exact absurd rfl hg

/-- C32: for every number that passes the sanity check (an optional `+`
followed by ASCII digits) and every grouping, the result of
`formatPhoneNumber`, when there is one, gives back the number once every space,
`(`, `)` and `-` is deleted; and there is no result exactly for the numbers
`+` and `011`, and `00` under a grouping other than the North-American one,
where the country code test reads the first character of an empty string. -/
theorem formatPhoneNumber_keeps_digits (x : List Nat) (g : PhoneNumberGrouping)
    (hv : isPlusDigits x = true) :
    (∀ out, formatPhoneNumber x g = some out → stripSeparators out = x)
      ∧ (formatPhoneNumber x g = none
          ↔ (x = fromUtf8 "+" ∨ x = fromUtf8 "011"
              ∨ (x = fromUtf8 "00" ∧ g ≠ PhoneNumberGrouping.NorthAmericanPhoneNumberGrouping))) :=
  ⟨fun out h => stripSeparators_formatPhoneNumber x g out hv h,
    formatPhoneNumber_eq_none_iff x g⟩

/-- C32 at the number `+358401234567` under the North-American grouping, whose
result `+358 (401) 234-567` gives back the number, and at its failing input `+`,
a number that passes the sanity check and has no result. -/
theorem formatPhoneNumber_keeps_digits_witness :
    formatPhoneNumber (fromUtf8 "+358401234567")
        PhoneNumberGrouping.NorthAmericanPhoneNumberGrouping
        = some (fromUtf8 "+358 (401) 234-567")
      ∧ stripSeparators (fromUtf8 "+358 (401) 234-567") = fromUtf8 "+358401234567"
      ∧ isPlusDigits (fromUtf8 "+") = true
      ∧ formatPhoneNumber (fromUtf8 "+") PhoneNumberGrouping.DefaultPhoneNumberGrouping = none :=
  ⟨by decide,
    (formatPhoneNumber_keeps_digits (fromUtf8 "+358401234567")
      PhoneNumberGrouping.NorthAmericanPhoneNumberGrouping (by decide)).1 _ (by decide),
    by decide,
    (formatPhoneNumber_keeps_digits (fromUtf8 "+")
      PhoneNumberGrouping.DefaultPhoneNumberGrouping (by decide)).2.mpr (Or.inl rfl)⟩

/-- A result of `formatPhoneNumber` is returned unchanged when formatted again. -/
theorem formatPhoneNumber_fixed (x : List Nat) (g : PhoneNumberGrouping) (y : List Nat)
    (h : formatPhoneNumber x g = some y) : formatPhoneNumber y g = some y := by
  by_cases hy : isPlusDigits y = true
  · by_cases hx : isPlusDigits x = true
    · have h1 := stripSeparators_formatPhoneNumber x g y hx h
      rw [stripSeparators_isPlusDigits y hy] at h1
      rw [h1]
      rw [h1] at h
      exact h
    · have : formatPhoneNumber x g = some x := by
        simp [formatPhoneNumber, phoneNumberRx_hasMatch, hx]
      rw [this] at h
      cases h
      exact this
  · simp [formatPhoneNumber, phoneNumberRx_hasMatch, hy]

/-- C33: formatting the result of `formatPhoneNumber` again under the same
grouping gives the same result, for every string and every grouping; on the
inputs `+`, `011` and (outside the North-American grouping) `00`, and only on
them, neither side has a value. -/
theorem formatPhoneNumber_idempotent (x : List Nat) (g : PhoneNumberGrouping) :
    (formatPhoneNumber x g).bind (fun y => formatPhoneNumber y g) = formatPhoneNumber x g
      ∧ (∀ y, formatPhoneNumber x g = some y → formatPhoneNumber y g = some y)
      ∧ (formatPhoneNumber x g = none
          ↔ (x = fromUtf8 "+" ∨ x = fromUtf8 "011"
              ∨ (x = fromUtf8 "00" ∧ g ≠ PhoneNumberGrouping.NorthAmericanPhoneNumberGrouping))) := by
  refine ⟨?_, fun y h => formatPhoneNumber_fixed x g y h, formatPhoneNumber_eq_none_iff x g⟩
  cases h : formatPhoneNumber x g with
  | none => rfl
  | some y => exact formatPhoneNumber_fixed x g y h

/-- C33 at the number `5551234` under the North-American grouping: the result
`555-1234` is returned unchanged when formatted again. -/
theorem formatPhoneNumber_idempotent_witness :
    formatPhoneNumber (fromUtf8 "5551234") PhoneNumberGrouping.NorthAmericanPhoneNumberGrouping
        = some (fromUtf8 "555-1234")
      ∧ formatPhoneNumber (fromUtf8 "555-1234")
          PhoneNumberGrouping.NorthAmericanPhoneNumberGrouping = some (fromUtf8 "555-1234") :=
  ⟨by decide,
    (formatPhoneNumber_idempotent (fromUtf8 "5551234")
      PhoneNumberGrouping.NorthAmericanPhoneNumberGrouping).2.1 _ (by decide)⟩

/-! ## C36: a cached translation does not depend on the calendar -/

/-- A specifier that takes no text from the date is translated without the
calendar: the result is the same for every calendar, of every kind. -/
theorem translateSpecifier_calendar {Cal Cal2 : Type} (env : LocaleEnv) (ops : CalendarOps Cal)
    (ops2 : CalendarOps Cal2) (fuel fuel2 : Nat) (mCalendar : Cal) (mCalendar2 : Cal2)
    (next : QChar) (t : Translation) (h : (specifierOf next).fromDate = false) :
    translateSpecifier env ops fuel mCalendar next t
      = translateSpecifier env ops2 fuel2 mCalendar2 next t := by
  unfold translateSpecifier
  cases hs : specifierOf next <;> rw [hs] at h <;> simp only [Specifier.fromDate] at h ⊢ <;>
    cases h

/-- A format string without one of the specifiers c, C, u, U, v, V, w, W, x and
X is translated without the calendar. -/
theorem translateLoop_calendar {Cal Cal2 : Type} (env : LocaleEnv) (ops : CalendarOps Cal)
    (ops2 : CalendarOps Cal2) (fuel fuel2 : Nat) (mCalendar : Cal) (mCalendar2 : Cal2)
    (fmt : QString) :
    ∀ (t : Translation), dateDependentSpecifiers.all (fun c => !hasSpecifier c fmt) = true →
      translateLoop env ops fuel mCalendar t fmt
        = translateLoop env ops2 fuel2 mCalendar2 t fmt := by
  suffices H : ∀ (n : Nat) (fmt : QString), fmt.length = n →
      ∀ (t : Translation), dateDependentSpecifiers.all (fun c => !hasSpecifier c fmt) = true →
        translateLoop env ops fuel mCalendar t fmt
          = translateLoop env ops2 fuel2 mCalendar2 t fmt from
    H _ fmt rfl
  intro n
  induction n using Nat.strong_induction_on with
  | _ n ih =>
    intro fmt hn t hall
    match fmt, hn with
    | [], _ => simp only [translateLoop]
    | current :: rest, hn =>
      unfold translateLoop
      by_cases hc : current = 37
      · simp only [hc, if_true]
        match rest, hn with
        | [], _ => rfl
        | next :: rest1, hn =>
          simp only
          subst hc
          simp only [hasSpecifier, if_true] at hall
          rw [all_not_head_or] at hall
          simp only [Bool.and_eq_true, Bool.not_eq_true'] at hall
          have hfd : (specifierOf next).fromDate = false := by
            rw [specifierOf_fromDate]
            exact hall.1
          rw [translateSpecifier_calendar env ops ops2 fuel fuel2 mCalendar mCalendar2 next _ hfd]
          cases translateSpecifier env ops2 fuel2 mCalendar2 next t.endQuotation with
          | none => rfl
          | some t2 =>
            simp only
            exact ih rest1.length (by simp at hn; omega) rest1 rfl t2 hall.2
      · simp only [hc, if_false]
        have hh : ∀ c, hasSpecifier c (current :: rest) = hasSpecifier c rest := by
          intro c
          conv_lhs => unfold hasSpecifier
          simp only [if_neg hc]
        simp only [hh] at hall
        exact ih rest.length (by simp at hn; omega) rest rfl _ hall

/-- C36: let a call of `formatDateTime` translate a format string that the
cache of translated format strings does not hold, and store the translation.
Then from the same state of the profile a call with any other calendar, of any
kind and at any instant, returns too and hands the same pattern to ICU, and the
translation loop ends in the same state with the same pattern. -/
theorem formatDateTime_stored_pattern_independent {Cal Cal2 : Type} (env : LocaleEnv)
    (ops : CalendarOps Cal) (ops2 : CalendarOps Cal2) (fuel fuel2 : Nat) (d : MLocalePrivate)
    (mCalendar : Cal) (mCalendar2 : Cal2) (fmt : QString) (r : Formatted)
    (hmiss : d._icuFormatStringCache.contains fmt = false)
    (h : formatDateTime env ops fuel d mCalendar fmt = some r)
    (hstored : r.d._icuFormatStringCache.contains fmt = true) :
    translateLoop env ops2 fuel2 mCalendar2
        { d := d, icuFormat := [], isInNormalText := false, canCacheIcuFormat := true } fmt
      = translateLoop env ops fuel mCalendar
        { d := d, icuFormat := [], isInNormalText := false, canCacheIcuFormat := true } fmt
      ∧ ∃ r2, formatDateTime env ops2 fuel2 d mCalendar2 fmt = some r2
          ∧ r2.icuFormat = r.icuFormat := by
  unfold formatDateTime at h
  rw [hmiss] at h
  simp only [Bool.not_false, if_true] at h
  split at h
  · cases h
  · next t ht =>
    have hl := translateLoop_spec env ops fuel mCalendar fmt _ _ ht
    simp only [Option.some.injEq] at h
    subst h
    simp only at hstored ⊢
    rw [QCache.contains, formatDateTimeICU_icuFormatStringCache, ← QCache.contains] at hstored
    have hcan : t.canCacheIcuFormat = true := by
      cases hcan : t.canCacheIcuFormat with
      | true => rfl
      | false =>
        rw [hcan] at hstored
        simp only [Bool.false_eq_true, if_false] at hstored
        rw [hl.1, hmiss] at hstored
        cases hstored
    have hall : dateDependentSpecifiers.all (fun c => !hasSpecifier c fmt) = true := by
      have := hl.2
      rw [hcan] at this
      simpa using this.symm
    have heq := translateLoop_calendar env ops2 ops fuel2 fuel mCalendar2 mCalendar fmt
      { d := d, icuFormat := [], isInNormalText := false, canCacheIcuFormat := true } hall
    refine ⟨heq, ?_⟩
    unfold formatDateTime
    rw [hmiss, heq, ht]
    simp only [Bool.not_false, if_true]
    exact ⟨_, rfl, rfl⟩

/-- C36 at the format string `%r %Y` on the freshly constructed state with
default locale `en_GB`: the call for the first day stores the translation, and
the call for the sixth day hands the same pattern `hh:mm a yyyy` to ICU. -/
theorem formatDateTime_stored_pattern_independent_witness :
    (formatDateTime sampleLocaleEnv sampleCalendarOps 0
        (MLocalePrivate.init (fromUtf8 "en_GB")) 0 (fromUtf8 "%r %Y")).map
        (fun r => (r.icuFormat, r.d._icuFormatStringCache.contains (fromUtf8 "%r %Y")))
        = some (fromUtf8 "hh:mm a yyyy", true)
      ∧ ∃ r2, formatDateTime sampleLocaleEnv sampleCalendarOps 0
            (MLocalePrivate.init (fromUtf8 "en_GB")) 5 (fromUtf8 "%r %Y") = some r2
          ∧ r2.icuFormat = fromUtf8 "hh:mm a yyyy" :=
  ⟨by decide,
    (formatDateTime_stored_pattern_independent sampleLocaleEnv sampleCalendarOps
      sampleCalendarOps 0 0 (MLocalePrivate.init (fromUtf8 "en_GB")) 0 5 (fromUtf8 "%r %Y")
      ((formatDateTime sampleLocaleEnv sampleCalendarOps 0
        (MLocalePrivate.init (fromUtf8 "en_GB")) 0 (fromUtf8 "%r %Y")).get (by decide))
      (by decide) (by simp) (by decide)).2⟩

/-! ## C37: the cache of translated format strings after an assignment -/

/-- C37 at its failing input.  A category write and a clock-preference write
leave an empty cache of translated format strings.  An assignment keeps the
cache: after the profile with default locale `en_GB` has translated `%r` to
`hh:mm a` and the profile with default locale `ja_JP` has been assigned to it,
its Time category is `ja_JP`, the cache still holds `hh:mm a` for `%r`, the
next call hands `hh:mm a` to ICU, and a fresh translation in that very state
gives `ahh:mm`. -/
theorem icuFormatStringCache_stale_after_assign :
    (∀ (env : LocaleEnv) (d : MLocalePrivate) (category : Category) (name k : QString),
        (setCategoryLocale env d category name)._icuFormatStringCache.contains k = false)
      ∧ (∀ (d : MLocalePrivate) (timeFormat24h : TimeFormat24h) (k : QString),
        (setTimeFormat24h d timeFormat24h)._icuFormatStringCache.contains k = false)
      ∧ (formatDateTime sampleLocaleEnv sampleCalendarOps 0
            (MLocalePrivate.init (fromUtf8 "en_GB")) 0 (fromUtf8 "%r")).map
          (fun r =>
            (categoryName (r.d.assign (MLocalePrivate.init (fromUtf8 "ja_JP"))) Category.MLcTime,
              (r.d.assign (MLocalePrivate.init (fromUtf8 "ja_JP")))._icuFormatStringCache.find
                (fromUtf8 "%r"),
              (formatDateTime sampleLocaleEnv sampleCalendarOps 0
                (r.d.assign (MLocalePrivate.init (fromUtf8 "ja_JP"))) 0
                (fromUtf8 "%r")).map (fun r2 => r2.icuFormat),
              (translateLoop sampleLocaleEnv sampleCalendarOps 0 0
                { d := r.d.assign (MLocalePrivate.init (fromUtf8 "ja_JP")), icuFormat := [],
                  isInNormalText := false, canCacheIcuFormat := true }
                (fromUtf8 "%r")).map (fun t => t.icuFormat)))
        = some (fromUtf8 "ja_JP", some (fromUtf8 "hh:mm a"), some (fromUtf8 "hh:mm a"),
            some (fromUtf8 "ahh:mm")) := by
  refine ⟨?_, ?_, by decide⟩
  · intro env d category name k
    simp [setCategoryLocale, dropCaches, QCache.clear, QCache.contains]
  · intro d timeFormat24h k
    simp [setTimeFormat24h, dropCaches, QCache.clear, QCache.contains]

/-! ## C39: symbol mixing and directional embedding -/

/-- C39 as stated fails: the Time name `en_US_POSIX@x-mix-time-and-language=yes`
has the single option `x-mix-time-and-language=yes` and so carries no option
`mix-time-and-language=yes`, yet the unanchored opt-in pattern matches it; with
the Messages name `ar_EG_POSIX` symbol mixing is wanted and the pattern `d.M.y`
is embedded as well. -/
theorem mixing_and_embedding_counterexample :
    localeOptions (fromUtf8 "en_US_POSIX@x-mix-time-and-language=yes")
        = [fromUtf8 "x-mix-time-and-language=yes"]
      ∧ fromUtf8 "mix-time-and-language=yes"
          ∉ localeOptions (fromUtf8 "en_US_POSIX@x-mix-time-and-language=yes")
      ∧ mixingSymbolsWanted sampleLocaleEnv.localeScriptResource (fromUtf8 "ar_EG_POSIX")
          (fromUtf8 "en_US_POSIX@x-mix-time-and-language=yes") = true
      ∧ maybeEmbedDateFormat sampleLocaleEnv
          (some { pattern := fromUtf8 "d.M.y", symbols := Symbols.own })
          (fromUtf8 "ar_EG_POSIX") (fromUtf8 "en_US_POSIX@x-mix-time-and-language=yes")
        = some { pattern := 0x202A :: fromUtf8 "d.M.y" ++ [0x202C], symbols := Symbols.own } := by
  decide

/-- C39, amended: for every Messages name and every Time name that the opt-in
pattern `@.*mix-time-and-language=yes` does not match, if symbol mixing is
wanted then `maybeEmbedDateFormat` leaves every format as it is, and the format
that `createDateFormat` derives on a cache miss for these names is the format
after the mixing step, without embedding. -/
theorem mixing_excludes_embedding (env : LocaleEnv)
    (categoryNameMessages categoryNameTime : QString)
    (hyes : mixYesRx.hasMatch categoryNameTime = false)
    (h : mixingSymbolsWanted env.localeScriptResource categoryNameMessages categoryNameTime
          = true) :
    (∀ df, maybeEmbedDateFormat env df categoryNameMessages categoryNameTime = df)
      ∧ (∀ (d : MLocalePrivate) (dateType : DateType) (timeType : TimeType)
          (calendarType : CalendarType) (timeFormat24h : TimeFormat24h),
          fixCategoryNameForNumbers env d
              (env.setCalendarOption (categoryName d Category.MLcTime) calendarType)
            = categoryNameTime →
          fixCategoryNameForNumbers env d
              (env.setCalendarOption (categoryName d Category.MLcMessages) calendarType)
            = categoryNameMessages →
          deriveDateFormat env d dateType timeType calendarType timeFormat24h
            = mixSymbols env d
                (customizeDateFormat env d dateType timeType timeFormat24h
                  ((if dateType = DateType.DateYearAndMonth
                        ∨ dateType = DateType.DateWeekdayAbbreviatedAndDayOfMonth
                        ∨ dateType = DateType.DateWeekdayWideAndDayOfMonth then
                      env.createDateTimeInstance DateType.DateFull TimeType.TimeNone
                        categoryNameTime
                    else env.createDateTimeInstance dateType timeType categoryNameTime).map
                    (fun p => { pattern := p, symbols := Symbols.own })))
                categoryNameMessages categoryNameTime) := by
  have hdir : scriptIsRtl (localeScript env.localeScriptResource categoryNameTime)
      = scriptIsRtl (localeScript env.localeScriptResource categoryNameMessages) := by
    simp only [mixingSymbolsWanted, hyes] at h
    simp at h
    exact h.2
  have hemb : ∀ df, maybeEmbedDateFormat env df categoryNameMessages categoryNameTime = df := by
    intro df
    cases df with
    | none => rfl
    | some f => simp [maybeEmbedDateFormat, embeddedPattern, hdir]
  refine ⟨hemb, ?_⟩
  intro d dateType timeType calendarType timeFormat24h hT hM
  unfold deriveDateFormat
  simp only [hT, hM]
  cases mixSymbols env d _ categoryNameMessages categoryNameTime with
  | none => rfl
  | some df2 => simp only [hemb]

/-- C39, amended, at the Messages name `en_US_POSIX` and the Time name
`fi_FI_POSIX`, both of Latin script: mixing is wanted and the format with the
pattern `d.M.y` is not embedded. -/
theorem mixing_excludes_embedding_witness :
    mixYesRx.hasMatch (fromUtf8 "fi_FI_POSIX") = false
      ∧ mixingSymbolsWanted sampleLocaleEnv.localeScriptResource (fromUtf8 "en_US_POSIX")
          (fromUtf8 "fi_FI_POSIX") = true
      ∧ maybeEmbedDateFormat sampleLocaleEnv
          (some { pattern := fromUtf8 "d.M.y", symbols := Symbols.own })
          (fromUtf8 "en_US_POSIX") (fromUtf8 "fi_FI_POSIX")
        = some { pattern := fromUtf8 "d.M.y", symbols := Symbols.own } :=
  ⟨by decide, by decide,
    (mixing_excludes_embedding sampleLocaleEnv (fromUtf8 "en_US_POSIX") (fromUtf8 "fi_FI_POSIX")
      (by decide) (by decide)).1 _⟩

/-! ## C40: to the 12-hour clock and back -/

/-- The loop of `isTwelveHours` finds a marker only outside a quoted span. -/
theorem isTwelveHoursLoop_of_unquotedCount :
    ∀ (s : QString) (q : Bool), unquotedCount 97 q s = 0 → isTwelveHoursLoop q s = false := by
  intro s
  induction s with
  | nil => intro q _; rfl
  | cons c cs ih =>
    intro q h
    by_cases hc : c = 39
    · subst hc
      have h39 : ((39 : QChar) == 97) = false := by decide
      simp only [unquotedCount, if_true, h39, Bool.and_false, Bool.false_eq_true, if_false,
        Nat.zero_add] at h
      simp only [isTwelveHoursLoop, if_true, h39, Bool.and_false, Bool.false_eq_true, if_false]
      exact ih _ h
    · simp only [unquotedCount, if_neg hc] at h
      simp only [isTwelveHoursLoop, if_neg hc]
      cases q with
      | true =>
        simp only [Bool.not_true, Bool.false_and, Bool.false_eq_true, if_false, Nat.zero_add] at h
        simp only [Bool.not_true, Bool.false_and, Bool.false_eq_true, if_false]
        exact ih _ h
      | false =>
        by_cases h97 : (c == 97) = true
        · simp [h97] at h
        · simp only [h97, Bool.and_false, Bool.false_eq_true, if_false, Nat.zero_add] at h
          simp only [h97, Bool.and_false, Bool.false_eq_true, if_false]
          exact ih _ h

/-- In a text without quotes every marker is outside a quoted span. -/
theorem unquotedCount_of_contains (s : QString) (h39 : s.contains 39 = false)
    (h : unquotedCount 97 false s = 0) : s.contains 97 = false := by
  induction s with
  | nil => rfl
  | cons c cs ih =>
    simp only [List.contains_cons, Bool.or_eq_false_iff, beq_eq_false_iff_ne, ne_eq] at h39 ⊢
    have hc : ¬ c = 39 := fun e => h39.1 e.symm
    simp only [unquotedCount, if_neg hc, Bool.not_false, Bool.true_and] at h
    by_cases h97 : (c == 97) = true
    · simp [h97] at h
    · simp only [h97, Bool.false_eq_true, if_false, Nat.zero_add] at h
      refine ⟨?_, ?_⟩
      · intro e
        exact h97 (by simp [e])
      · have := ih (by simpa using h39.2) h
        simpa using this

/-- A pattern without a marker outside a quoted span is rejected by `isTwelveHours`. -/
theorem isTwelveHours_of_unquotedCount (p : QString) (h : unquotedCount 97 false p = 0) :
    isTwelveHours p = false := by
  unfold isTwelveHours
  split_ifs with h1
  · exact isTwelveHoursLoop_of_unquotedCount p false h
  · exact unquotedCount_of_contains p (by simpa using h1) h

/-- The loop of `dateFormatTo24h` undoes the replacement of the hour letters, on
a text without `a`, `h` and `K` outside a quoted span. -/
theorem to24hLoop_hoursTo12 :
    ∀ (s tmp r : QString) (q : Bool),
      unquotedCount 97 q s = 0 → unquotedCount 104 q s = 0 → unquotedCount 75 q s = 0 →
      to24hLoop tmp q (hoursTo12 q s ++ r) = to24hLoop (tmp ++ s) (quotedAfter q s) r := by
  intro s
  induction s with
  | nil => intro tmp r q _ _ _; simp [hoursTo12, quotedAfter]
  | cons c cs ih =>
    intro tmp r q ha hh hK
    by_cases hc : c = 39
    · subst hc
      have e1 : ((39 : QChar) == 97) = false := by decide
      have e2 : ((39 : QChar) == 104) = false := by decide
      have e3 : ((39 : QChar) == 75) = false := by decide
      simp only [unquotedCount, if_true, e1, e2, e3, Bool.and_false, Bool.false_eq_true,
        if_false, Nat.zero_add] at ha hh hK
      have hrw : to24hLoop tmp q (hoursTo12 q (39 :: cs) ++ r)
          = to24hLoop (tmp ++ [39]) (!q) (hoursTo12 (!q) cs ++ r) := by
        cases q <;> simp [to24hLoop, hoursTo12]
      rw [hrw, ih _ r _ ha hh hK]
      simp [quotedAfter]
    · cases q with
      | true =>
        simp only [unquotedCount, if_neg hc, Bool.not_true, Bool.false_and, Bool.false_eq_true,
          if_false, Nat.zero_add] at ha hh hK
        have hrw : to24hLoop tmp true (hoursTo12 true (c :: cs) ++ r)
            = to24hLoop (tmp ++ [c]) true (hoursTo12 true cs ++ r) := by
          simp [to24hLoop, hoursTo12, hc]
        rw [hrw, ih _ r _ ha hh hK]
        simp [quotedAfter, hc]
      | false =>
        simp only [unquotedCount, if_neg hc, Bool.not_false, Bool.true_and] at ha hh hK
        have h97 : ¬ c = 97 := by
          intro e
          simp [e] at ha
        have h104 : ¬ c = 104 := by
          intro e
          simp [e] at hh
        have h75 : ¬ c = 75 := by
          intro e
          simp [e] at hK
        have b97 : (c == 97) = false := by simpa using h97
        have b104 : (c == 104) = false := by simpa using h104
        have b75 : (c == 75) = false := by simpa using h75
        simp only [b97, b104, b75, Bool.false_eq_true, if_false, Nat.zero_add] at ha hh hK
        have hq : quotedAfter false (c :: cs) = quotedAfter false cs := by
          simp [quotedAfter, hc]
        have happ : tmp ++ c :: cs = tmp ++ [c] ++ cs := by simp
        rw [hq, happ, ← ih (tmp ++ [c]) r false ha hh hK]
        by_cases h72 : c = 72
        · subst h72
          simp [to24hLoop, hoursTo12, fromUtf8, utf16Units]
        · by_cases h107 : c = 107
          · subst h107
            simp [to24hLoop, hoursTo12, fromUtf8, utf16Units]
          · simp [to24hLoop, hoursTo12, hc, h72, h107, h97, h104, h75]

/-- The first loop of `dateFormatTo12h` followed by the loop of
`dateFormatTo24h`: what the first loop appends is read back as the text it was
given, and it is that text itself when no marker was written. -/
theorem to12hLoopBefore_back :
    ∀ (p tmp : QString) (q : Bool),
      unquotedCount 97 q p = 0 → unquotedCount 104 q p = 0 → unquotedCount 75 q p = 0 →
      ∃ X, to12hLoopBefore tmp q false p = tmp ++ X
        ∧ (∀ T, to24hLoop T q X = T ++ p)
        ∧ (unquotedCount 97 q X = 0 → X = p) := by
  intro p
  induction p with
  | nil =>
    intro tmp q _ _ _
    exact ⟨[], by simp [to12hLoopBefore], fun T => by simp [to24hLoop], fun _ => rfl⟩
  | cons c rest ih =>
    intro tmp q ha hh hK
    by_cases hc : c = 39
    · subst hc
      have e1 : ((39 : QChar) == 97) = false := by decide
      have e2 : ((39 : QChar) == 104) = false := by decide
      have e3 : ((39 : QChar) == 75) = false := by decide
      simp only [unquotedCount, if_true, e1, e2, e3, Bool.and_false, Bool.false_eq_true,
        if_false, Nat.zero_add] at ha hh hK
      obtain ⟨X, hX, hback, hsame⟩ := ih (tmp ++ [39]) (!q) ha hh hK
      refine ⟨39 :: X, ?_, ?_, ?_⟩
      · have hrw : to12hLoopBefore tmp q false (39 :: rest)
            = to12hLoopBefore (tmp ++ [39]) (!q) false rest := by
          cases q <;> simp [to12hLoopBefore]
        rw [hrw, hX]
        simp
      · intro T
        have hrw : to24hLoop T q (39 :: X) = to24hLoop (T ++ [39]) (!q) X := by
          cases q <;> simp [to24hLoop]
        rw [hrw, hback]
        simp
      · intro h0
        simp only [unquotedCount, if_true, e1, Bool.and_false, Bool.false_eq_true, if_false,
          Nat.zero_add] at h0
        rw [hsame h0]
    · cases q with
      | true =>
        simp only [unquotedCount, if_neg hc, Bool.not_true, Bool.false_and, Bool.false_eq_true,
          if_false, Nat.zero_add] at ha hh hK
        obtain ⟨X, hX, hback, hsame⟩ := ih (tmp ++ [c]) true ha hh hK
        refine ⟨c :: X, ?_, ?_, ?_⟩
        · have hrw : to12hLoopBefore tmp true false (c :: rest)
              = to12hLoopBefore (tmp ++ [c]) true false rest := by
            simp [to12hLoopBefore, hc]
          rw [hrw, hX]
          simp
        · intro T
          have hrw : to24hLoop T true (c :: X) = to24hLoop (T ++ [c]) true X := by
            simp [to24hLoop, hc]
          rw [hrw, hback]
          simp
        · intro h0
          simp only [unquotedCount, if_neg hc, Bool.not_true, Bool.false_and,
            Bool.false_eq_true, if_false, Nat.zero_add] at h0
          rw [hsame h0]
      | false =>
        simp only [unquotedCount, if_neg hc, Bool.not_false, Bool.true_and] at ha hh hK
        have h97 : ¬ c = 97 := by
          intro e
          simp [e] at ha
        have h104 : ¬ c = 104 := by
          intro e
          simp [e] at hh
        have h75 : ¬ c = 75 := by
          intro e
          simp [e] at hK
        have b97 : (c == 97) = false := by simpa using h97
        have b104 : (c == 104) = false := by simpa using h104
        have b75 : (c == 75) = false := by simpa using h75
        simp only [b97, b104, b75, Bool.false_eq_true, if_false, Nat.zero_add] at ha hh hK
        by_cases h72 : c = 72
        · subst h72
          refine ⟨97 :: 104 :: hoursTo12 false rest, ?_, ?_, ?_⟩
          · have hrw : to12hLoopBefore tmp false false (72 :: rest)
                = to12hLoopBefore (tmp ++ [97, 104]) false true rest := by
              simp [to12hLoopBefore, fromUtf8, utf16Units]
            rw [hrw, to12hLoopBefore_written]
            simp
          · intro T
            have hrw : to24hLoop T false (97 :: 104 :: hoursTo12 false rest)
                = to24hLoop (T ++ [72]) false (hoursTo12 false rest ++ []) := by
              by_cases hend : endsWithChar T 32 = true <;>
                simp [to24hLoop, hend, fromUtf8, utf16Units]
            rw [hrw, to24hLoop_hoursTo12 rest _ [] false ha hh hK]
            simp [to24hLoop]
          · intro h0
            simp [unquotedCount] at h0
        · by_cases h107 : c = 107
          · subst h107
            refine ⟨97 :: 75 :: hoursTo12 false rest, ?_, ?_, ?_⟩
            · have hrw : to12hLoopBefore tmp false false (107 :: rest)
                  = to12hLoopBefore (tmp ++ [97, 75]) false true rest := by
                simp [to12hLoopBefore, fromUtf8, utf16Units]
              rw [hrw, to12hLoopBefore_written]
              simp
            · intro T
              have hrw : to24hLoop T false (97 :: 75 :: hoursTo12 false rest)
                  = to24hLoop (T ++ [107]) false (hoursTo12 false rest ++ []) := by
                by_cases hend : endsWithChar T 32 = true <;>
                  simp [to24hLoop, hend, fromUtf8, utf16Units]
              rw [hrw, to24hLoop_hoursTo12 rest _ [] false ha hh hK]
              simp [to24hLoop]
            · intro h0
              simp [unquotedCount] at h0
          · obtain ⟨X, hX, hback, hsame⟩ := ih (tmp ++ [c]) false ha hh hK
            refine ⟨c :: X, ?_, ?_, ?_⟩
            · have hrw : to12hLoopBefore tmp false false (c :: rest)
                  = to12hLoopBefore (tmp ++ [c]) false false rest := by
                simp [to12hLoopBefore, hc, h72, h107]
              rw [hrw, hX]
              simp
            · intro T
              have hrw : to24hLoop T false (c :: X) = to24hLoop (T ++ [c]) false X := by
                simp [to24hLoop, hc, h97, h104, h75]
              rw [hrw, hback]
              simp
            · intro h0
              simp only [unquotedCount, if_neg hc, Bool.not_false, Bool.true_and, b97,
                Bool.false_eq_true, if_false, Nat.zero_add] at h0
              rw [hsame h0]

/-- The pattern written by `dateFormatTo12h` is written back by
`dateFormatTo24h`, for a pattern whose quotes are balanced and that has no `a`,
`h`, `K` and `z` outside a quoted span. -/
theorem to24hPattern_to12hPattern (language p : QString)
    (hbal : quotedAfter false p = false)
    (ha : unquotedCount 97 false p = 0) (hh : unquotedCount 104 false p = 0)
    (hK : unquotedCount 75 false p = 0) (hz : unquotedCount 122 false p = 0) :
    to24hPattern (to12hPattern language p) = p := by
  have h12 := isTwelveHours_of_unquotedCount p ha
  unfold to12hPattern
  simp only [h12, Bool.not_false, if_true]
  by_cases hw : (startsWith language (fromUtf8 "ja") || startsWith language (fromUtf8 "zh")) = true
  · simp only [hw, if_true]
    obtain ⟨X, hX, hback, hsame⟩ := to12hLoopBefore_back p [] false ha hh hK
    rw [hX, List.nil_append]
    unfold to24hPattern
    cases hX12 : isTwelveHours X with
    | true =>
      simp only [if_true]
      rw [hback, List.nil_append]
    | false =>
      simp only [Bool.false_eq_true, if_false]
      exact hsame (unquotedCount_of_isTwelveHours X hX12)
  · simp only [hw, Bool.false_eq_true, if_false]
    have hloop : to12hLoopAfter [] false false p = (hoursTo12 false p, false) := by
      have := to12hLoopAfter_prefix p [] [] false false hz
      rw [List.append_nil] at this
      rw [this]
      simp [to12hLoopAfter]
    rw [hloop]
    simp only [Bool.not_false, if_true]
    have e : fromUtf8 " a" = [32, 97] := by decide
    rw [e]
    have hX12 : isTwelveHours (hoursTo12 false p ++ [32, 97]) = true := by
      cases hx : isTwelveHours (hoursTo12 false p ++ [32, 97]) with
      | true => rfl
      | false =>
        have h0 := unquotedCount_of_isTwelveHours _ hx
        rw [unquotedCount_append, quotedAfter_hoursTo12, hbal] at h0
        simp [unquotedCount] at h0
    unfold to24hPattern
    rw [hX12]
    simp only [if_true]
    rw [to24hLoop_hoursTo12 p [] [32, 97] false ha hh hK, hbal, List.nil_append]
    simp [to24hLoop, endsWithChar]

/-- C40: for every state of the profile, whatever its Time locale, and every
format whose pattern has balanced single quotes and no `a`, `h`, `K` and `z`
outside a quoted span, `dateFormatTo12h` followed by `dateFormatTo24h` gives the
format back. -/
theorem dateFormatTo24h_dateFormatTo12h (d : MLocalePrivate) (f : DateFormat)
    (hbal : quotedAfter false f.pattern = false)
    (ha : unquotedCount 97 false f.pattern = 0) (hh : unquotedCount 104 false f.pattern = 0)
    (hK : unquotedCount 75 false f.pattern = 0) (hz : unquotedCount 122 false f.pattern = 0) :
    dateFormatTo24h (dateFormatTo12h d (some f)) = some f := by
  simp only [dateFormatTo12h, dateFormatTo24h]
  rw [to24hPattern_to12hPattern _ f.pattern hbal ha hh hK hz]

/-- C40 at the pattern `HH:mm 'h'` for the Time locale `ja_JP`, where the
pattern in between is `ahh:mm 'h'`. -/
theorem dateFormatTo24h_dateFormatTo12h_witness :
    dateFormatTo12h (MLocalePrivate.init (fromUtf8 "ja_JP"))
        (some { pattern := fromUtf8 "HH:mm 'h'", symbols := Symbols.own })
        = some { pattern := fromUtf8 "ahh:mm 'h'", symbols := Symbols.own }
      ∧ dateFormatTo24h (dateFormatTo12h (MLocalePrivate.init (fromUtf8 "ja_JP"))
          (some { pattern := fromUtf8 "HH:mm 'h'", symbols := Symbols.own }))
        = some { pattern := fromUtf8 "HH:mm 'h'", symbols := Symbols.own } :=
  ⟨by decide,
    dateFormatTo24h_dateFormatTo12h (MLocalePrivate.init (fromUtf8 "ja_JP"))
      { pattern := fromUtf8 "HH:mm 'h'", symbols := Symbols.own }
      (by decide) (by decide) (by decide) (by decide) (by decide)⟩

/-! ## C38: bucket assignment and the order of the texts -/

/-- In a strict weak order a text that does not sort after another text sorts
before everything that the other text sorts before. -/
theorem coll_of_not_after (coll : Collator) (hswo : StrictWeakOrder coll) (u v b : QString)
    (hle : coll v u = false) (hvb : coll v b = true) : coll u b = true := by
  obtain ⟨_, htrans, hinc⟩ := hswo
  cases hub : coll u b with
  | true => rfl
  | false =>
    cases huv : coll u v with
    | true => rw [htrans u v b huv hvb] at hub; exact hub.symm
    | false =>
      cases hbu : coll b u with
      | true => rw [htrans v b u hvb hbu] at hle; cases hle
      | false =>
        have := (hinc v u b hle huv hub hbu).1
        rw [hvb] at this
        cases this

/-- The first loop of `indexBucket` finds nothing exactly when no label sorts
after the text. -/
theorem scanBuckets_eq_none_iff (coll : Collator) (up : QString) :
    ∀ (bs : List QString) (i0 : Nat),
      scanBuckets coll up bs i0 = none ↔ ∀ b ∈ bs, coll up b = false := by
  intro bs
  induction bs with
  | nil => intro i0; simp [scanBuckets]
  | cons b bs ih =>
    intro i0
    by_cases hb : coll up b = true
    · simp [scanBuckets, hb]
    · simp [scanBuckets, hb, ih]

/-- The first loop of `indexBucket` stops earlier for a text that sorts before
every label that another text sorts before. -/
theorem scanBuckets_mono (coll : Collator) (u v : QString)
    (h : ∀ b, coll v b = true → coll u b = true) :
    ∀ (bs : List QString) (i0 it : Nat), scanBuckets coll v bs i0 = some it →
      ∃ is, scanBuckets coll u bs i0 = some is ∧ is ≤ it := by
  intro bs
  induction bs with
  | nil => intro i0 it hv; simp [scanBuckets] at hv
  | cons b bs ih =>
    intro i0 it hv
    have hlt := scanBuckets_lt coll v (b :: bs) i0 it hv
    by_cases hu : coll u b = true
    · exact ⟨i0, by simp [scanBuckets, hu], hlt.1⟩
    · have hvb : ¬ coll v b = true := fun hvb => hu (h b hvb)
      simp only [scanBuckets, hvb, Bool.false_eq_true, if_false] at hv
      obtain ⟨is, his, hle⟩ := ih (i0 + 1) it hv
      exact ⟨is, by simp [scanBuckets, hu, his], hle⟩

/-- The first loop of `indexBucket` does not stop at the first label when that
label does not sort after the text. -/
theorem scanBuckets_pos (coll : Collator) (up : QString) (bs : List QString) (i : Nat)
    (h0 : ∀ b, bs.head? = some b → coll up b = false)
    (h : scanBuckets coll up bs 0 = some i) : 1 ≤ i := by
  cases bs with
  | nil => simp [scanBuckets] at h
  | cons b bs =>
    have hb := h0 b rfl
    simp only [scanBuckets, hb, Bool.false_eq_true, if_false] at h
    exact (scanBuckets_lt coll up bs 1 i h).1

/-- With strictly increasing labels, the first of them not `一`, the body of the
first loop returns the label before the index, for an index after the first. -/
theorem bucketAt_preceding (env : BucketEnv) (str fc : QString) (buckets : List QString)
    (coll : Collator) (i : Nat)
    (hinc : buckets.Pairwise (fun a b => coll a b = true))
    (hfirst : buckets.head? ≠ some (fromUtf8 "一"))
    (hpos : 1 ≤ i) (hlt : i < buckets.length) :
    bucketAt env str fc buckets coll i = buckets.get? (i - 1) := by
  unfold bucketAt
  have h0 : i ≠ 0 := by omega
  simp only [h0, if_false]
  cases hb : buckets with
  | nil => rw [hb] at hlt; simp at hlt
  | cons b bs =>
    rw [hb] at hfirst hinc hlt
    have hs : b ≠ fromUtf8 "一" := fun h => hfirst (by simp [h])
    simp only [List.head?_cons, hs, if_false]
    by_cases h1 : 1 < i
    · have e2 : (b :: bs).get? (i - 2) = some ((b :: bs).get ⟨i - 2, by omega⟩) :=
        List.get?_eq_get _
      have e1 : (b :: bs).get? (i - 1) = some ((b :: bs).get ⟨i - 1, by omega⟩) :=
        List.get?_eq_get _
      have hrel : coll ((b :: bs).get ⟨i - 2, by omega⟩) ((b :: bs).get ⟨i - 1, by omega⟩)
          = true :=
        List.pairwise_iff_get.mp hinc ⟨i - 2, by omega⟩ ⟨i - 1, by omega⟩
          (by simp only [Fin.mk_lt_mk]; omega)
      simp only [h1, if_true, e2, e1, hrel]
      simp
    · simp only [h1, if_false]

/-- The second loop of `indexBucket` returns the last label when a prefix of the
text that the loop reaches compares equal to it. -/
theorem lastBucketLoop_of_prefix (coll : Collator) (buckets : List QString)
    (up fc l : QString) (hl : buckets.getLast? = some l) :
    ∀ (n i : Nat),
      (∃ k, i ≤ k ∧ k < i + n ∧ coll l (left up (k + 1)) = false
        ∧ coll (left up (k + 1)) l = false) →
      lastBucketLoop coll buckets up fc n i = some l := by
  intro n
  induction n with
  | zero =>
    intro i h
    obtain ⟨k, h1, h2, _⟩ := h
    omega
  | succ n ih =>
    intro i h
    simp only [lastBucketLoop, hl]
    by_cases hi : coll l (left up (i + 1)) = false ∧ coll (left up (i + 1)) l = false
    · simp [hi.1, hi.2]
    · have hcond : (!coll l (left up (i + 1)) && !coll (left up (i + 1)) l) = false := by
        cases h1 : coll l (left up (i + 1)) <;> cases h2 : coll (left up (i + 1)) l <;>
          simp_all
      simp only [hcond, Bool.false_eq_true, if_false]
      apply ih
      obtain ⟨k, h1, h2, h3, h4⟩ := h
      have hk : k ≠ i := by
        intro e
        subst e
        exact hi ⟨h3, h4⟩
      exact ⟨k, by omega, by omega, h3, h4⟩

/-- A text that passes the fast paths and keeps a first character reaches the
two loops of `indexBucket`. -/
theorem indexBucket_eq_loops (env : BucketEnv) (str : QString) (buckets : List QString)
    (coll : Collator)
    (hne : buckets ≠ [])
    (hstr : str ≠ [])
    (hfast1 : ¬ (startsWith str (fromUtf8 "𪛖") = true
                  ∧ buckets.getLast? = some (fromUtf8 "𪛖")))
    (hfast2 : ¬ (startsWith str (fromUtf8 "ン") = true
                  ∧ buckets.getLast? = some (fromUtf8 "ん")))
    (hup : env.toUpper str ≠ [])
    (hacc : removeAccents env (leadingCharacter (env.toUpper str)) ≠ []) :
    ∃ fc, indexBucket env str buckets coll
      = match scanBuckets coll (env.toUpper str) buckets 0 with
        | some i => bucketAt env str fc buckets coll i
        | none => lastBucketLoop coll buckets (env.toUpper str) fc (env.toUpper str).length 0 := by
  obtain ⟨l, hl⟩ : ∃ l, buckets.getLast? = some l := by
    cases h : buckets.getLast? with
    | none => exact absurd (List.getLast?_eq_none_iff.mp h) hne
    | some l => exact ⟨l, rfl⟩
  have hf1 : fastPath str buckets (fromUtf8 "𪛖") (fromUtf8 "𪛖") = some false := by
    unfold fastPath lastIs
    by_cases hs : startsWith str (fromUtf8 "𪛖") = true
    · have : l ≠ fromUtf8 "𪛖" := fun h => hfast1 ⟨hs, by rw [hl, h]⟩
      simp [hs, hl, this]
    · simp [hs]
  have hf2 : fastPath str buckets (fromUtf8 "ン") (fromUtf8 "ん") = some false := by
    unfold fastPath lastIs
    by_cases hs : startsWith str (fromUtf8 "ン") = true
    · have : l ≠ fromUtf8 "ん" := fun h => hfast2 ⟨hs, by rw [hl, h]⟩
      simp [hs, hl, this]
    · simp [hs]
  unfold indexBucket
  simp only [hstr, if_false, hf1, hf2]
  unfold indexBucketSlow
  simp only [hup, if_false]
  cases hra : removeAccents env (leadingCharacter (env.toUpper str)) with
  | nil => exact absurd hra hacc
  | cons f0 frest => exact ⟨_, rfl⟩

/-- The label of a text that reaches the loops of `indexBucket` and for which a
label after the first sorts after it, or a prefix compares equal to the last
label: the label before the first label that sorts after the text, or the last
label. -/
theorem indexBucket_regular (env : BucketEnv) (str : QString) (buckets : List QString)
    (coll : Collator)
    (hinc : buckets.Pairwise (fun a b => coll a b = true))
    (hfirst : buckets.head? ≠ some (fromUtf8 "一"))
    (hne : buckets ≠ [])
    (hstr : str ≠ [])
    (hfast1 : ¬ (startsWith str (fromUtf8 "𪛖") = true
                  ∧ buckets.getLast? = some (fromUtf8 "𪛖")))
    (hfast2 : ¬ (startsWith str (fromUtf8 "ン") = true
                  ∧ buckets.getLast? = some (fromUtf8 "ん")))
    (hup : env.toUpper str ≠ [])
    (hacc : removeAccents env (leadingCharacter (env.toUpper str)) ≠ [])
    (h0 : ∀ b, buckets.head? = some b → coll (env.toUpper str) b = false)
    (hreg : (∃ b ∈ buckets, coll (env.toUpper str) b = true)
      ∨ (∃ k l, k < (env.toUpper str).length ∧ buckets.getLast? = some l
          ∧ coll l (left (env.toUpper str) (k + 1)) = false
          ∧ coll (left (env.toUpper str) (k + 1)) l = false)) :
    (∀ i, scanBuckets coll (env.toUpper str) buckets 0 = some i →
        1 ≤ i ∧ i < buckets.length
          ∧ indexBucket env str buckets coll = buckets.get? (i - 1))
      ∧ (scanBuckets coll (env.toUpper str) buckets 0 = none →
        indexBucket env str buckets coll = buckets.get? (buckets.length - 1)) := by
  obtain ⟨fc, hfc⟩ := indexBucket_eq_loops env str buckets coll hne hstr hfast1 hfast2 hup hacc
  constructor
  · intro i hi
    have hpos := scanBuckets_pos coll _ buckets i h0 hi
    have hlt : i < buckets.length := by
      have := scanBuckets_lt coll _ buckets 0 i hi
      omega
    rw [hi] at hfc
    exact ⟨hpos, hlt, by rw [hfc]; exact bucketAt_preceding env str fc buckets coll i hinc hfirst hpos hlt⟩
  · intro hnone
    rw [hnone] at hfc
    rcases hreg with ⟨b, hb, hcb⟩ | ⟨k, l, hk, hl, h1, h2⟩
    · have := (scanBuckets_eq_none_iff coll _ buckets 0).mp hnone b hb
      rw [hcb] at this
      cases this
    · rw [hfc, lastBucketLoop_of_prefix coll buckets _ fc l hl _ 0 ⟨k, by omega, by omega, h1, h2⟩]
      rw [List.getLast?_eq_getElem?] at hl
      rw [List.get?_eq_getElem?, hl]

/-- C38 as stated fails: the labels `A`, `E`, `É`, `F` are sorted non-decreasingly
under the accent-insensitive strict weak order (`E` and `É` compare equal), the
text `Éa` sorts before the text `Eb`, neither is a fast-path case and both get
a label of the list, yet `Éa` gets `É`, which comes after the label `E` of
`Eb`: between two labels that compare equal the text that starts with the
later one gets the later one. -/
theorem indexBucket_monotone_counterexample :
    StrictWeakOrder sampleCollator
      ∧ [fromUtf8 "A", fromUtf8 "E", fromUtf8 "É", fromUtf8 "F"].Pairwise
          (fun a b => sampleCollator b a = false)
      ∧ sampleCollator (fromUtf8 "Éa") (fromUtf8 "Eb") = true
      ∧ sampleCollator (fromUtf8 "Eb") (fromUtf8 "Éa") = false
      ∧ sampleCollator (sampleEnv.toUpper (fromUtf8 "Eb")) (sampleEnv.toUpper (fromUtf8 "Éa"))
          = false
      ∧ startsWith (fromUtf8 "Éa") (fromUtf8 "𪛖") = false
      ∧ startsWith (fromUtf8 "Éa") (fromUtf8 "ン") = false
      ∧ startsWith (fromUtf8 "Eb") (fromUtf8 "𪛖") = false
      ∧ startsWith (fromUtf8 "Eb") (fromUtf8 "ン") = false
      ∧ indexBucket sampleEnv (fromUtf8 "Éa")
          [fromUtf8 "A", fromUtf8 "E", fromUtf8 "É", fromUtf8 "F"] sampleCollator
          = [fromUtf8 "A", fromUtf8 "E", fromUtf8 "É", fromUtf8 "F"].get? 2
      ∧ indexBucket sampleEnv (fromUtf8 "Eb")
          [fromUtf8 "A", fromUtf8 "E", fromUtf8 "É", fromUtf8 "F"] sampleCollator
          = [fromUtf8 "A", fromUtf8 "E", fromUtf8 "É", fromUtf8 "F"].get? 1
      ∧ [fromUtf8 "A", fromUtf8 "E", fromUtf8 "É", fromUtf8 "F"].get? 2 = some (fromUtf8 "É")
      ∧ [fromUtf8 "A", fromUtf8 "E", fromUtf8 "É", fromUtf8 "F"].get? 1 = some (fromUtf8 "E")
      ∧ [fromUtf8 "A", fromUtf8 "E", fromUtf8 "É", fromUtf8 "F"].indexOf (fromUtf8 "É") = 2
      ∧ [fromUtf8 "A", fromUtf8 "E", fromUtf8 "É", fromUtf8 "F"].indexOf (fromUtf8 "E") = 1 :=
  ⟨sampleCollator_strictWeakOrder, by decide, by decide, by decide, by decide, by decide,
    by decide, by decide, by decide, by decide, by decide, by decide, by decide, by decide,
    by decide⟩

/-- C38, amended: let the collator be a strict weak order and the labels
strictly increasing under it, the first of them not `一`.  Let `s` and `t` be
non-empty texts that hit no fast path and keep a non-empty first character
when upper-cased and stripped of accents, such that the upper-cased `s` does
not sort after the upper-cased `t` and does not sort before the first label,
and such that for each of the two some label sorts after the upper-cased text
or a prefix of the upper-cased text compares equal to the last label.  Then
`s` gets the label at an index `i` and `t` the label at an index `j` of the
list with `i <= j`. -/
theorem indexBucket_monotone (env : BucketEnv) (s t : QString) (buckets : List QString)
    (coll : Collator)
    (hswo : StrictWeakOrder coll)
    (hinc : buckets.Pairwise (fun a b => coll a b = true))
    (hfirst : buckets.head? ≠ some (fromUtf8 "一"))
    (hs : s ≠ []) (ht : t ≠ [])
    (hsfast1 : ¬ (startsWith s (fromUtf8 "𪛖") = true
                  ∧ buckets.getLast? = some (fromUtf8 "𪛖")))
    (hsfast2 : ¬ (startsWith s (fromUtf8 "ン") = true
                  ∧ buckets.getLast? = some (fromUtf8 "ん")))
    (htfast1 : ¬ (startsWith t (fromUtf8 "𪛖") = true
                  ∧ buckets.getLast? = some (fromUtf8 "𪛖")))
    (htfast2 : ¬ (startsWith t (fromUtf8 "ン") = true
                  ∧ buckets.getLast? = some (fromUtf8 "ん")))
    (hsup : env.toUpper s ≠ []) (htup : env.toUpper t ≠ [])
    (hsacc : removeAccents env (leadingCharacter (env.toUpper s)) ≠ [])
    (htacc : removeAccents env (leadingCharacter (env.toUpper t)) ≠ [])
    (hle : coll (env.toUpper t) (env.toUpper s) = false)
    (hs0 : ∀ b, buckets.head? = some b → coll (env.toUpper s) b = false)
    (hsreg : (∃ b ∈ buckets, coll (env.toUpper s) b = true)
      ∨ (∃ k l, k < (env.toUpper s).length ∧ buckets.getLast? = some l
          ∧ coll l (left (env.toUpper s) (k + 1)) = false
          ∧ coll (left (env.toUpper s) (k + 1)) l = false))
    (htreg : (∃ b ∈ buckets, coll (env.toUpper t) b = true)
      ∨ (∃ k l, k < (env.toUpper t).length ∧ buckets.getLast? = some l
          ∧ coll l (left (env.toUpper t) (k + 1)) = false
          ∧ coll (left (env.toUpper t) (k + 1)) l = false)) :
    ∃ i j, i ≤ j ∧ j < buckets.length
      ∧ indexBucket env s buckets coll = buckets.get? i
      ∧ indexBucket env t buckets coll = buckets.get? j := by
  have hne : buckets ≠ [] := by
    rcases htreg with ⟨b, hb, _⟩ | ⟨k, l, _, hl, _⟩
    · exact List.ne_nil_of_mem hb
    · intro e
      rw [e] at hl
      cases hl
  have hlen : 0 < buckets.length := List.length_pos.mpr hne
  have hkey : ∀ b, coll (env.toUpper t) b = true → coll (env.toUpper s) b = true :=
    fun b hb => coll_of_not_after coll hswo _ _ b hle hb
  have ht0 : ∀ b, buckets.head? = some b → coll (env.toUpper t) b = false := by
    intro b hb
    cases h : coll (env.toUpper t) b with
    | false => rfl
    | true =>
      have := hkey b h
      rw [hs0 b hb] at this
      cases this
  have hS := indexBucket_regular env s buckets coll hinc hfirst hne hs hsfast1 hsfast2 hsup hsacc
    hs0 hsreg
  have hT := indexBucket_regular env t buckets coll hinc hfirst hne ht htfast1 htfast2 htup htacc
    ht0 htreg
  cases hst : scanBuckets coll (env.toUpper t) buckets 0 with
  | some it =>
    obtain ⟨is, his, hle2⟩ := scanBuckets_mono coll _ _ hkey buckets 0 it hst
    obtain ⟨h1, h2, h3⟩ := hS.1 is his
    obtain ⟨h4, h5, h6⟩ := hT.1 it hst
    exact ⟨is - 1, it - 1, by omega, by omega, h3, h6⟩
  | none =>
    have h6 := hT.2 hst
    cases hss : scanBuckets coll (env.toUpper s) buckets 0 with
    | some is =>
      obtain ⟨h1, h2, h3⟩ := hS.1 is hss
      exact ⟨is - 1, buckets.length - 1, by omega, by omega, h3, h6⟩
    | none =>
      exact ⟨buckets.length - 1, buckets.length - 1, le_refl _, by omega, hS.2 hss, h6⟩

/-- C38, amended, at the texts `Émile` and `Zoe` with the labels `A` .. `Z` and
the accent-insensitive collator: `Émile` gets `E`, the label before the first
one that sorts after it, and `Zoe`, after which no label sorts, gets the last
label `Z`. -/
theorem indexBucket_monotone_witness :
    sampleCollator (sampleEnv.toUpper (fromUtf8 "Zoe")) (sampleEnv.toUpper (fromUtf8 "Émile"))
        = false
      ∧ indexBucket sampleEnv (fromUtf8 "Émile") latinBuckets sampleCollator
          = some (fromUtf8 "E")
      ∧ indexBucket sampleEnv (fromUtf8 "Zoe") latinBuckets sampleCollator = some (fromUtf8 "Z")
      ∧ ∃ i j, i ≤ j ∧ j < latinBuckets.length
          ∧ indexBucket sampleEnv (fromUtf8 "Émile") latinBuckets sampleCollator
              = latinBuckets.get? i
          ∧ indexBucket sampleEnv (fromUtf8 "Zoe") latinBuckets sampleCollator
              = latinBuckets.get? j :=
  ⟨by decide, by decide, by decide,
    indexBucket_monotone sampleEnv (fromUtf8 "Émile") (fromUtf8 "Zoe") latinBuckets
      sampleCollator sampleCollator_strictWeakOrder (by decide) (by decide) (by decide)
      (by decide) (by decide) (by decide) (by decide) (by decide) (by decide) (by decide)
      (by decide) (by decide) (by decide)
      (by
        intro b hb
        have : b = fromUtf8 "A" := by
          have h : latinBuckets.head? = some (fromUtf8 "A") := by decide
          rw [h] at hb
          exact (Option.some.inj hb).symm
        subst this
        decide)
      (Or.inl ⟨fromUtf8 "F", by decide, by decide⟩)
      (Or.inr ⟨0, fromUtf8 "Z", by decide, by decide, by decide, by decide⟩)⟩

end MLocale
